import Mathlib

/-!
# A JSON lexer (`src/golang/main.go`): shallow embedding and verified properties

The Go function `tokenizer` converts its input to `[]rune` and scans it with a
cursor `idx`.  The embedding below follows the source statement by statement:

* the input is the rune slice `runes` (the value of `[]rune(input)`), a list of
  Unicode scalar values;
* Go `int` cursors are natural numbers (all of them are bounded by the length
  of the slice, so machine overflow plays no role);
* an index or slice expression that is out of range is a run-time panic,
  recorded as `Run.panic`;
* every `for` loop is a recursion over a fuel counter; `Run.outOfFuel` is the
  outcome of a loop that still wants to iterate when the fuel is used up
  (`tokenizer_ne_outOfFuel` shows this never happens);
* a Go `string` built from runes or from an ASCII literal is a Lean `String`
  (a list of scalar values); byte indexing `s[i]` and `strings.HasPrefix` go
  through its UTF-8 encoding;
* the `timestamp` field of `CustomError` (`time.Now()`) is not modelled;
* the two range tables of package `unicode` that `IsSpace` and `IsDigit`
  consult above Latin-1 are parameters (`UnicodeTables`).
-/

namespace Lexer

/-! ## Go run-time model -/

/-- Outcome of running a piece of Go code in the model. -/
inductive Run (α : Type) where
  | done (a : α)
  | panic
  | outOfFuel
deriving DecidableEq, Repr

/-- The range tables `unicode.White_Space` and `unicode.Digit`, which
`unicode.IsSpace` and `unicode.IsDigit` consult for runes above `MaxLatin1`. -/
structure UnicodeTables where
  White_Space : Char → Bool
  Digit : Char → Bool

/-- Go `unicode.IsSpace`: in Latin-1 exactly `\t \n \v \f \r`, space, U+0085
and U+00A0; above Latin-1 the table `White_Space`. -/
def unicode.IsSpace (U : UnicodeTables) (r : Char) : Bool :=
  if r.toNat ≤ 0xFF then
    r.toNat = 0x09 || r.toNat = 0x0A || r.toNat = 0x0B || r.toNat = 0x0C ||
      r.toNat = 0x0D || r.toNat = 0x20 || r.toNat = 0x85 || r.toNat = 0xA0
  else U.White_Space r

/-- Go `unicode.IsDigit`: in Latin-1 exactly `'0' ≤ r ≤ '9'`; above Latin-1 the
table `Digit`. -/
def unicode.IsDigit (U : UnicodeTables) (r : Char) : Bool :=
  if r.toNat ≤ 0xFF then decide (0x30 ≤ r.toNat ∧ r.toNat ≤ 0x39)
  else U.Digit r

/-- Go `utf8.EncodeRune` on a scalar value: the bytes of its UTF-8 encoding. -/
def utf8.EncodeRune (r : Char) : List Nat :=
  let i := r.toNat
  if i ≤ 0x7F then [i]
  else if i ≤ 0x7FF then [0xC0 ||| (i >>> 6), 0x80 ||| (i &&& 0x3F)]
  else if i ≤ 0xFFFF then
    [0xE0 ||| (i >>> 12), 0x80 ||| ((i >>> 6) &&& 0x3F), 0x80 ||| (i &&& 0x3F)]
  else
    [0xF0 ||| (i >>> 18), 0x80 ||| ((i >>> 12) &&& 0x3F),
      0x80 ||| ((i >>> 6) &&& 0x3F), 0x80 ||| (i &&& 0x3F)]

/-- The bytes of a Go string holding the scalar values `s`. -/
def bytes (s : String) : List Nat :=
  s.data.flatMap utf8.EncodeRune

/-- Go `utf8.RuneCountInString` on a string of scalar values. -/
def utf8.RuneCountInString (s : String) : Nat :=
  s.data.length

/-- Go `strings.HasPrefix(s, pre)`: `s` begins with the bytes of `pre`. -/
def strings.HasPrefix (s pre : String) : Bool :=
  (bytes pre).isPrefixOf (bytes s)

/-- Go slice expression `runes[lo:hi]`; out of range is `none` (a panic). -/
def slice (runes : List Char) (lo hi : Nat) : Option (List Char) :=
  if lo ≤ hi ∧ hi ≤ runes.length then some ((runes.drop lo).take (hi - lo)) else none

/-- Go `fmt.Sprint` on a non-negative `int`. -/
def fmt.Sprint (n : Nat) : String :=
  Nat.repr n

/-! ## Data model (`main.go` lines 11-48) -/

/-- The error record `CustomError` (without its `timestamp`). -/
structure CustomError where
  position : String
  error : String
deriving DecidableEq, Repr

def TKN_BRACE_OPEN : Char := '{'
def NAME_BRACE_OPEN : String := "BRACE_OPEN"
def TKN_BRACE_CLOSE : Char := '}'
def NAME_BRACE_CLOSE : String := "BRACE_CLOSE"
def TKN_BRACKET_OPEN : Char := '['
def NAME_BRACKET_OPEN : String := "BRACKET_OPEN"
def TKN_BRACKET_CLOSE : Char := ']'
def NAME_BRACKET_CLOSE : String := "BRACKET_CLOSE"
def TKN_COLON : Char := ':'
def NAME_COLON : String := "COLON"
def TKN_COMMA : Char := ','
def NAME_COMMA : String := "COMMA"
def TKN_QUOTE : Char := '"'
def NAME_QUOTE : String := "QUOTE"
def STRING : String := "STRING"
def NUMBER : String := "NUMBER"
def TRUE : String := "TRUE"
def FALSE : String := "FALSE"
def NULL : String := "NULL"

/-- The record `Token`. -/
structure Token where
  value : String
  name : String
  start_position : Nat
  end_position : Nat
  width : Nat
deriving DecidableEq, Repr

/-! ## `validateNumber` (`main.go` lines 50-62) -/

/-- The function `validateNumber`; `number[i]` indexes the bytes of the string,
and `none` is the panic of an index out of range. -/
def validateNumber (number : String) : Option Bool :=
  match (bytes number)[0]? with
  | none => none
  | some b0 =>
    if b0 = 0x2D then
      if utf8.RuneCountInString number = 0 then some false
      else
        match (bytes number)[1]? with
        | none => none
        | some b1 =>
          if b1 = 0x30 then some false
          else if b0 = 0x30 then some false else some true
    else if b0 = 0x30 then some false else some true

/-! ## `tokenizer` (`main.go` lines 64-255) -/

/-- The string loop, lines 116-125: from `idx`, skip two positions at a
backslash, stop at a quote, else advance by one; returns the final `idx`. -/
def scanString (runes : List Char) : Nat → Nat → Run Nat
  | 0, idx => if idx < runes.length then .outOfFuel else .done idx
  | fuel + 1, idx =>
    if idx < runes.length then
      match runes[idx]? with
      | none => .panic
      | some c =>
        if c = '\\' then scanString runes fuel (idx + 2)
        else if c = '"' then .done idx
        else scanString runes fuel (idx + 1)
    else .done idx

/-- How the number loop ends: at label `numberDone` with the loop variables, or
by returning an error. -/
inductive NumberScan where
  | numberDone (idx : Nat) (isExp : Bool) (expDigits : Nat)
  | fail (err : CustomError)
deriving DecidableEq, Repr

/-- The number loop, lines 175-215. -/
def scanNumber (U : UnicodeTables) (runes : List Char) :
    Nat → Nat → Bool → Bool → Nat → Run NumberScan
  | 0, idx, _, isExp, expDigits =>
    if idx < runes.length then .outOfFuel else .done (.numberDone idx isExp expDigits)
  | fuel + 1, idx, isFloat, isExp, expDigits =>
    if idx < runes.length then
      match runes[idx]? with
      | none => .panic
      | some c =>
        if unicode.IsDigit U c then
          scanNumber U runes fuel (idx + 1) isFloat isExp
            (if isExp then expDigits + 1 else expDigits)
        else if c = '.' then
          if isFloat || isExp then
            .done (.fail ⟨fmt.Sprint idx, "Invalid number format"⟩)
          else scanNumber U runes fuel (idx + 1) true isExp expDigits
        else if c = 'e' ∨ c = 'E' then
          if isExp then
            .done (.fail ⟨fmt.Sprint idx, "Multiple exponents not allowed"⟩)
          else if idx + 1 < runes.length then
            match runes[idx + 1]? with
            | none => .panic
            | some s =>
              if s = '+' ∨ s = '-' then scanNumber U runes fuel (idx + 2) isFloat true 0
              else scanNumber U runes fuel (idx + 1) isFloat true 0
          else scanNumber U runes fuel (idx + 1) isFloat true 0
        else .done (.numberDone idx isExp expDigits)
    else .done (.numberDone idx isExp expDigits)

/-- What one pass through the body of the main loop does: go on with a new
cursor and token list, or return from `tokenizer`. -/
inductive Step where
  | next (idx : Nat) (tokens : List Token)
  | ret (tokens : List Token) (err : Option CustomError)
deriving DecidableEq, Repr

/-- The number branch, lines 167-244, entered at `start` with the first
character already accepted. -/
def numberBranch (U : UnicodeTables) (runes : List Char) (start : Nat)
    (tokens : List Token) : Run Step :=
  match scanNumber U runes (runes.length - (start + 1)) (start + 1) false false 0 with
  | .outOfFuel => .outOfFuel
  | .panic => .panic
  | .done (.fail err) => .done (.ret [] (some err))
  | .done (.numberDone idx isExp expDigits) =>
    match slice runes start idx with
    | none => .panic
    | some sl =>
      let number := String.mk sl
      match validateNumber number with
      | none => .panic
      | some false => .done (.ret [] (some ⟨fmt.Sprint start, "Invalid number"⟩))
      | some true =>
        if isExp ∧ expDigits = 0 then
          .done (.ret [] (some ⟨fmt.Sprint idx, "Exponent requires digits"⟩))
        else
          .done (.next idx (tokens ++ [⟨number, NUMBER, start, idx, idx - start⟩]))

/-- The `default` branch of the switch, lines 146-250. -/
def defaultBranch (U : UnicodeTables) (runes : List Char) (idx : Nat) (char : Char)
    (tokens : List Token) : Run Step :=
  match slice runes idx runes.length with
  | none => .panic
  | some sl =>
    let remaining := String.mk sl
    if strings.HasPrefix remaining "true" then
      .done (.next (idx + 4) (tokens ++ [⟨"true", TRUE, idx, idx + 4, 4⟩]))
    else if strings.HasPrefix remaining "false" then
      .done (.next (idx + 5) (tokens ++ [⟨"false", FALSE, idx, idx + 5, 5⟩]))
    else if strings.HasPrefix remaining "null" then
      .done (.next (idx + 4) (tokens ++ [⟨"null", NULL, idx, idx + 4, 4⟩]))
    else if unicode.IsDigit U char ∨ char = '-' then
      numberBranch U runes idx tokens
    else .done (.ret [] (some ⟨fmt.Sprint idx, "Unexpected character"⟩))

/-- The string branch, lines 112-144, entered at the opening quote `start`. -/
def stringBranch (runes : List Char) (start : Nat) (tokens : List Token) : Run Step :=
  match scanString runes (runes.length - (start + 1)) (start + 1) with
  | .outOfFuel => .outOfFuel
  | .panic => .panic
  | .done idx =>
    if idx ≥ runes.length then
      .done (.ret [] (some ⟨fmt.Sprint start, "Unterminated string"⟩))
    else
      match slice runes (start + 1) idx with
      | none => .panic
      | some sl =>
        .done (.next (idx + 1)
          (tokens ++ [⟨String.mk sl, STRING, start + 1, idx, idx - start - 1⟩]))

/-- The body of the main loop, lines 79-251, at a cursor `idx < length`. -/
def iteration (U : UnicodeTables) (runes : List Char) (idx : Nat)
    (tokens : List Token) : Run Step :=
  match runes[idx]? with
  | none => .panic
  | some char =>
    if unicode.IsSpace U char then .done (.next (idx + 1) tokens)
    else if char = TKN_BRACE_OPEN then
      .done (.next (idx + 1)
        (tokens ++ [⟨String.singleton TKN_BRACE_OPEN, NAME_BRACE_OPEN, idx, idx + 1, 1⟩]))
    else if char = TKN_BRACE_CLOSE then
      .done (.next (idx + 1)
        (tokens ++ [⟨String.singleton TKN_BRACE_CLOSE, NAME_BRACE_CLOSE, idx, idx + 1, 1⟩]))
    else if char = TKN_BRACKET_OPEN then
      .done (.next (idx + 1)
        (tokens ++ [⟨String.singleton TKN_BRACKET_OPEN, NAME_BRACKET_OPEN, idx, idx + 1, 1⟩]))
    else if char = TKN_BRACKET_CLOSE then
      .done (.next (idx + 1)
        (tokens ++ [⟨String.singleton TKN_BRACKET_CLOSE, NAME_BRACKET_CLOSE, idx, idx + 1, 1⟩]))
    else if char = TKN_COLON then
      .done (.next (idx + 1)
        (tokens ++ [⟨String.singleton TKN_COLON, NAME_COLON, idx, idx + 1, 1⟩]))
    else if char = TKN_COMMA then
      .done (.next (idx + 1)
        (tokens ++ [⟨String.singleton TKN_COMMA, NAME_COMMA, idx, idx + 1, 1⟩]))
    else if char = TKN_QUOTE then stringBranch runes idx tokens
    else defaultBranch U runes idx char tokens

/-- The main loop, lines 78-254. -/
def mainLoop (U : UnicodeTables) (runes : List Char) :
    Nat → Nat → List Token → Run (List Token × Option CustomError)
  | 0, idx, tokens => if idx < runes.length then .outOfFuel else .done (tokens, none)
  | fuel + 1, idx, tokens =>
    if idx < runes.length then
      match iteration U runes idx tokens with
      | .outOfFuel => .outOfFuel
      | .panic => .panic
      | .done (.ret toks err) => .done (toks, err)
      | .done (.next idx1 tokens1) => mainLoop U runes fuel idx1 tokens1
    else .done (tokens, none)

/-- The function `tokenizer` on the rune slice of its input.  The result is
the returned pair `([]Token, *CustomError)`; a `nil` slice is the empty list. -/
def tokenizer (U : UnicodeTables) (runes : List Char) :
    Run (List Token × Option CustomError) :=
  if runes.length = 0 then
    .done ([], some ⟨"0", "No input to parse"⟩)
  else mainLoop U runes runes.length 0 []

/-- A table pair for the examples: no white space and no digit above Latin-1. -/
def asciiTables : UnicodeTables := ⟨fun _ => false, fun _ => false⟩

/-! ## Vocabulary of the specification -/

/-- What a pass through the loop body that goes on to the next iteration has
done at cursor `idx`: skipped one white-space character; or appended a token
other than a string, which starts at `idx` and ends at the new cursor; or
appended a string token, whose quotes stand at `idx` and at its end. -/
inductive StepSpec (U : UnicodeTables) (runes : List Char) (idx : Nat)
    (tokens : List Token) : Nat → List Token → Prop
  | space (c : Char) (hc : runes[idx]? = some c) (hs : unicode.IsSpace U c = true) :
      StepSpec U runes idx tokens (idx + 1) tokens
  | plain (t : Token) (hname : t.name ≠ STRING) (hstart : t.start_position = idx)
      (hlt : idx < t.end_position) (hle : t.end_position ≤ runes.length)
      (hwidth : t.width = t.end_position - idx)
      (hval : slice runes idx t.end_position = some t.value.data) :
      StepSpec U runes idx tokens t.end_position (tokens ++ [t])
  | string (t : Token) (hname : t.name = STRING) (hopen : runes[idx]? = some '"')
      (hstart : t.start_position = idx + 1) (hle : idx + 1 ≤ t.end_position)
      (hclose : runes[t.end_position]? = some '"')
      (hwidth : t.width = t.end_position - (idx + 1))
      (hval : slice runes (idx + 1) t.end_position = some t.value.data) :
      StepSpec U runes idx tokens (t.end_position + 1) (tokens ++ [t])


/-- What the loop establishes about a token `t` it has emitted: a token other
than a string covers at least one position and its lexeme is the slice it
spans; a string token spans the text between two quotes. -/
def Emitted (runes : List Char) (t : Token) : Prop :=
  (t.name ≠ STRING ∧ t.start_position < t.end_position ∧ t.end_position ≤ runes.length ∧
      t.width = t.end_position - t.start_position ∧
      slice runes t.start_position t.end_position = some t.value.data) ∨
  (t.name = STRING ∧ 1 ≤ t.start_position ∧ runes[t.start_position - 1]? = some '"' ∧
      t.start_position ≤ t.end_position ∧ runes[t.end_position]? = some '"' ∧
      t.width = t.end_position - t.start_position ∧
      slice runes t.start_position t.end_position = some t.value.data)

/-- The order between an earlier token `a` and a later token `b`: strictly
increasing starts, and `a` ends before `b` starts. -/
def Before (a b : Token) : Prop :=
  a.start_position < b.start_position ∧ a.end_position ≤ b.start_position

/-- The offset `i` lies inside the half-open span
`[start_position, end_position)` of `t`. -/
def Token.covers (i : Nat) (t : Token) : Bool :=
  decide (t.start_position ≤ i ∧ i < t.end_position)

/-- How many of the tokens have `i` inside their span. -/
def spansAt (tokens : List Token) (i : Nat) : Nat :=
  tokens.countP (Token.covers i)

/-- The offset `i` of the input is accounted for: it lies in the span of
exactly one token; or it lies in no span and holds a white-space character; or
it lies in no span and holds the opening or closing quote of a string token. -/
def Accounted (U : UnicodeTables) (runes : List Char) (tokens : List Token) (i : Nat) :
    Prop :=
  spansAt tokens i = 1 ∨
    (spansAt tokens i = 0 ∧
      ((∃ c, runes[i]? = some c ∧ unicode.IsSpace U c = true) ∨
        (runes[i]? = some '"' ∧
          ∃ t ∈ tokens, t.name = STRING ∧ (i + 1 = t.start_position ∨ i = t.end_position))))

/-- The text `r(t)` a token stands for in the input: for a string token the
lexeme between two quotes, for every other token the lexeme. -/
def Token.text (t : Token) : List Char :=
  if t.name = STRING then '"' :: (t.value.data ++ ['"']) else t.value.data

/-- The text `w₀ r(t₁) w₁ r(t₂) … wₙ₋₁ r(tₙ)`: each token preceded by its gap. -/
def interleave : List (List Char) → List Token → List Char
  | w :: ws, t :: ts => w ++ t.text ++ interleave ws ts
  | _, _ => []

/-- Every character of `w` is white space (`unicode.IsSpace`). -/
def AllSpace (U : UnicodeTables) (w : List Char) : Prop :=
  ∀ c ∈ w, unicode.IsSpace U c = true

/-- The first `idx` characters of the input are the tokens emitted so far,
each preceded by a gap of white space, followed by a last gap. -/
def RoundTrip (U : UnicodeTables) (runes : List Char) (idx : Nat) (tokens : List Token) :
    Prop :=
  ∃ (ws : List (List Char)) (wn : List Char), ws.length = tokens.length ∧
    (∀ w ∈ ws, AllSpace U w) ∧ AllSpace U wn ∧
    runes.take idx = interleave ws tokens ++ wn

/-- One unit of a string body: one scalar value other than the quote and the
backslash, or a backslash followed by any one scalar value. -/
inductive StringUnit : List Char → Prop
  | plain (c : Char) (hq : c ≠ '"') (hb : c ≠ '\\') : StringUnit [c]
  | escape (c : Char) : StringUnit ['\\', c]

/-- A string body: a concatenation of units. -/
inductive StringBody : List Char → Prop
  | nil : StringBody []
  | cons {u body : List Char} (hu : StringUnit u) (hb : StringBody body) :
      StringBody (u ++ body)

/-- A body with no unescaped quote: a concatenation of units, optionally
followed by one lone backslash. -/
def OpenBody (body : List Char) : Prop :=
  StringBody body ∨ ∃ b, StringBody b ∧ body = b ++ ['\\']

/-- A prefix of white space and structural characters `{ } [ ] : ,`. -/
def StructuralPrefix (U : UnicodeTables) (p : List Char) : Prop :=
  ∀ c ∈ p, unicode.IsSpace U c = true ∨ c ∈ ['{', '}', '[', ']', ':', ',']

/-- The input holds a lone minus at offset `i`: a `-` followed by the end of
the input or by a character that is no digit, `.`, `e` or `E`. -/
def LoneMinus (U : UnicodeTables) (runes : List Char) (i : Nat) : Prop :=
  runes[i]? = some '-' ∧
    ∀ c, runes[i + 1]? = some c →
      unicode.IsDigit U c = false ∧ c ≠ '.' ∧ c ≠ 'e' ∧ c ≠ 'E'

/-- The token name that matches a structural character. -/
def structuralName (c : Char) : String :=
  if c = TKN_BRACE_OPEN then NAME_BRACE_OPEN
  else if c = TKN_BRACE_CLOSE then NAME_BRACE_CLOSE
  else if c = TKN_BRACKET_OPEN then NAME_BRACKET_OPEN
  else if c = TKN_BRACKET_CLOSE then NAME_BRACKET_CLOSE
  else if c = TKN_COLON then NAME_COLON
  else NAME_COMMA

/-- The token of width 1 for the structural character `c` at offset `i`. -/
def structuralToken (i : Nat) (c : Char) : Token :=
  ⟨String.singleton c, structuralName c, i, i + 1, 1⟩

/-- The tokens of a run of white space and structural characters that starts
at offset `off`: none for white space, one per structural character. -/
def prefixTokens (U : UnicodeTables) : Nat → List Char → List Token
  | _, [] => []
  | off, c :: p =>
    if unicode.IsSpace U c = true then prefixTokens U (off + 1) p
    else structuralToken off c :: prefixTokens U (off + 1) p

/-- An ASCII decimal digit, `'0'` to `'9'`. -/
def AsciiDigit (c : Char) : Prop :=
  0x30 ≤ c.toNat ∧ c.toNat ≤ 0x39

/-- The token `t` with its start and end increased by `n`; value, name and
width are kept. -/
def shiftToken (n : Nat) (t : Token) : Token :=
  ⟨t.value, t.name, t.start_position + n, t.end_position + n, t.width⟩

/-- How the end of the string loop on an input relates to its end on the
same input behind `n` more characters: the final cursor is `n` greater. -/
inductive ShiftedCursor (n : Nat) : Run Nat → Run Nat → Prop
  | done (r : Nat) : ShiftedCursor n (.done r) (.done (r + n))
  | panic : ShiftedCursor n .panic .panic
  | outOfFuel : ShiftedCursor n .outOfFuel .outOfFuel

/-- The same for the number loop: the final cursor, or the position of the
error, is `n` greater. -/
inductive ShiftedScan (n : Nat) : Run NumberScan → Run NumberScan → Prop
  | numberDone (r : Nat) (e : Bool) (d : Nat) :
      ShiftedScan n (.done (.numberDone r e d)) (.done (.numberDone (r + n) e d))
  | fail (p : Nat) (msg : String) :
      ShiftedScan n (.done (.fail ⟨fmt.Sprint p, msg⟩)) (.done (.fail ⟨fmt.Sprint (p + n), msg⟩))
  | panic : ShiftedScan n .panic .panic
  | outOfFuel : ShiftedScan n .outOfFuel .outOfFuel

/-- The same for one pass through the loop body, which runs with the tokens
`T ++ map (shiftToken n) tokens` in place of `tokens`. -/
inductive ShiftedStep (n : Nat) (T : List Token) : Run Step → Run Step → Prop
  | next (idx : Nat) (tokens : List Token) :
      ShiftedStep n T (.done (.next idx tokens))
        (.done (.next (idx + n) (T ++ tokens.map (shiftToken n))))
  | ret (p : Nat) (msg : String) :
      ShiftedStep n T (.done (.ret [] (some ⟨fmt.Sprint p, msg⟩)))
        (.done (.ret [] (some ⟨fmt.Sprint (p + n), msg⟩)))
  | panic : ShiftedStep n T .panic .panic
  | outOfFuel : ShiftedStep n T .outOfFuel .outOfFuel

/-- The same for the result of `tokenizer`: on success the tokens `T` followed
by the shifted tokens, on failure the same message at a position `n` greater. -/
inductive Shifted (n : Nat) (T : List Token) :
    Run (List Token × Option CustomError) → Run (List Token × Option CustomError) → Prop
  | success (tokens : List Token) :
      Shifted n T (.done (tokens, none)) (.done (T ++ tokens.map (shiftToken n), none))
  | failure (p : Nat) (msg : String) :
      Shifted n T (.done ([], some ⟨fmt.Sprint p, msg⟩))
        (.done ([], some ⟨fmt.Sprint (p + n), msg⟩))
  | panic : Shifted n T .panic .panic
  | outOfFuel : Shifted n T .outOfFuel .outOfFuel

/-- The three keyword literals: text, token name and width. -/
def keywords : List (String × String × Nat) :=
  [("true", TRUE, 4), ("false", FALSE, 5), ("null", NULL, 4)]

/-- The value of a decimal digit character, and of a string of them. -/
def digitValue (c : Char) : Nat :=
  c.toNat - 0x30

/-- The number a string of decimal digits stands for. -/
def decimalValue (ds : List Char) : Nat :=
  ds.foldl (fun acc c => acc * 10 + digitValue c) 0

/-- The main loop of `tokenizer` on `runes` reaches the cursor `idx` with the
tokens `tokens` emitted so far. -/
inductive Reaches (U : UnicodeTables) (runes : List Char) : Nat → List Token → Prop
  | start : Reaches U runes 0 []
  | step {idx idx1 : Nat} {tokens tokens1 : List Token} (h : Reaches U runes idx tokens)
      (hlt : idx < runes.length)
      (hit : iteration U runes idx tokens = .done (.next idx1 tokens1)) :
      Reaches U runes idx1 tokens1

/-- A numeric literal starts at offset `start`: the character there is no
white space and is a digit or `-`. -/
def StartsNumber (U : UnicodeTables) (runes : List Char) (start : Nat) : Prop :=
  ∃ c, runes[start]? = some c ∧ unicode.IsSpace U c = false ∧
    (unicode.IsDigit U c = true ∨ c = '-')

/-- The number loop for the literal that starts at `start` reaches the cursor
`idx` with the flags `isFloat` and `isExp`: it enters after the first
character, and goes on over a digit, over a first `.` before any exponent
marker, and over a first exponent marker with or without a sign. -/
inductive NumberLoopAt (U : UnicodeTables) (runes : List Char) (start : Nat) :
    Nat → Bool → Bool → Prop
  | enter : NumberLoopAt U runes start (start + 1) false false
  | digit {idx : Nat} {isFloat isExp : Bool} {c : Char}
      (h : NumberLoopAt U runes start idx isFloat isExp) (hc : runes[idx]? = some c)
      (hd : unicode.IsDigit U c = true) : NumberLoopAt U runes start (idx + 1) isFloat isExp
  | dot {idx : Nat} (h : NumberLoopAt U runes start idx false false)
      (hc : runes[idx]? = some '.') : NumberLoopAt U runes start (idx + 1) true false
  | exponent {idx : Nat} {isFloat : Bool} {c : Char}
      (h : NumberLoopAt U runes start idx isFloat false) (hc : runes[idx]? = some c)
      (he : c = 'e' ∨ c = 'E')
      (hs : ∀ s, runes[idx + 1]? = some s → ¬ (s = '+' ∨ s = '-')) :
      NumberLoopAt U runes start (idx + 1) isFloat true
  | exponentSign {idx : Nat} {isFloat : Bool} {c s : Char}
      (h : NumberLoopAt U runes start idx isFloat false) (hc : runes[idx]? = some c)
      (he : c = 'e' ∨ c = 'E') (hs : runes[idx + 1]? = some s) (hsg : s = '+' ∨ s = '-') :
      NumberLoopAt U runes start (idx + 2) isFloat true

/-- While scanning one numeric literal, `tokenizer` meets at offset `p` a `.`
in a literal that already holds an earlier `.` or an earlier exponent marker. -/
def MeetsLateDot (U : UnicodeTables) (runes : List Char) (p : Nat) : Prop :=
  ∃ (start : Nat) (tokens : List Token) (isFloat isExp : Bool),
    Reaches U runes start tokens ∧ StartsNumber U runes start ∧
    NumberLoopAt U runes start p isFloat isExp ∧ runes[p]? = some '.' ∧
    (isFloat = true ∨ isExp = true)

/-! ## Slices and rune access -/

theorem slice_eq_some {runes : List Char} {lo hi : Nat} {sl : List Char}
    (h : slice runes lo hi = some sl) :
    lo ≤ hi ∧ hi ≤ runes.length ∧ sl = (runes.drop lo).take (hi - lo) := by
  unfold slice at h
  split at h
  · rename_i hc
    exact ⟨hc.1, hc.2, (Option.some.inj h).symm⟩
  · exact absurd h (by simp)

theorem slice_of_le {runes : List Char} {lo hi : Nat} (h1 : lo ≤ hi)
    (h2 : hi ≤ runes.length) :
    slice runes lo hi = some ((runes.drop lo).take (hi - lo)) := by
  unfold slice
  rw [if_pos ⟨h1, h2⟩]

theorem slice_length {runes : List Char} {lo hi : Nat} {sl : List Char}
    (h : slice runes lo hi = some sl) : sl.length = hi - lo := by
  obtain ⟨h1, h2, rfl⟩ := slice_eq_some h
  simp only [List.length_take, List.length_drop]
  omega

theorem slice_to_end (runes : List Char) (idx : Nat) (h : idx ≤ runes.length) :
    slice runes idx runes.length = some (runes.drop idx) := by
  rw [slice_of_le h (Nat.le_refl _)]
  congr 1
  apply List.take_of_length_le
  simp

theorem slice_one {runes : List Char} {idx : Nat} {c : Char}
    (h : runes[idx]? = some c) : slice runes idx (idx + 1) = some [c] := by
  obtain ⟨hlt, hc⟩ := List.getElem?_eq_some_iff.mp h
  rw [slice_of_le (by omega : idx ≤ idx + 1) hlt]
  congr 1
  have h1 : idx + 1 - idx = 1 := by omega
  rw [h1, List.take_one_drop_eq_of_lt_length hlt, List.get_eq_getElem, hc]

theorem getElem?_lt {runes : List Char} {idx : Nat} {c : Char}
    (h : runes[idx]? = some c) : idx < runes.length :=
  (List.getElem?_eq_some_iff.mp h).1

/-! ## UTF-8 bytes of strings of scalar values -/

theorem EncodeRune_ascii {c : Char} (h : c.toNat ≤ 0x7F) :
    utf8.EncodeRune c = [c.toNat] := by
  simp only [utf8.EncodeRune, if_pos h]

theorem lor_ge_128 (a b : Nat) (h : a.testBit 7 = true) : 0x80 ≤ a ||| b := by
  have h1 : (a ||| b).testBit 7 = true := by simp [h]
  exact Nat.testBit_implies_ge h1

theorem EncodeRune_nonascii {c : Char} (h : 0x7F < c.toNat) :
    ∃ b rest, utf8.EncodeRune c = b :: rest ∧ 0x80 ≤ b := by
  have h0 : ¬ c.toNat ≤ 0x7F := by omega
  simp only [utf8.EncodeRune, if_neg h0]
  split
  · exact ⟨_, _, rfl, lor_ge_128 _ _ (by decide)⟩
  · split
    · exact ⟨_, _, rfl, lor_ge_128 _ _ (by decide)⟩
    · exact ⟨_, _, rfl, lor_ge_128 _ _ (by decide)⟩

theorem bytes_mk (s : List Char) : bytes ⟨s⟩ = s.flatMap utf8.EncodeRune := rfl

theorem toNat_inj {a c : Char} (h : a.toNat = c.toNat) : a = c := by
  apply Char.ext
  apply UInt32.ext
  exact h

theorem isPrefixOf_flatMap_ascii (pre : List Char) (h : ∀ c ∈ pre, c.toNat ≤ 0x7F) :
    ∀ s : List Char,
      (pre.flatMap utf8.EncodeRune).isPrefixOf (s.flatMap utf8.EncodeRune) =
        pre.isPrefixOf s := by
  induction pre with
  | nil => intro s; simp
  | cons a pre ih =>
    intro s
    have ha : a.toNat ≤ 0x7F := h a (List.mem_cons_self _ _)
    have ih1 := ih (fun c hc => h c (List.mem_cons_of_mem _ hc))
    rw [List.flatMap_cons, EncodeRune_ascii ha]
    cases s with
    | nil => rfl
    | cons c s =>
      rw [List.flatMap_cons]
      by_cases hc : c.toNat ≤ 0x7F
      · rw [EncodeRune_ascii hc]
        show (a.toNat == c.toNat &&
            (pre.flatMap utf8.EncodeRune).isPrefixOf (s.flatMap utf8.EncodeRune)) =
          (a == c && pre.isPrefixOf s)
        rw [ih1]
        congr 1
        by_cases hac : a = c
        · subst hac; simp
        · have : a.toNat ≠ c.toNat := fun e => hac (toNat_inj e)
          simp [hac, this]
      · obtain ⟨b, rest, hb, hge⟩ := EncodeRune_nonascii (by omega : 0x7F < c.toNat)
        rw [hb]
        have h1 : a.toNat ≠ b := by omega
        have h2 : a ≠ c := by
          intro e
          rw [e] at ha
          exact hc ha
        show (a.toNat == b && _) = (a == c && _)
        have e1 : (a.toNat == b) = false := beq_eq_false_iff_ne.mpr h1
        have e2 : (a == c) = false := beq_eq_false_iff_ne.mpr h2
        rw [e1, e2]
        rfl

/-- On an ASCII prefix, `strings.HasPrefix` on bytes is the prefix test on
scalar values. -/
theorem isPrefixOf_bytes_ascii (pre : List Char) (h : ∀ c ∈ pre, c.toNat ≤ 0x7F)
    (s : List Char) : (bytes ⟨pre⟩).isPrefixOf (bytes ⟨s⟩) = pre.isPrefixOf s :=
  isPrefixOf_flatMap_ascii pre h s

theorem HasPrefix_true (s : List Char) :
    strings.HasPrefix ⟨s⟩ "true" = ['t', 'r', 'u', 'e'].isPrefixOf s :=
  isPrefixOf_bytes_ascii ['t', 'r', 'u', 'e'] (by decide) s

theorem HasPrefix_false (s : List Char) :
    strings.HasPrefix ⟨s⟩ "false" = ['f', 'a', 'l', 's', 'e'].isPrefixOf s :=
  isPrefixOf_bytes_ascii ['f', 'a', 'l', 's', 'e'] (by decide) s

theorem HasPrefix_null (s : List Char) :
    strings.HasPrefix ⟨s⟩ "null" = ['n', 'u', 'l', 'l'].isPrefixOf s :=
  isPrefixOf_bytes_ascii ['n', 'u', 'l', 'l'] (by decide) s

/-- A non-empty prefix of the rest of the input at `idx` is the slice it
covers. -/
theorem slice_of_isPrefixOf {runes pre : List Char} {idx : Nat} (hne : pre ≠ [])
    (h : pre.isPrefixOf (runes.drop idx) = true) :
    idx + pre.length ≤ runes.length ∧ slice runes idx (idx + pre.length) = some pre := by
  rw [List.isPrefixOf_iff_prefix] at h
  obtain ⟨t, ht⟩ := h
  have hlen : (runes.drop idx).length = pre.length + t.length := by
    rw [← ht, List.length_append]
  rw [List.length_drop] at hlen
  have hpos : 0 < pre.length := List.length_pos.mpr hne
  have hle : idx + pre.length ≤ runes.length := by omega
  refine ⟨hle, ?_⟩
  rw [slice_of_le (by omega) hle, ← ht]
  congr 1
  have : idx + pre.length - idx = pre.length := by omega
  rw [this, List.take_left]

/-! ## The two inner loops -/

theorem scanString_done (runes : List Char) :
    ∀ fuel idx r, scanString runes fuel idx = .done r →
      idx ≤ r ∧ (r < runes.length → runes[r]? = some '"') := by
  intro fuel
  induction fuel with
  | zero =>
    intro idx r h
    unfold scanString at h
    split at h
    · exact absurd h (by simp)
    · rename_i hn
      injection h with h
      subst h
      exact ⟨Nat.le_refl _, fun hlt => absurd hlt hn⟩
  | succ fuel ih =>
    intro idx r h
    unfold scanString at h
    split at h
    · split at h
      · exact absurd h (by simp)
      · rename_i c hc
        split at h
        · have := ih _ _ h
          exact ⟨by omega, this.2⟩
        · split at h
          · rename_i hq
            injection h with h
            subst h
            subst hq
            exact ⟨Nat.le_refl _, fun _ => hc⟩
          · have := ih _ _ h
            exact ⟨by omega, this.2⟩
    · rename_i hn
      injection h with h
      subst h
      exact ⟨Nat.le_refl _, fun hlt => absurd hlt hn⟩

theorem scanString_total (runes : List Char) :
    ∀ fuel idx, runes.length ≤ idx + fuel → ∃ r, scanString runes fuel idx = .done r := by
  intro fuel
  induction fuel with
  | zero =>
    intro idx h
    unfold scanString
    rw [if_neg (by omega)]
    exact ⟨_, rfl⟩
  | succ fuel ih =>
    intro idx h
    unfold scanString
    split
    · rename_i hlt
      obtain ⟨c, hc⟩ : ∃ c, runes[idx]? = some c :=
        ⟨runes[idx], List.getElem?_eq_getElem hlt⟩
      rw [hc]
      dsimp only
      split
      · exact ih _ (by omega)
      · split
        · exact ⟨_, rfl⟩
        · exact ih _ (by omega)
    · exact ⟨_, rfl⟩

theorem scanNumber_done (U : UnicodeTables) (runes : List Char) :
    ∀ fuel idx isFloat isExp expDigits r e d, idx ≤ runes.length →
      scanNumber U runes fuel idx isFloat isExp expDigits = .done (.numberDone r e d) →
      idx ≤ r ∧ r ≤ runes.length := by
  intro fuel
  induction fuel with
  | zero =>
    intro idx isFloat isExp expDigits r e d hle h
    unfold scanNumber at h
    split at h
    · exact absurd h (by simp)
    · injection h with h
      injection h with h1 h2 h3
      subst h1
      exact ⟨Nat.le_refl _, hle⟩
  | succ fuel ih =>
    intro idx isFloat isExp expDigits r e d hle h
    unfold scanNumber at h
    split at h
    · rename_i hlt
      split at h
      · exact absurd h (by simp)
      · split at h
        · have := ih _ _ _ _ _ _ _ (by omega) h
          exact ⟨by omega, this.2⟩
        · split at h
          · split at h
            · exact absurd h (by simp)
            · have := ih _ _ _ _ _ _ _ (by omega) h
              exact ⟨by omega, this.2⟩
          · split at h
            · split at h
              · exact absurd h (by simp)
              · split at h
                · split at h
                  · exact absurd h (by simp)
                  · split at h
                    · have := ih _ _ _ _ _ _ _ (by omega) h
                      exact ⟨by omega, this.2⟩
                    · have := ih _ _ _ _ _ _ _ (by omega) h
                      exact ⟨by omega, this.2⟩
                · have := ih _ _ _ _ _ _ _ (by omega) h
                  exact ⟨by omega, this.2⟩
            · injection h with h
              injection h with h1 h2 h3
              subst h1
              exact ⟨Nat.le_refl _, hle⟩
    · injection h with h
      injection h with h1 h2 h3
      subst h1
      exact ⟨Nat.le_refl _, hle⟩

theorem scanNumber_total (U : UnicodeTables) (runes : List Char) :
    ∀ fuel idx isFloat isExp expDigits, runes.length ≤ idx + fuel →
      ∃ r, scanNumber U runes fuel idx isFloat isExp expDigits = .done r := by
  intro fuel
  induction fuel with
  | zero =>
    intro idx isFloat isExp expDigits h
    unfold scanNumber
    rw [if_neg (by omega)]
    exact ⟨_, rfl⟩
  | succ fuel ih =>
    intro idx isFloat isExp expDigits h
    unfold scanNumber
    split
    · rename_i hlt
      obtain ⟨c, hc⟩ : ∃ c, runes[idx]? = some c :=
        ⟨runes[idx], List.getElem?_eq_getElem hlt⟩
      rw [hc]
      dsimp only
      split
      · exact ih _ _ _ _ (by omega)
      · split
        · split
          · exact ⟨_, rfl⟩
          · exact ih _ _ _ _ (by omega)
        · split
          · split
            · exact ⟨_, rfl⟩
            · split
              · rename_i hlt1
                obtain ⟨s, hs⟩ : ∃ s, runes[idx + 1]? = some s :=
                  ⟨runes[idx + 1], List.getElem?_eq_getElem hlt1⟩
                rw [hs]
                dsimp only
                split
                · exact ih _ _ _ _ (by omega)
                · exact ih _ _ _ _ (by omega)
              · exact ih _ _ _ _ (by omega)
          · exact ⟨_, rfl⟩
    · exact ⟨_, rfl⟩

/-! ## One pass through the loop body -/

theorem StepSpec.lt {U : UnicodeTables} {runes : List Char} {idx idx1 : Nat}
    {tokens tokens1 : List Token} (h : StepSpec U runes idx tokens idx1 tokens1) :
    idx < idx1 ∧ idx1 ≤ runes.length := by
  cases h with
  | space c hc hs => exact ⟨Nat.lt_succ_self _, getElem?_lt hc⟩
  | plain t hname hstart hlt hle hwidth hval => exact ⟨hlt, hle⟩
  | string t hname hopen hstart hle hclose hwidth hval =>
    exact ⟨by omega, getElem?_lt hclose⟩

theorem stringBranch_next {U : UnicodeTables} {runes : List Char} {idx idx1 : Nat}
    {tokens tokens1 : List Token} (hopen : runes[idx]? = some '"')
    (h : stringBranch runes idx tokens = .done (.next idx1 tokens1)) :
    StepSpec U runes idx tokens idx1 tokens1 := by
  unfold stringBranch at h
  split at h
  · exact absurd h (by simp)
  · exact absurd h (by simp)
  · rename_i r hr
    split at h
    · exact absurd h (by simp)
    · rename_i hlt
      split at h
      · exact absurd h (by simp)
      · rename_i sl hsl
        injection h with h
        injection h with h1 h2
        subst h1 h2
        have hs := scanString_done runes _ _ _ hr
        exact StepSpec.string ⟨String.mk sl, STRING, idx + 1, r, r - idx - 1⟩ rfl hopen rfl
          hs.1 (hs.2 (by omega)) (by show r - idx - 1 = r - (idx + 1); omega) hsl

theorem numberBranch_next {U : UnicodeTables} {runes : List Char} {idx idx1 : Nat}
    {tokens tokens1 : List Token} (hlt : idx < runes.length)
    (h : numberBranch U runes idx tokens = .done (.next idx1 tokens1)) :
    StepSpec U runes idx tokens idx1 tokens1 := by
  unfold numberBranch at h
  split at h
  · exact absurd h (by simp)
  · exact absurd h (by simp)
  · exact absurd h (by simp)
  · rename_i r e d hr
    split at h
    · exact absurd h (by simp)
    · rename_i sl hsl
      dsimp only at h
      split at h
      · exact absurd h (by simp)
      · exact absurd h (by simp)
      · split at h
        · exact absurd h (by simp)
        · injection h with h
          injection h with h1 h2
          subst h1 h2
          have hs := scanNumber_done U runes _ _ _ _ _ _ _ _ (by omega) hr
          exact StepSpec.plain ⟨String.mk sl, NUMBER, idx, r, r - idx⟩
            (by show NUMBER ≠ STRING; decide) rfl
            (by show idx < r; omega) hs.2 rfl hsl

theorem defaultBranch_next {U : UnicodeTables} {runes : List Char} {idx idx1 : Nat}
    {char : Char} {tokens tokens1 : List Token} (hlt : idx < runes.length)
    (h : defaultBranch U runes idx char tokens = .done (.next idx1 tokens1)) :
    StepSpec U runes idx tokens idx1 tokens1 := by
  unfold defaultBranch at h
  rw [slice_to_end runes idx (Nat.le_of_lt hlt)] at h
  dsimp only at h
  split at h
  · rename_i hp
    rw [HasPrefix_true] at hp
    obtain ⟨-, hsl⟩ := slice_of_isPrefixOf (by simp) hp
    have hl := (slice_eq_some hsl).2.1
    injection h with h
    injection h with h1 h2
    subst h1 h2
    exact StepSpec.plain ⟨"true", TRUE, idx, idx + 4, 4⟩ (show TRUE ≠ STRING by decide) rfl
      (by show idx < idx + 4; omega) hl (by show 4 = idx + 4 - idx; omega) hsl
  · split at h
    · rename_i hp
      rw [HasPrefix_false] at hp
      obtain ⟨-, hsl⟩ := slice_of_isPrefixOf (by simp) hp
      have hl := (slice_eq_some hsl).2.1
      injection h with h
      injection h with h1 h2
      subst h1 h2
      exact StepSpec.plain ⟨"false", FALSE, idx, idx + 5, 5⟩ (show FALSE ≠ STRING by decide) rfl
        (by show idx < idx + 5; omega) hl (by show 5 = idx + 5 - idx; omega) hsl
    · split at h
      · rename_i hp
        rw [HasPrefix_null] at hp
        obtain ⟨-, hsl⟩ := slice_of_isPrefixOf (by simp) hp
        have hl := (slice_eq_some hsl).2.1
        injection h with h
        injection h with h1 h2
        subst h1 h2
        exact StepSpec.plain ⟨"null", NULL, idx, idx + 4, 4⟩ (show NULL ≠ STRING by decide) rfl
          (by show idx < idx + 4; omega) hl (by show 4 = idx + 4 - idx; omega) hsl
      · split at h
        · exact numberBranch_next hlt h
        · exact absurd h (by simp)

/-- A structural token is a step of the `plain` kind. -/
theorem structural_step {U : UnicodeTables} {runes : List Char} {idx : Nat}
    {tokens : List Token} (c : Char) (name : String) (hname : name ≠ STRING)
    (hc : runes[idx]? = some c) :
    StepSpec U runes idx tokens (idx + 1)
      (tokens ++ [⟨String.singleton c, name, idx, idx + 1, 1⟩]) :=
  StepSpec.plain ⟨String.singleton c, name, idx, idx + 1, 1⟩ hname rfl
    (by show idx < idx + 1; omega) (getElem?_lt hc) (by show 1 = idx + 1 - idx; omega)
    (slice_one hc)

/-- Every pass through the loop body that goes on satisfies `StepSpec`. -/
theorem iteration_next {U : UnicodeTables} {runes : List Char} {idx idx1 : Nat}
    {tokens tokens1 : List Token}
    (h : iteration U runes idx tokens = .done (.next idx1 tokens1)) :
    StepSpec U runes idx tokens idx1 tokens1 := by
  unfold iteration at h
  split at h
  · exact absurd h (by simp)
  · rename_i char hc
    have hlt := getElem?_lt hc
    split at h
    · rename_i hs
      injection h with h
      injection h with h1 h2
      subst h1 h2
      exact StepSpec.space char hc hs
    · split at h
      · rename_i he
        subst he
        injection h with h
        injection h with h1 h2
        subst h1 h2
        exact structural_step _ _ (by decide) hc
      · split at h
        · rename_i he
          subst he
          injection h with h
          injection h with h1 h2
          subst h1 h2
          exact structural_step _ _ (by decide) hc
        · split at h
          · rename_i he
            subst he
            injection h with h
            injection h with h1 h2
            subst h1 h2
            exact structural_step _ _ (by decide) hc
          · split at h
            · rename_i he
              subst he
              injection h with h
              injection h with h1 h2
              subst h1 h2
              exact structural_step _ _ (by decide) hc
            · split at h
              · rename_i he
                subst he
                injection h with h
                injection h with h1 h2
                subst h1 h2
                exact structural_step _ _ (by decide) hc
              · split at h
                · rename_i he
                  subst he
                  injection h with h
                  injection h with h1 h2
                  subst h1 h2
                  exact structural_step _ _ (by decide) hc
                · split at h
                  · rename_i he
                    subst he
                    exact stringBranch_next hc h
                  · exact defaultBranch_next hlt h

theorem stringBranch_ret {runes : List Char} {idx : Nat}
    {tokens toks : List Token} {err : Option CustomError}
    (h : stringBranch runes idx tokens = .done (.ret toks err)) :
    toks = [] ∧ ∃ e, err = some e := by
  unfold stringBranch at h
  split at h
  · cases h
  · cases h
  · split at h
    · cases h
      exact ⟨rfl, _, rfl⟩
    · split at h <;> cases h

theorem numberBranch_ret {U : UnicodeTables} {runes : List Char} {idx : Nat}
    {tokens toks : List Token} {err : Option CustomError}
    (h : numberBranch U runes idx tokens = .done (.ret toks err)) :
    toks = [] ∧ ∃ e, err = some e := by
  unfold numberBranch at h
  split at h
  · cases h
  · cases h
  · cases h
    exact ⟨rfl, _, rfl⟩
  · split at h
    · cases h
    · dsimp only at h
      split at h
      · cases h
      · cases h
        exact ⟨rfl, _, rfl⟩
      · split at h
        · cases h
          exact ⟨rfl, _, rfl⟩
        · cases h

theorem defaultBranch_ret {U : UnicodeTables} {runes : List Char} {idx : Nat} {char : Char}
    {tokens toks : List Token} {err : Option CustomError}
    (h : defaultBranch U runes idx char tokens = .done (.ret toks err)) :
    toks = [] ∧ ∃ e, err = some e := by
  unfold defaultBranch at h
  split at h
  · cases h
  · dsimp only at h
    split at h
    · cases h
    · split at h
      · cases h
      · split at h
        · cases h
        · split at h
          · exact numberBranch_ret h
          · cases h
            exact ⟨rfl, _, rfl⟩

/-- A pass through the loop body that returns from `tokenizer` returns an
error and no token. -/
theorem iteration_ret {U : UnicodeTables} {runes : List Char} {idx : Nat}
    {tokens toks : List Token} {err : Option CustomError}
    (h : iteration U runes idx tokens = .done (.ret toks err)) :
    toks = [] ∧ ∃ e, err = some e := by
  unfold iteration at h
  split at h
  · cases h
  · repeat' (split at h)
    all_goals first
      | cases h
      | exact stringBranch_ret h
      | exact defaultBranch_ret h

theorem stringBranch_ne_outOfFuel (runes : List Char) (idx : Nat) (tokens : List Token) :
    stringBranch runes idx tokens ≠ .outOfFuel := by
  intro h
  unfold stringBranch at h
  obtain ⟨r, hr⟩ := scanString_total runes (runes.length - (idx + 1)) (idx + 1) (by omega)
  rw [hr] at h
  dsimp only at h
  split at h
  · cases h
  · split at h <;> cases h

theorem numberBranch_ne_outOfFuel (U : UnicodeTables) (runes : List Char) (idx : Nat)
    (tokens : List Token) : numberBranch U runes idx tokens ≠ .outOfFuel := by
  intro h
  unfold numberBranch at h
  obtain ⟨r, hr⟩ := scanNumber_total U runes (runes.length - (idx + 1)) (idx + 1)
    false false 0 (by omega)
  rw [hr] at h
  cases r with
  | fail err => cases h
  | numberDone r e d =>
    dsimp only at h
    split at h
    · cases h
    · split at h
      · cases h
      · cases h
      · split at h <;> cases h

theorem defaultBranch_ne_outOfFuel (U : UnicodeTables) (runes : List Char) (idx : Nat)
    (char : Char) (tokens : List Token) :
    defaultBranch U runes idx char tokens ≠ .outOfFuel := by
  intro h
  unfold defaultBranch at h
  split at h
  · cases h
  · dsimp only at h
    split at h
    · cases h
    · split at h
      · cases h
      · split at h
        · cases h
        · split at h
          · exact numberBranch_ne_outOfFuel U runes idx tokens h
          · cases h

/-- The loop body never runs out of fuel: each inner loop is given the fuel
it needs. -/
theorem iteration_ne_outOfFuel (U : UnicodeTables) (runes : List Char) (idx : Nat)
    (tokens : List Token) : iteration U runes idx tokens ≠ .outOfFuel := by
  intro h
  unfold iteration at h
  split at h
  · cases h
  · repeat' (split at h)
    all_goals first
      | cases h
      | exact stringBranch_ne_outOfFuel runes idx tokens h
      | exact defaultBranch_ne_outOfFuel U runes idx _ tokens h

/-! ## The main loop -/

theorem mainLoop_ne_outOfFuel (U : UnicodeTables) (runes : List Char) :
    ∀ fuel idx tokens, runes.length ≤ idx + fuel →
      mainLoop U runes fuel idx tokens ≠ .outOfFuel := by
  intro fuel
  induction fuel with
  | zero =>
    intro idx tokens h
    unfold mainLoop
    rw [if_neg (by omega)]
    simp
  | succ fuel ih =>
    intro idx tokens h
    unfold mainLoop
    split
    · split
      · rename_i heq
        exact absurd heq (iteration_ne_outOfFuel U runes idx tokens)
      · simp
      · simp
      · rename_i idx1 tokens1 heq
        have := (iteration_next heq).lt
        exact ih _ _ (by omega)
    · simp

/-- The model of `tokenizer` never runs out of fuel: on every input it
returns a pair or panics. -/
theorem tokenizer_ne_outOfFuel (U : UnicodeTables) (runes : List Char) :
    tokenizer U runes ≠ .outOfFuel := by
  unfold tokenizer
  split
  · simp
  · exact mainLoop_ne_outOfFuel U runes _ _ _ (by omega)

/-- Invariant rule for the main loop: what holds at the start and is kept by
every step holds, with the cursor at the end of the input, for the tokens
returned without an error. -/
theorem mainLoop_inv {U : UnicodeTables} {runes : List Char}
    (Inv : Nat → List Token → Prop)
    (hstep : ∀ idx tokens idx1 tokens1, idx < runes.length → Inv idx tokens →
      StepSpec U runes idx tokens idx1 tokens1 → Inv idx1 tokens1) :
    ∀ fuel idx tokens out, idx ≤ runes.length → Inv idx tokens →
      mainLoop U runes fuel idx tokens = .done (out, none) → Inv runes.length out := by
  intro fuel
  induction fuel with
  | zero =>
    intro idx tokens out hle hinv h
    unfold mainLoop at h
    split at h
    · exact absurd h (by simp)
    · injection h with h
      injection h with h1 h2
      subst h1
      have : idx = runes.length := by omega
      rw [← this]
      exact hinv
  | succ fuel ih =>
    intro idx tokens out hle hinv h
    unfold mainLoop at h
    split at h
    · rename_i hlt
      split at h
      · exact absurd h (by simp)
      · exact absurd h (by simp)
      · rename_i toks err heq
        injection h with h
        injection h with h1 h2
        obtain ⟨-, e, he⟩ := iteration_ret heq
        rw [he] at h2
        exact absurd h2 (by simp)
      · rename_i idx1 tokens1 heq
        have hs := iteration_next heq
        exact ih _ _ _ hs.lt.2 (hstep _ _ _ _ hlt hinv hs) h
    · injection h with h
      injection h with h1 h2
      subst h1
      have : idx = runes.length := by omega
      rw [← this]
      exact hinv

/-- Invariant rule for a successful run of `tokenizer`. -/
theorem tokenizer_inv {U : UnicodeTables} {runes : List Char} {out : List Token}
    (Inv : Nat → List Token → Prop) (h0 : Inv 0 [])
    (hstep : ∀ idx tokens idx1 tokens1, idx < runes.length → Inv idx tokens →
      StepSpec U runes idx tokens idx1 tokens1 → Inv idx1 tokens1)
    (h : tokenizer U runes = .done (out, none)) : Inv runes.length out := by
  unfold tokenizer at h
  split at h
  · exact absurd h (by simp)
  · exact mainLoop_inv Inv hstep _ _ _ _ (Nat.zero_le _) h0 h

/-! ## Facts about every emitted token -/

theorem StepSpec.emitted {U : UnicodeTables} {runes : List Char} {idx idx1 : Nat}
    {tokens tokens1 : List Token} (h : StepSpec U runes idx tokens idx1 tokens1)
    (hall : ∀ t ∈ tokens, Emitted runes t) : ∀ t ∈ tokens1, Emitted runes t := by
  cases h with
  | space c hc hs => exact hall
  | plain t hname hstart hlt hle hwidth hval =>
    intro t1 ht1
    rcases List.mem_append.mp ht1 with h1 | h1
    · exact hall t1 h1
    · rw [List.mem_singleton] at h1
      subst h1
      left
      rw [hstart]
      exact ⟨hname, hlt, hle, hwidth, hval⟩
  | string t hname hopen hstart hle hclose hwidth hval =>
    intro t1 ht1
    rcases List.mem_append.mp ht1 with h1 | h1
    · exact hall t1 h1
    · rw [List.mem_singleton] at h1
      subst h1
      right
      rw [hstart]
      exact ⟨hname, by omega, by simpa using hopen, hle, hclose, hwidth, hval⟩

/-- Every token of a successful run satisfies `Emitted`. -/
theorem tokenizer_emitted {U : UnicodeTables} {runes : List Char} {tokens : List Token}
    (h : tokenizer U runes = .done (tokens, none)) : ∀ t ∈ tokens, Emitted runes t :=
  tokenizer_inv (fun _ toks => ∀ t ∈ toks, Emitted runes t) (fun _ ht => absurd ht (by simp))
    (fun _ _ _ _ _ hinv hs => hs.emitted hinv) h

/-- Tokens are emitted in order: every earlier token lies before every later
one, and all lie before the cursor. -/
theorem StepSpec.ordered {U : UnicodeTables} {runes : List Char} {idx idx1 : Nat}
    {tokens tokens1 : List Token} (h : StepSpec U runes idx tokens idx1 tokens1)
    (hinv : List.Pairwise Before tokens ∧
      ∀ t ∈ tokens, t.start_position < idx ∧ t.end_position ≤ idx) :
    List.Pairwise Before tokens1 ∧
      ∀ t ∈ tokens1, t.start_position < idx1 ∧ t.end_position ≤ idx1 := by
  obtain ⟨hp, hb⟩ := hinv
  cases h with
  | space c hc hs =>
    exact ⟨hp, fun t ht => ⟨by have := (hb t ht).1; omega, by have := (hb t ht).2; omega⟩⟩
  | plain t hname hstart hlt hle hwidth hval =>
    refine ⟨?_, ?_⟩
    · rw [List.pairwise_append]
      refine ⟨hp, List.pairwise_singleton _ _, ?_⟩
      intro a ha b hb1
      rw [List.mem_singleton] at hb1
      subst hb1
      have := hb a ha
      exact ⟨by omega, by omega⟩
    · intro t1 ht1
      rcases List.mem_append.mp ht1 with h1 | h1
      · have := hb t1 h1
        exact ⟨by omega, by omega⟩
      · rw [List.mem_singleton] at h1
        subst h1
        exact ⟨by omega, Nat.le_refl _⟩
  | string t hname hopen hstart hle hclose hwidth hval =>
    refine ⟨?_, ?_⟩
    · rw [List.pairwise_append]
      refine ⟨hp, List.pairwise_singleton _ _, ?_⟩
      intro a ha b hb1
      rw [List.mem_singleton] at hb1
      subst hb1
      have := hb a ha
      exact ⟨by omega, by omega⟩
    · intro t1 ht1
      rcases List.mem_append.mp ht1 with h1 | h1
      · have := hb t1 h1
        exact ⟨by omega, by omega⟩
      · rw [List.mem_singleton] at h1
        subst h1
        exact ⟨by omega, by omega⟩

theorem tokenizer_pairwise {U : UnicodeTables} {runes : List Char} {tokens : List Token}
    (h : tokenizer U runes = .done (tokens, none)) : List.Pairwise Before tokens :=
  (tokenizer_inv
    (fun idx toks => List.Pairwise Before toks ∧
      ∀ t ∈ toks, t.start_position < idx ∧ t.end_position ≤ idx)
    ⟨List.Pairwise.nil, fun _ ht => absurd ht (by simp)⟩
    (fun _ _ _ _ _ hinv hs => hs.ordered hinv) h).1

/-! ## The claims -/

/-- C1 (defect in the code): on the one-character input `-` the number branch
hands the one-byte literal `-` to `validateNumber`, whose access `number[1]` is
out of range, so `tokenizer` panics instead of returning tokens or an error. -/
theorem C1_lone_minus_panics (U : UnicodeTables) :
    validateNumber "-" = none ∧ tokenizer U ['-'] = Run.panic :=
  ⟨rfl, rfl⟩

/-- C2: on success the lexeme of every token is the slice of the input from
its start (inclusive) to its end (exclusive); for a string token that slice
stands between two quote characters of the input, escapes left as they are. -/
theorem C2_value_is_slice (U : UnicodeTables) (runes : List Char) (tokens : List Token)
    (h : tokenizer U runes = .done (tokens, none)) (t : Token) (ht : t ∈ tokens) :
    t.start_position ≤ t.end_position ∧ t.end_position ≤ runes.length ∧
      t.value =
        String.mk ((runes.drop t.start_position).take (t.end_position - t.start_position)) ∧
      (t.name = STRING → 1 ≤ t.start_position ∧
        runes[t.start_position - 1]? = some '"' ∧ runes[t.end_position]? = some '"') := by
  rcases tokenizer_emitted h t ht with ⟨hn, hlt, hle, -, hval⟩ | ⟨hn, h1, hopen, hle, hclose, -, hval⟩
  · obtain ⟨h1, h2, h3⟩ := slice_eq_some hval
    exact ⟨h1, h2, by rw [← h3], fun e => absurd e hn⟩
  · obtain ⟨h2, h3, h4⟩ := slice_eq_some hval
    exact ⟨h2, h3, by rw [← h4], fun _ => ⟨h1, hopen, hclose⟩⟩

/-- Witness for C2 on the input `"a\"b" 1`: a string token with an escape and
a number token. -/
theorem C2_witness :
    (⟨"a\\\"b", STRING, 1, 5, 4⟩ : Token).value =
        String.mk ((['"', 'a', '\\', '"', 'b', '"', ' ', '1'].drop 1).take (5 - 1)) ∧
      (⟨"1", NUMBER, 7, 8, 1⟩ : Token).value =
        String.mk ((['"', 'a', '\\', '"', 'b', '"', ' ', '1'].drop 7).take (8 - 7)) :=
  ⟨(C2_value_is_slice asciiTables ['"', 'a', '\\', '"', 'b', '"', ' ', '1']
      [⟨"a\\\"b", STRING, 1, 5, 4⟩, ⟨"1", NUMBER, 7, 8, 1⟩] (by decide)
      ⟨"a\\\"b", STRING, 1, 5, 4⟩ (by simp)).2.2.1,
    (C2_value_is_slice asciiTables ['"', 'a', '\\', '"', 'b', '"', ' ', '1']
      [⟨"a\\\"b", STRING, 1, 5, 4⟩, ⟨"1", NUMBER, 7, 8, 1⟩] (by decide)
      ⟨"1", NUMBER, 7, 8, 1⟩ (by simp)).2.2.1⟩

/-- C3: on success the tokens are strictly ordered by start and do not
overlap: for tokens `a` at index `i` and `b` at a later index `j` (in
particular for consecutive ones), `a` starts before `b` starts and ends no
later than `b` starts. -/
theorem C3_ordered_disjoint (U : UnicodeTables) (runes : List Char) (tokens : List Token)
    (h : tokenizer U runes = .done (tokens, none)) (i j : Nat) (a b : Token)
    (hij : i < j) (ha : tokens[i]? = some a) (hb : tokens[j]? = some b) :
    a.start_position < b.start_position ∧ a.end_position ≤ b.start_position := by
  have hp := List.pairwise_iff_getElem.mp (tokenizer_pairwise h)
  obtain ⟨hi, rfl⟩ := List.getElem?_eq_some_iff.mp ha
  obtain ⟨hj, rfl⟩ := List.getElem?_eq_some_iff.mp hb
  exact hp i j hi hj hij

/-- Witness for C3 on the input `{"k":1}`. -/
theorem C3_witness :
    (⟨"k", STRING, 2, 3, 1⟩ : Token).start_position <
        (⟨":", NAME_COLON, 4, 5, 1⟩ : Token).start_position ∧
      (⟨"k", STRING, 2, 3, 1⟩ : Token).end_position ≤
        (⟨":", NAME_COLON, 4, 5, 1⟩ : Token).start_position :=
  C3_ordered_disjoint asciiTables ['{', '"', 'k', '"', ':', '1', '}']
    [⟨"\x7b", NAME_BRACE_OPEN, 0, 1, 1⟩, ⟨"k", STRING, 2, 3, 1⟩, ⟨":", NAME_COLON, 4, 5, 1⟩,
      ⟨"1", NUMBER, 5, 6, 1⟩, ⟨"\x7d", NAME_BRACE_CLOSE, 6, 7, 1⟩]
    (by decide) 1 2 _ _ (by decide) rfl rfl

/-- C6: on success every token has `width = end_position - start_position`
(and the subtraction is exact: `start_position + width = end_position`). -/
theorem C6_width (U : UnicodeTables) (runes : List Char) (tokens : List Token)
    (h : tokenizer U runes = .done (tokens, none)) (t : Token) (ht : t ∈ tokens) :
    t.width = t.end_position - t.start_position ∧
      t.start_position + t.width = t.end_position := by
  rcases tokenizer_emitted h t ht with ⟨-, hlt, -, hw, -⟩ | ⟨-, -, -, hle, -, hw, -⟩
  · exact ⟨hw, by omega⟩
  · exact ⟨hw, by omega⟩

/-- Witness for C6 on the input `"ab" 12`. -/
theorem C6_witness :
    (⟨"12", NUMBER, 5, 7, 2⟩ : Token).width = 7 - 5 ∧ 5 + (⟨"12", NUMBER, 5, 7, 2⟩ : Token).width = 7 :=
  C6_width asciiTables ['"', 'a', 'b', '"', ' ', '1', '2']
    [⟨"ab", STRING, 1, 3, 2⟩, ⟨"12", NUMBER, 5, 7, 2⟩] (by decide) _ (by simp)

/-- C7 fails as stated: the input `""` (two quotes) succeeds with one string
token whose span is empty, `start_position = end_position = 1`. -/
theorem C7_counterexample :
    ∃ t : Token, (∀ U : UnicodeTables, tokenizer U ['"', '"'] = .done ([t], none)) ∧
      ¬ t.end_position > t.start_position :=
  ⟨⟨"", STRING, 1, 1, 0⟩, fun _ => rfl, by decide⟩

/-- C7 as amended: on success a token covers at least one scalar value,
`end_position > start_position`, exactly when it is not a string token with
the empty lexeme; such a token has `end_position = start_position`. -/
theorem C7_nonempty_span (U : UnicodeTables) (runes : List Char) (tokens : List Token)
    (h : tokenizer U runes = .done (tokens, none)) (t : Token) (ht : t ∈ tokens) :
    (t.end_position > t.start_position ↔ ¬ (t.name = STRING ∧ t.value = "")) ∧
      t.start_position ≤ t.end_position := by
  rcases tokenizer_emitted h t ht with ⟨hn, hlt, -, -, -⟩ | ⟨hn, -, -, hle, -, -, hval⟩
  · exact ⟨⟨fun _ hc => hn hc.1, fun _ => hlt⟩, Nat.le_of_lt hlt⟩
  · have hlen := slice_length hval
    refine ⟨⟨?_, ?_⟩, hle⟩
    · intro hgt hc
      rw [hc.2] at hlen
      simp at hlen
      omega
    · intro hc
      by_contra hle1
      have h0 : t.value.data.length = 0 := by omega
      apply hc
      refine ⟨hn, ?_⟩
      apply String.ext
      exact List.length_eq_zero.mp h0

/-- Witness for the amended C7 on the input `"" 7`: the empty string token has
an empty span, the number token a span of one. -/
theorem C7_witness :
    ((⟨"7", NUMBER, 3, 4, 1⟩ : Token).end_position > (⟨"7", NUMBER, 3, 4, 1⟩ : Token).start_position ↔
        ¬ ((⟨"7", NUMBER, 3, 4, 1⟩ : Token).name = STRING ∧ (⟨"7", NUMBER, 3, 4, 1⟩ : Token).value = "")) ∧
      (⟨"7", NUMBER, 3, 4, 1⟩ : Token).start_position ≤ (⟨"7", NUMBER, 3, 4, 1⟩ : Token).end_position :=
  C7_nonempty_span asciiTables ['"', '"', ' ', '7']
    [⟨"", STRING, 1, 1, 0⟩, ⟨"7", NUMBER, 3, 4, 1⟩] (by decide) _ (by simp)

/-! ### Coverage of the input (C4) -/

theorem spansAt_append (tokens : List Token) (t : Token) (i : Nat) :
    spansAt (tokens ++ [t]) i = spansAt tokens i + (if t.covers i then 1 else 0) := by
  unfold spansAt
  rw [List.countP_append, List.countP_singleton]

theorem spansAt_eq_zero {tokens : List Token} {i idx : Nat}
    (h : ∀ t ∈ tokens, t.end_position ≤ idx) (hi : idx ≤ i) : spansAt tokens i = 0 := by
  unfold spansAt
  rw [List.countP_eq_zero]
  intro t ht
  have := h t ht
  simp only [Token.covers, decide_eq_true_eq]
  omega

theorem Accounted.append {U : UnicodeTables} {runes : List Char} {tokens : List Token}
    {i : Nat} (h : Accounted U runes tokens i) (t : Token) (hi : i < t.start_position) :
    Accounted U runes (tokens ++ [t]) i := by
  have hc : t.covers i = false := by
    simp only [Token.covers, decide_eq_false_iff_not]
    omega
  unfold Accounted
  rw [spansAt_append, hc]
  simp only [Bool.false_eq_true, if_false, Nat.add_zero]
  rcases h with h | ⟨h, h1 | ⟨hq, t1, ht1, hr⟩⟩
  · exact Or.inl h
  · exact Or.inr ⟨h, Or.inl h1⟩
  · exact Or.inr ⟨h, Or.inr ⟨hq, t1, List.mem_append_left _ ht1, hr⟩⟩

theorem StepSpec.accounted {U : UnicodeTables} {runes : List Char} {idx idx1 : Nat}
    {tokens tokens1 : List Token} (h : StepSpec U runes idx tokens idx1 tokens1)
    (hinv : (∀ t ∈ tokens, t.end_position ≤ idx) ∧
      ∀ i, i < idx → Accounted U runes tokens i) :
    (∀ t ∈ tokens1, t.end_position ≤ idx1) ∧
      ∀ i, i < idx1 → Accounted U runes tokens1 i := by
  obtain ⟨hb, ha⟩ := hinv
  cases h with
  | space c hc hs =>
    refine ⟨fun t ht => by have := hb t ht; omega, ?_⟩
    intro i hi
    by_cases h1 : i < idx
    · exact ha i h1
    · have hi1 : i = idx := by omega
      subst hi1
      exact Or.inr ⟨spansAt_eq_zero hb (Nat.le_refl _), Or.inl ⟨c, hc, hs⟩⟩
  | plain t hname hstart hlt hle hwidth hval =>
    refine ⟨?_, ?_⟩
    · intro t1 ht1
      rcases List.mem_append.mp ht1 with h1 | h1
      · have := hb t1 h1
        omega
      · rw [List.mem_singleton] at h1
        subst h1
        exact Nat.le_refl _
    · intro i hi
      by_cases h1 : i < idx
      · exact (ha i h1).append t (by omega)
      · have hc : t.covers i = true := by
          simp only [Token.covers, decide_eq_true_eq]
          omega
        left
        rw [spansAt_append, hc, spansAt_eq_zero hb (by omega : idx ≤ i)]
        rfl
  | string t hname hopen hstart hle hclose hwidth hval =>
    refine ⟨?_, ?_⟩
    · intro t1 ht1
      rcases List.mem_append.mp ht1 with h1 | h1
      · have := hb t1 h1
        omega
      · rw [List.mem_singleton] at h1
        subst h1
        omega
    · intro i hi
      by_cases h1 : i < idx
      · exact (ha i h1).append t (by omega)
      · have h0 := spansAt_eq_zero hb (by omega : idx ≤ i)
        by_cases h2 : t.start_position ≤ i ∧ i < t.end_position
        · have hc : t.covers i = true := by
            simp only [Token.covers, decide_eq_true_eq]
            exact h2
          left
          rw [spansAt_append, hc, h0]
          rfl
        · have hc : t.covers i = false := by
            simp only [Token.covers, decide_eq_false_iff_not]
            exact h2
          right
          rw [spansAt_append, hc, h0]
          refine ⟨rfl, Or.inr ⟨?_, t, List.mem_append_right _ (List.mem_singleton_self t),
            hname, by omega⟩⟩
          have hcase : i = idx ∨ i = t.end_position := by omega
          rcases hcase with e | e
          · rw [e]; exact hopen
          · rw [e]; exact hclose

/-- C4 fails as stated: on the input `""` offset 0 is the opening quote; it
lies in no token span (the only token spans `[1, 1)`) and is no white space. -/
theorem C4_counterexample :
    ∃ tokens : List Token, (∀ U : UnicodeTables, tokenizer U ['"', '"'] = .done (tokens, none)) ∧
      ∀ U : UnicodeTables, ¬ (spansAt tokens 0 = 1 ∨
        (spansAt tokens 0 = 0 ∧ ∃ c, ['"', '"'][0]? = some c ∧ unicode.IsSpace U c = true)) := by
  refine ⟨[⟨"", STRING, 1, 1, 0⟩], fun _ => rfl, ?_⟩
  intro U h
  rcases h with h | ⟨-, c, hc, hs⟩
  · revert h; decide
  · have : c = '"' := by
      have := Option.some.inj hc
      exact this.symm
    subst this
    have hq : unicode.IsSpace U '"' = false := rfl
    rw [hq] at hs
    exact absurd hs (by decide)

/-- C4 as amended: on success every offset of the input is accounted for in
exactly one way: it lies in the span of exactly one token, or it holds a
skipped white-space character and lies in no span, or it holds the opening or
closing quote of a string token and lies in no span. -/
theorem C4_accounted (U : UnicodeTables) (runes : List Char) (tokens : List Token)
    (h : tokenizer U runes = .done (tokens, none)) (i : Nat) (hi : i < runes.length) :
    spansAt tokens i = 1 ∨
      (spansAt tokens i = 0 ∧
        ((∃ c, runes[i]? = some c ∧ unicode.IsSpace U c = true) ∨
          (runes[i]? = some '"' ∧
            ∃ t ∈ tokens, t.name = STRING ∧
              (i + 1 = t.start_position ∨ i = t.end_position)))) :=
  (tokenizer_inv
    (fun idx toks => (∀ t ∈ toks, t.end_position ≤ idx) ∧
      ∀ i, i < idx → Accounted U runes toks i)
    ⟨fun _ ht => absurd ht (by simp), fun _ hi => absurd hi (Nat.not_lt_zero _)⟩
    (fun _ _ _ _ _ hinv hs => hs.accounted hinv) h).2 i hi

/-- Witness for the amended C4 on the input `"a" 1` at offset 2, the closing
quote. -/
theorem C4_witness :
    spansAt [⟨"a", STRING, 1, 2, 1⟩, ⟨"1", NUMBER, 4, 5, 1⟩] 2 = 1 ∨
      (spansAt [⟨"a", STRING, 1, 2, 1⟩, ⟨"1", NUMBER, 4, 5, 1⟩] 2 = 0 ∧
        ((∃ c, ['"', 'a', '"', ' ', '1'][2]? = some c ∧ unicode.IsSpace asciiTables c = true) ∨
          (['"', 'a', '"', ' ', '1'][2]? = some '"' ∧
            ∃ t ∈ [(⟨"a", STRING, 1, 2, 1⟩ : Token), ⟨"1", NUMBER, 4, 5, 1⟩], t.name = STRING ∧
              (2 + 1 = t.start_position ∨ 2 = t.end_position)))) :=
  C4_accounted asciiTables ['"', 'a', '"', ' ', '1']
    [⟨"a", STRING, 1, 2, 1⟩, ⟨"1", NUMBER, 4, 5, 1⟩] (by decide) 2 (by decide)

/-! ### Round trip (C5) -/

theorem interleave_append (w : List Char) (t : Token) :
    ∀ (ws : List (List Char)) (ts : List Token), ws.length = ts.length →
      interleave (ws ++ [w]) (ts ++ [t]) = interleave ws ts ++ (w ++ t.text) := by
  intro ws
  induction ws with
  | nil =>
    intro ts h
    cases ts with
    | nil => simp [interleave]
    | cons a ts => simp at h
  | cons v ws ih =>
    intro ts h
    cases ts with
    | nil => simp at h
    | cons a ts =>
      simp only [List.length_cons, Nat.add_right_cancel_iff] at h
      show v ++ a.text ++ interleave (ws ++ [w]) (ts ++ [t]) =
        v ++ a.text ++ interleave ws ts ++ (w ++ t.text)
      rw [ih ts h, List.append_assoc (v ++ a.text)]

theorem take_slice {runes sl : List Char} {lo hi : Nat} (h : slice runes lo hi = some sl) :
    runes.take hi = runes.take lo ++ sl := by
  obtain ⟨h1, h2, rfl⟩ := slice_eq_some h
  have : hi = lo + (hi - lo) := by omega
  conv_lhs => rw [this]
  rw [List.take_add]

theorem take_succ_of_getElem? {runes : List Char} {idx : Nat} {c : Char}
    (h : runes[idx]? = some c) : runes.take (idx + 1) = runes.take idx ++ [c] := by
  rw [List.take_succ, h]
  rfl

theorem StepSpec.roundTrip {U : UnicodeTables} {runes : List Char} {idx idx1 : Nat}
    {tokens tokens1 : List Token} (h : StepSpec U runes idx tokens idx1 tokens1)
    (hinv : RoundTrip U runes idx tokens) : RoundTrip U runes idx1 tokens1 := by
  obtain ⟨ws, wn, hlen, hws, hwn, htake⟩ := hinv
  cases h with
  | space c hc hs =>
    refine ⟨ws, wn ++ [c], hlen, hws, ?_, ?_⟩
    · intro d hd
      rcases List.mem_append.mp hd with h1 | h1
      · exact hwn d h1
      · rw [List.mem_singleton] at h1
        rw [h1]
        exact hs
    · rw [take_succ_of_getElem? hc, htake, List.append_assoc]
  | plain t hname hstart hlt hle hwidth hval =>
    refine ⟨ws ++ [wn], [], by simp [hlen], ?_, fun _ hd => absurd hd (by simp), ?_⟩
    · intro w hw
      rcases List.mem_append.mp hw with h1 | h1
      · exact hws w h1
      · rw [List.mem_singleton] at h1
        rw [h1]
        exact hwn
    · have ht : t.text = t.value.data := by
        unfold Token.text
        rw [if_neg hname]
      rw [take_slice hval, htake, interleave_append wn t ws tokens hlen, ht,
        List.append_nil, List.append_assoc]
  | string t hname hopen hstart hle hclose hwidth hval =>
    refine ⟨ws ++ [wn], [], by simp [hlen], ?_, fun _ hd => absurd hd (by simp), ?_⟩
    · intro w hw
      rcases List.mem_append.mp hw with h1 | h1
      · exact hws w h1
      · rw [List.mem_singleton] at h1
        rw [h1]
        exact hwn
    · have ht : t.text = '"' :: (t.value.data ++ ['"']) := by
        unfold Token.text
        rw [if_pos hname]
      rw [take_succ_of_getElem? hclose, take_slice hval, take_succ_of_getElem? hopen, htake,
        interleave_append wn t ws tokens hlen, ht]
      simp

/-- C5 (round trip): on success there are white-space strings `w₀ … wₙ` with
`input = w₀ r(t₁) w₁ … r(tₙ) wₙ`, where `r(t)` is the lexeme, put between
quotes for a string token. -/
theorem C5_round_trip (U : UnicodeTables) (runes : List Char) (tokens : List Token)
    (h : tokenizer U runes = .done (tokens, none)) :
    ∃ (ws : List (List Char)) (wn : List Char), ws.length = tokens.length ∧
      (∀ w ∈ ws, ∀ c ∈ w, unicode.IsSpace U c = true) ∧
      (∀ c ∈ wn, unicode.IsSpace U c = true) ∧
      runes = interleave ws tokens ++ wn := by
  have hr : RoundTrip U runes runes.length tokens :=
    tokenizer_inv (fun idx toks => RoundTrip U runes idx toks)
      ⟨[], [], rfl, fun _ hw => absurd hw (by simp), fun _ hc => absurd hc (by simp), rfl⟩
      (fun _ _ _ _ _ hinv hs => hs.roundTrip hinv) h
  obtain ⟨ws, wn, hlen, hws, hwn, htake⟩ := hr
  rw [List.take_length] at htake
  exact ⟨ws, wn, hlen, hws, hwn, htake⟩

/-- Witness for C5 on the input ` "a" :1 ` (with leading and trailing space). -/
theorem C5_witness :
    ∃ (ws : List (List Char)) (wn : List Char),
      ws.length =
        [(⟨"a", STRING, 2, 3, 1⟩ : Token), ⟨":", NAME_COLON, 5, 6, 1⟩,
          ⟨"1", NUMBER, 6, 7, 1⟩].length ∧
      (∀ w ∈ ws, ∀ c ∈ w, unicode.IsSpace asciiTables c = true) ∧
      (∀ c ∈ wn, unicode.IsSpace asciiTables c = true) ∧
      [' ', '"', 'a', '"', ' ', ':', '1', ' '] =
        interleave ws [⟨"a", STRING, 2, 3, 1⟩, ⟨":", NAME_COLON, 5, 6, 1⟩,
          ⟨"1", NUMBER, 6, 7, 1⟩] ++ wn :=
  C5_round_trip asciiTables [' ', '"', 'a', '"', ' ', ':', '1', ' ']
    [⟨"a", STRING, 2, 3, 1⟩, ⟨":", NAME_COLON, 5, 6, 1⟩, ⟨"1", NUMBER, 6, 7, 1⟩] (by decide)

/-! ### The empty-input error (C8) -/

theorem error_ne (p m : String) (h : m ≠ "No input to parse") :
    (⟨p, m⟩ : CustomError).error ≠ "No input to parse" := h

theorem scanNumber_fail (U : UnicodeTables) (runes : List Char) :
    ∀ fuel idx isFloat isExp expDigits err,
      scanNumber U runes fuel idx isFloat isExp expDigits = .done (.fail err) →
      err.error ≠ "No input to parse" := by
  intro fuel
  induction fuel with
  | zero =>
    intro idx isFloat isExp expDigits err h
    unfold scanNumber at h
    split at h <;> cases h
  | succ fuel ih =>
    intro idx isFloat isExp expDigits err h
    unfold scanNumber at h
    split at h
    · split at h
      · cases h
      · split at h
        · exact ih _ _ _ _ _ h
        · split at h
          · split at h
            · cases h
              exact error_ne _ _ (by decide)
            · exact ih _ _ _ _ _ h
          · split at h
            · split at h
              · cases h
                exact error_ne _ _ (by decide)
              · split at h
                · split at h
                  · cases h
                  · split at h
                    · exact ih _ _ _ _ _ h
                    · exact ih _ _ _ _ _ h
                · exact ih _ _ _ _ _ h
            · cases h
    · cases h

theorem numberBranch_error {U : UnicodeTables} {runes : List Char} {idx : Nat}
    {tokens toks : List Token} {e : CustomError}
    (h : numberBranch U runes idx tokens = .done (.ret toks (some e))) :
    e.error ≠ "No input to parse" := by
  unfold numberBranch at h
  split at h
  · cases h
  · cases h
  · rename_i err hs
    cases h
    exact scanNumber_fail U runes _ _ _ _ _ _ hs
  · split at h
    · cases h
    · dsimp only at h
      split at h
      · cases h
      · cases h
        exact error_ne _ _ (by decide)
      · split at h
        · cases h
          exact error_ne _ _ (by decide)
        · cases h

theorem iteration_error {U : UnicodeTables} {runes : List Char} {idx : Nat}
    {tokens toks : List Token} {e : CustomError}
    (h : iteration U runes idx tokens = .done (.ret toks (some e))) :
    e.error ≠ "No input to parse" := by
  unfold iteration at h
  split at h
  · cases h
  · repeat' (split at h)
    all_goals first
      | cases h
      | skip
    · unfold stringBranch at h
      split at h
      · cases h
      · cases h
      · split at h
        · cases h
          exact error_ne _ _ (by decide)
        · split at h <;> cases h
    · unfold defaultBranch at h
      split at h
      · cases h
      · dsimp only at h
        split at h
        · cases h
        · split at h
          · cases h
          · split at h
            · cases h
            · split at h
              · exact numberBranch_error h
              · cases h
                exact error_ne _ _ (by decide)

theorem mainLoop_error (U : UnicodeTables) (runes : List Char) :
    ∀ fuel idx tokens toks e, mainLoop U runes fuel idx tokens = .done (toks, some e) →
      e.error ≠ "No input to parse" := by
  intro fuel
  induction fuel with
  | zero =>
    intro idx tokens toks e h
    unfold mainLoop at h
    split at h <;> cases h
  | succ fuel ih =>
    intro idx tokens toks e h
    unfold mainLoop at h
    split at h
    · split at h
      · cases h
      · cases h
      · rename_i toks1 err heq
        cases h
        exact iteration_error heq
      · exact ih _ _ _ _ h
    · cases h

/-- C8: `tokenizer` returns the error "No input to parse" exactly when the
input has no scalar value, and it then returns it with position "0". -/
theorem C8_empty_input (U : UnicodeTables) (runes : List Char) :
    ((∃ toks e, tokenizer U runes = .done (toks, some e) ∧ e.error = "No input to parse") ↔
        runes.length = 0) ∧
      (runes.length = 0 →
        tokenizer U runes = .done ([], some ⟨"0", "No input to parse"⟩)) := by
  have h0 : runes.length = 0 →
      tokenizer U runes = .done ([], some ⟨"0", "No input to parse"⟩) := by
    intro hl
    unfold tokenizer
    rw [if_pos hl]
  refine ⟨⟨?_, fun hl => ⟨[], _, h0 hl, rfl⟩⟩, h0⟩
  rintro ⟨toks, e, h, he⟩
  by_contra hl
  unfold tokenizer at h
  rw [if_neg hl] at h
  exact mainLoop_error U runes _ _ _ _ _ h he

/-! ### String tokens (C9, C10) -/

theorem getElem?_append_cons (pre : List Char) (c : Char) (tail : List Char) :
    (pre ++ c :: tail)[pre.length]? = some c := by
  rw [List.getElem?_append_right (Nat.le_refl _), Nat.sub_self]
  simp

/-- The string loop runs over a body of units: it arrives at the end of the
body with at most one unit of fuel used per character. -/
theorem scanString_body {body : List Char} (hb : StringBody body) (runes rest : List Char) :
    ∀ (pre : List Char) (fuel : Nat), runes = pre ++ (body ++ rest) → body.length ≤ fuel →
      ∃ fuel1, fuel ≤ fuel1 + body.length ∧
        scanString runes fuel pre.length = scanString runes fuel1 (pre.length + body.length) := by
  induction hb with
  | nil =>
    intro pre fuel _ _
    exact ⟨fuel, by simp, by simp⟩
  | @cons u body hu hb ih =>
    intro pre fuel hr hf
    cases hu with
    | plain c hq hbs =>
      simp only [List.singleton_append, List.length_cons] at hf ⊢
      obtain ⟨f, rfl⟩ : ∃ f, fuel = f + 1 := ⟨fuel - 1, by omega⟩
      have hc : runes[pre.length]? = some c := by
        rw [hr]
        exact getElem?_append_cons pre c _
      obtain ⟨fuel1, h1, h2⟩ := ih (pre ++ [c]) f (by rw [hr]; simp) (by omega)
      refine ⟨fuel1, by omega, ?_⟩
      rw [scanString, if_pos (getElem?_lt hc), hc]
      dsimp only
      rw [if_neg hbs, if_neg hq]
      rw [List.length_append, List.length_singleton] at h2
      rw [h2]
      congr 1
      omega
    | escape c =>
      simp only [List.cons_append, List.nil_append, List.length_cons] at hf ⊢
      obtain ⟨f, rfl⟩ : ∃ f, fuel = f + 1 := ⟨fuel - 1, by omega⟩
      have hc : runes[pre.length]? = some '\\' := by
        rw [hr]
        exact getElem?_append_cons pre _ _
      obtain ⟨fuel1, h1, h2⟩ := ih (pre ++ ['\\', c]) f (by rw [hr]; simp) (by omega)
      refine ⟨fuel1, by omega, ?_⟩
      rw [scanString, if_pos (getElem?_lt hc), hc]
      dsimp only
      rw [if_pos rfl]
      simp only [List.length_append, List.length_cons, List.length_nil] at h2
      rw [h2]
      congr 1
      omega

/-- The string loop stops at the quote that follows a body of units. -/
theorem scanString_closed {body : List Char} (hb : StringBody body)
    (pre rest : List Char) (fuel : Nat) (hf : body.length < fuel) :
    scanString (pre ++ (body ++ '"' :: rest)) fuel pre.length =
      .done (pre.length + body.length) := by
  obtain ⟨fuel1, h1, h2⟩ := scanString_body hb _ ('"' :: rest) pre fuel rfl (Nat.le_of_lt hf)
  rw [h2]
  obtain ⟨f, rfl⟩ : ∃ f, fuel1 = f + 1 := ⟨fuel1 - 1, by omega⟩
  have hc : (pre ++ (body ++ '"' :: rest))[pre.length + body.length]? = some '"' := by
    rw [← List.append_assoc, ← List.length_append]
    exact getElem?_append_cons _ _ _
  rw [scanString, if_pos (getElem?_lt hc), hc]
  dsimp only
  rw [if_neg (by decide), if_pos rfl]

/-- On a body with no unescaped quote the string loop runs to the end of the
input, or one position past it. -/
theorem scanString_open {body : List Char} (hb : OpenBody body)
    (pre : List Char) (fuel : Nat) (hf : body.length ≤ fuel) :
    ∃ r, scanString (pre ++ body) fuel pre.length = .done r ∧ (pre ++ body).length ≤ r := by
  rcases hb with hb | ⟨b, hb, rfl⟩
  · obtain ⟨fuel1, h1, h2⟩ := scanString_body hb (pre ++ body) [] pre fuel (by simp) hf
    rw [h2]
    refine ⟨pre.length + body.length, ?_, (by simp only [List.length_append, List.length_cons, List.length_nil]; omega)⟩
    cases fuel1 with
    | zero => rw [scanString, if_neg (by simp only [List.length_append, List.length_cons, List.length_nil]; omega)]
    | succ f => rw [scanString, if_neg (by simp only [List.length_append, List.length_cons, List.length_nil]; omega)]
  · rw [List.length_append, List.length_singleton] at hf
    obtain ⟨fuel1, h1, h2⟩ :=
      scanString_body hb (pre ++ (b ++ ['\\'])) ['\\'] pre fuel rfl (by omega)
    rw [h2]
    obtain ⟨f, rfl⟩ : ∃ f, fuel1 = f + 1 := ⟨fuel1 - 1, by omega⟩
    have hc : (pre ++ (b ++ ['\\']))[pre.length + b.length]? = some '\\' := by
      rw [← List.append_assoc, ← List.length_append]
      exact getElem?_append_cons _ _ _
    rw [scanString, if_pos (getElem?_lt hc), hc]
    dsimp only
    rw [if_pos rfl]
    refine ⟨pre.length + b.length + 2, ?_,
      (by simp only [List.length_append, List.length_cons, List.length_nil]; omega)⟩
    cases f with
    | zero => rw [scanString, if_neg (by simp only [List.length_append, List.length_cons, List.length_nil]; omega)]
    | succ f => rw [scanString, if_neg (by simp only [List.length_append, List.length_cons, List.length_nil]; omega)]

theorem slice_middle (pre body rest : List Char) :
    slice (pre ++ (body ++ rest)) pre.length (pre.length + body.length) = some body := by
  rw [slice_of_le (Nat.le_add_right _ _)
    (by simp only [List.length_append]; omega)]
  congr 1
  rw [List.drop_left, Nat.add_sub_cancel_left, List.take_left]

theorem IsSpace_quote (U : UnicodeTables) : unicode.IsSpace U '"' = false := rfl

/-- At a quote the loop body is the string branch. -/
theorem iteration_quote (U : UnicodeTables) {runes : List Char} {idx : Nat}
    (tokens : List Token) (hc : runes[idx]? = some '"') :
    iteration U runes idx tokens = stringBranch runes idx tokens := by
  unfold iteration
  rw [hc]
  dsimp only
  rw [if_neg (by rw [IsSpace_quote]; decide), if_neg (by decide), if_neg (by decide),
    if_neg (by decide), if_neg (by decide), if_neg (by decide), if_neg (by decide),
    if_pos (by decide)]

theorem mainLoop_exit (U : UnicodeTables) (runes : List Char) (fuel idx : Nat)
    (tokens : List Token) (h : runes.length ≤ idx) :
    mainLoop U runes fuel idx tokens = .done (tokens, none) := by
  cases fuel with
  | zero => rw [mainLoop, if_neg (by omega)]
  | succ f => rw [mainLoop, if_neg (by omega)]

/-- C9: for a body that is a concatenation of units (a scalar value other than
quote and backslash, or a backslash and any one scalar value), the input
quote, body, quote gives exactly one token: a string token whose lexeme is the
body unchanged, from offset 1 to offset `1 + length body`, of width
`length body`. -/
theorem C9_string_token (U : UnicodeTables) (body : List Char) (hb : StringBody body) :
    tokenizer U ('"' :: (body ++ ['"'])) =
      .done ([⟨String.mk body, STRING, 1, 1 + body.length, body.length⟩], none) := by
  have hlen : ('"' :: (body ++ ['"'])).length = body.length + 1 + 1 := by simp
  have hscan := scanString_closed hb ['"'] [] (body.length + 1) (Nat.lt_succ_self _)
  have hsl := slice_middle ['"'] body ['"']
  simp only [List.singleton_append, List.length_singleton] at hscan hsl
  unfold tokenizer
  rw [if_neg (by rw [hlen]; omega), hlen, mainLoop, if_pos (by rw [hlen]; omega),
    iteration_quote U [] (List.getElem?_cons_zero), stringBranch, hlen]
  simp only [Nat.zero_add, Nat.add_sub_cancel]
  rw [hscan]
  dsimp only
  rw [if_neg (by omega), hsl]
  dsimp only
  rw [mainLoop_exit U _ _ _ _ (by rw [hlen]; omega)]
  simp

/-- Witness for C9: the input `"ab\"cd"` (8 scalar values) gives one string
token with lexeme `ab\"cd` from offset 1 to offset 7. -/
theorem C9_witness :
    tokenizer asciiTables ['"', 'a', 'b', '\\', '"', 'c', 'd', '"'] =
      .done ([⟨"ab\\\"cd", STRING, 1, 7, 6⟩], none) :=
  C9_string_token asciiTables ['a', 'b', '\\', '"', 'c', 'd']
    (StringBody.cons (StringUnit.plain 'a' (by decide) (by decide))
      (StringBody.cons (StringUnit.plain 'b' (by decide) (by decide))
        (StringBody.cons (StringUnit.escape '"')
          (StringBody.cons (StringUnit.plain 'c' (by decide) (by decide))
            (StringBody.cons (StringUnit.plain 'd' (by decide) (by decide))
              StringBody.nil)))))

/-- At a white-space or structural character the loop body advances the
cursor by one. -/
theorem iteration_structural {U : UnicodeTables} {runes : List Char} {idx : Nat} {c : Char}
    (tokens : List Token) (hc : runes[idx]? = some c)
    (h : unicode.IsSpace U c = true ∨ c ∈ ['{', '}', '[', ']', ':', ',']) :
    ∃ tokens1, iteration U runes idx tokens = .done (.next (idx + 1) tokens1) := by
  unfold iteration
  rw [hc]
  dsimp only
  by_cases hs : unicode.IsSpace U c = true
  · rw [if_pos hs]
    exact ⟨_, rfl⟩
  · rw [if_neg hs]
    rcases h with h | h
    · exact absurd h hs
    · simp only [List.mem_cons, List.mem_singleton, List.mem_nil_iff, or_false] at h
      rcases h with h | h | h | h | h | h <;> subst h <;> exact ⟨_, rfl⟩

/-- The main loop runs over a prefix of white space and structural
characters, one iteration per character. -/
theorem mainLoop_structural (U : UnicodeTables) (runes rest : List Char) :
    ∀ (p : List Char), StructuralPrefix U p → ∀ (pre : List Char) (fuel : Nat)
      (tokens : List Token), runes = pre ++ (p ++ rest) →
      ∃ tokens1, mainLoop U runes (fuel + p.length) pre.length tokens =
        mainLoop U runes fuel (pre.length + p.length) tokens1 := by
  intro p
  induction p with
  | nil =>
    intro _ pre fuel tokens _
    exact ⟨tokens, rfl⟩
  | cons c p ih =>
    intro hp pre fuel tokens hr
    have hc : runes[pre.length]? = some c := by
      rw [hr]
      exact getElem?_append_cons pre c _
    obtain ⟨tokens1, h1⟩ := iteration_structural tokens hc (hp c (List.mem_cons_self _ _))
    obtain ⟨tokens2, h2⟩ := ih (fun d hd => hp d (List.mem_cons_of_mem _ hd)) (pre ++ [c]) fuel
      tokens1 (by rw [hr]; simp)
    refine ⟨tokens2, ?_⟩
    rw [List.length_append, List.length_singleton] at h2
    have e1 : fuel + (c :: p).length = (fuel + p.length) + 1 := by simp; omega
    have e2 : pre.length + (c :: p).length = pre.length + 1 + p.length := by simp; omega
    rw [e1, e2, mainLoop, if_pos (getElem?_lt hc), h1]
    exact h2

/-- C10: after a prefix `p` of white space and structural characters, an
opening quote followed by a body with no unescaped quote (units, optionally
ending in a lone backslash) makes `tokenizer` fail with "Unterminated string"
at position `length p`, the offset of the opening quote. -/
theorem C10_unterminated (U : UnicodeTables) (p body : List Char)
    (hp : StructuralPrefix U p) (hb : OpenBody body) :
    tokenizer U (p ++ '"' :: body) =
      .done ([], some ⟨fmt.Sprint p.length, "Unterminated string"⟩) := by
  have hlen : (p ++ '"' :: body).length = (body.length + 1) + p.length := by
    simp only [List.length_append, List.length_cons]
    omega
  obtain ⟨tokens1, h1⟩ := mainLoop_structural U (p ++ '"' :: body) ('"' :: body) p hp []
    (body.length + 1) [] rfl
  have hq : (p ++ '"' :: body)[p.length]? = some '"' := getElem?_append_cons p _ _
  obtain ⟨r, hr, hge⟩ := scanString_open hb (p ++ ['"']) body.length (Nat.le_refl _)
  have e1 : p ++ ['"'] ++ body = p ++ '"' :: body := by simp
  have e2 : (p ++ ['"']).length = p.length + 1 := by simp
  rw [e1, e2] at hr
  rw [e1] at hge
  rw [List.length_nil, Nat.zero_add] at h1
  unfold tokenizer
  rw [if_neg (by rw [hlen]; omega), hlen, h1, mainLoop,
    if_pos (getElem?_lt hq), iteration_quote U tokens1 hq, stringBranch, hlen]
  have e3 : body.length + 1 + p.length - (p.length + 1) = body.length := by omega
  rw [e3, hr]
  dsimp only
  rw [if_pos (by rw [← hlen]; exact hge)]

/-- Witness for C10: the input `"abc` fails with "Unterminated string" at
position 0, and the input `[ "a\\"\\` (a prefix of two characters, a body ending
in a lone backslash) fails with it at position 2. -/
theorem C10_witness :
    tokenizer asciiTables ['"', 'a', 'b', 'c'] =
        .done ([], some ⟨"0", "Unterminated string"⟩) ∧
      tokenizer asciiTables ['[', ' ', '"', 'a', '\\', '"', '\\'] =
        .done ([], some ⟨"2", "Unterminated string"⟩) :=
  ⟨C10_unterminated asciiTables [] ['a', 'b', 'c'] (fun _ h => absurd h (by simp))
      (Or.inl (StringBody.cons (StringUnit.plain 'a' (by decide) (by decide))
        (StringBody.cons (StringUnit.plain 'b' (by decide) (by decide))
          (StringBody.cons (StringUnit.plain 'c' (by decide) (by decide)) StringBody.nil)))),
    C10_unterminated asciiTables ['[', ' '] ['a', '\\', '"', '\\']
      (by unfold StructuralPrefix; decide)
      (Or.inr ⟨['a', '\\', '"'],
        StringBody.cons (StringUnit.plain 'a' (by decide) (by decide))
          (StringBody.cons (StringUnit.escape '"') StringBody.nil), rfl⟩)⟩

/-! ### Where the code can panic (C1) -/

theorem EncodeRune_head (c : Char) :
    ∃ b rest, utf8.EncodeRune c = b :: rest ∧ (b = 0x2D → c = '-') := by
  by_cases h : c.toNat ≤ 0x7F
  · refine ⟨c.toNat, [], EncodeRune_ascii h, fun hb => toNat_inj ?_⟩
    rw [hb]
    rfl
  · obtain ⟨b, rest, hb, hge⟩ := EncodeRune_nonascii (by omega : 0x7F < c.toNat)
    exact ⟨b, rest, hb, fun e => by omega⟩

/-- The accesses `number[0]` and `number[1]` of `validateNumber` are out of
range only on the empty string and on the string `-`. -/
theorem validateNumber_none {sl : List Char} (h : validateNumber ⟨sl⟩ = none) :
    sl = [] ∨ sl = ['-'] := by
  cases sl with
  | nil => exact Or.inl rfl
  | cons c rest =>
    right
    obtain ⟨b, tail, hb, hminus⟩ := EncodeRune_head c
    have hbytes : bytes ⟨c :: rest⟩ = b :: (tail ++ rest.flatMap utf8.EncodeRune) := by
      rw [bytes_mk, List.flatMap_cons, hb]
      rfl
    unfold validateNumber at h
    rw [hbytes] at h
    simp only [List.getElem?_cons_zero] at h
    split at h
    · rename_i hb0
      have hc := hminus hb0
      subst hc
      have htail : tail = [] := by
        have : utf8.EncodeRune '-' = [0x2D] := rfl
        rw [this] at hb
        injection hb with _ ht
        exact ht.symm
      subst htail
      split at h
      · cases h
      · cases rest with
        | nil => rfl
        | cons d rest =>
          obtain ⟨b1, tail1, hb1, -⟩ := EncodeRune_head d
          rw [List.flatMap_cons, hb1] at h
          simp only [List.nil_append, List.cons_append, List.getElem?_cons_succ,
            List.getElem?_cons_zero] at h
          split at h
          · cases h
          · split at h <;> cases h
    · split at h <;> cases h

theorem scanString_ne_panic (runes : List Char) :
    ∀ fuel idx, scanString runes fuel idx ≠ .panic := by
  intro fuel
  induction fuel with
  | zero =>
    intro idx h
    unfold scanString at h
    split at h <;> cases h
  | succ fuel ih =>
    intro idx h
    unfold scanString at h
    split at h
    · rename_i hlt
      rw [List.getElem?_eq_getElem hlt] at h
      dsimp only at h
      split at h
      · exact ih _ h
      · split at h
        · cases h
        · exact ih _ h
    · cases h

theorem scanNumber_ne_panic (U : UnicodeTables) (runes : List Char) :
    ∀ fuel idx isFloat isExp expDigits,
      scanNumber U runes fuel idx isFloat isExp expDigits ≠ .panic := by
  intro fuel
  induction fuel with
  | zero =>
    intro idx isFloat isExp expDigits h
    unfold scanNumber at h
    split at h <;> cases h
  | succ fuel ih =>
    intro idx isFloat isExp expDigits h
    unfold scanNumber at h
    split at h
    · rename_i hlt
      rw [List.getElem?_eq_getElem hlt] at h
      dsimp only at h
      split at h
      · exact ih _ _ _ _ h
      · split at h
        · split at h
          · cases h
          · exact ih _ _ _ _ h
        · split at h
          · split at h
            · cases h
            · split at h
              · rename_i hlt1
                rw [List.getElem?_eq_getElem hlt1] at h
                dsimp only at h
                split at h
                · exact ih _ _ _ _ h
                · exact ih _ _ _ _ h
              · exact ih _ _ _ _ h
          · cases h
    · cases h

/-- A number loop that stops where it started met the end of the input or a
character that is no digit, `.`, `e` or `E`. -/
theorem scanNumber_stops (U : UnicodeTables) (runes : List Char) (fuel idx : Nat)
    (isFloat isExp : Bool) (expDigits : Nat) (e : Bool) (d : Nat)
    (h : scanNumber U runes fuel idx isFloat isExp expDigits = .done (.numberDone idx e d)) :
    ∀ c, runes[idx]? = some c →
      unicode.IsDigit U c = false ∧ c ≠ '.' ∧ c ≠ 'e' ∧ c ≠ 'E' := by
  intro c hc
  have hlt := getElem?_lt hc
  cases fuel with
  | zero =>
    unfold scanNumber at h
    rw [if_pos hlt] at h
    cases h
  | succ fuel =>
    unfold scanNumber at h
    rw [if_pos hlt, hc] at h
    dsimp only at h
    split at h
    · have := (scanNumber_done U runes _ _ _ _ _ _ _ _ (by omega) h).1
      omega
    · rename_i hd
      split at h
      · split at h
        · cases h
        · have := (scanNumber_done U runes _ _ _ _ _ _ _ _ (by omega) h).1
          omega
      · rename_i hdot
        split at h
        · split at h
          · cases h
          · split at h
            · rename_i hlt1
              rw [List.getElem?_eq_getElem hlt1] at h
              dsimp only at h
              split at h
              · have := (scanNumber_done U runes _ _ _ _ _ _ _ _ (by omega) h).1
                omega
              · have := (scanNumber_done U runes _ _ _ _ _ _ _ _ (by omega) h).1
                omega
            · have := (scanNumber_done U runes _ _ _ _ _ _ _ _ (by omega) h).1
              omega
        · rename_i he
          exact ⟨by simpa using hd, hdot, fun x => he (Or.inl x), fun x => he (Or.inr x)⟩

theorem numberBranch_panic {U : UnicodeTables} {runes : List Char} {idx : Nat}
    {tokens : List Token} (hlt : idx < runes.length)
    (h : numberBranch U runes idx tokens = .panic) : LoneMinus U runes idx := by
  unfold numberBranch at h
  split at h
  · cases h
  · rename_i hs
    exact absurd hs (scanNumber_ne_panic U runes _ _ _ _ _)
  · cases h
  · rename_i r e d hr
    have hd := scanNumber_done U runes _ _ _ _ _ _ _ _ (by omega) hr
    rw [slice_of_le (by omega) hd.2] at h
    dsimp only at h
    split at h
    · rename_i hv
      have hl : ((runes.drop idx).take (r - idx)).length = r - idx := by
        rw [List.length_take, List.length_drop]
        omega
      rcases validateNumber_none hv with h0 | h1
      · rw [h0] at hl
        simp at hl
        omega
      · rw [h1] at hl
        have hr1 : r = idx + 1 := by
          simp at hl
          omega
        subst hr1
        have hsl := slice_one (List.getElem?_eq_getElem hlt)
        rw [slice_of_le (by omega) hd.2, h1] at hsl
        have hc : runes[idx] = '-' := by
          have := Option.some.inj hsl
          exact (List.singleton_inj.mp this).symm
        refine ⟨by rw [List.getElem?_eq_getElem hlt, hc], ?_⟩
        exact scanNumber_stops U runes _ _ _ _ _ _ _ hr
    · cases h
    · split at h <;> cases h

theorem iteration_panic {U : UnicodeTables} {runes : List Char} {idx : Nat}
    {tokens : List Token} (hlt : idx < runes.length)
    (h : iteration U runes idx tokens = .panic) : LoneMinus U runes idx := by
  unfold iteration at h
  rw [List.getElem?_eq_getElem hlt] at h
  dsimp only at h
  repeat' (split at h)
  all_goals first
    | cases h
    | skip
  · unfold stringBranch at h
    split at h
    · cases h
    · rename_i hs
      exact absurd hs (scanString_ne_panic runes _ _)
    · rename_i r hr
      have hd := scanString_done runes _ _ _ hr
      split at h
      · cases h
      · rw [slice_of_le hd.1 (by omega)] at h
        cases h
  · unfold defaultBranch at h
    rw [slice_to_end runes idx (Nat.le_of_lt hlt)] at h
    dsimp only at h
    split at h
    · cases h
    · split at h
      · cases h
      · split at h
        · cases h
        · split at h
          · exact numberBranch_panic hlt h
          · cases h

theorem mainLoop_panic (U : UnicodeTables) (runes : List Char) :
    ∀ fuel idx tokens, mainLoop U runes fuel idx tokens = .panic →
      ∃ i, LoneMinus U runes i := by
  intro fuel
  induction fuel with
  | zero =>
    intro idx tokens h
    unfold mainLoop at h
    split at h <;> cases h
  | succ fuel ih =>
    intro idx tokens h
    unfold mainLoop at h
    split at h
    · rename_i hlt
      split at h
      · cases h
      · rename_i heq
        exact ⟨idx, iteration_panic hlt heq⟩
      · cases h
      · exact ih _ _ h
    · cases h

/-- The only way `tokenizer` panics: the input holds a `-` that is followed by
the end of the input or by a character that is no digit, `.`, `e` or `E`; all
other index and slice expressions are in range. -/
theorem tokenizer_panic_lone_minus (U : UnicodeTables) (runes : List Char)
    (h : tokenizer U runes = .panic) : ∃ i, LoneMinus U runes i := by
  unfold tokenizer at h
  split at h
  · cases h
  · exact mainLoop_panic U runes _ _ _ h

/-! ### Runs of white space and structural characters (C11, C19, C17) -/

theorem IsSpace_structural (U : UnicodeTables) {c : Char}
    (h : c ∈ ['{', '}', '[', ']', ':', ',']) : unicode.IsSpace U c = false := by
  simp only [List.mem_cons, List.mem_singleton, List.mem_nil_iff, or_false] at h
  rcases h with h | h | h | h | h | h <;> subst h <;> rfl

theorem iteration_space {U : UnicodeTables} {runes : List Char} {idx : Nat} {c : Char}
    (tokens : List Token) (hc : runes[idx]? = some c) (hs : unicode.IsSpace U c = true) :
    iteration U runes idx tokens = .done (.next (idx + 1) tokens) := by
  unfold iteration
  rw [hc]
  dsimp only
  rw [if_pos hs]

theorem iteration_structuralToken {U : UnicodeTables} {runes : List Char} {idx : Nat}
    {c : Char} (tokens : List Token) (hc : runes[idx]? = some c)
    (h : c ∈ ['{', '}', '[', ']', ':', ',']) :
    iteration U runes idx tokens =
      .done (.next (idx + 1) (tokens ++ [structuralToken idx c])) := by
  have hs := IsSpace_structural U h
  unfold iteration
  rw [hc]
  dsimp only
  rw [if_neg (by rw [hs]; decide)]
  simp only [List.mem_cons, List.mem_singleton, List.mem_nil_iff, or_false] at h
  rcases h with h | h | h | h | h | h <;> subst h <;> rfl

/-- The main loop runs over a prefix of white space and structural
characters and emits exactly `prefixTokens`. -/
theorem mainLoop_structural_run (U : UnicodeTables) (runes rest : List Char) :
    ∀ (p : List Char), StructuralPrefix U p → ∀ (pre : List Char) (fuel : Nat)
      (tokens : List Token), runes = pre ++ (p ++ rest) →
      mainLoop U runes (fuel + p.length) pre.length tokens =
        mainLoop U runes fuel (pre.length + p.length)
          (tokens ++ prefixTokens U pre.length p) := by
  intro p
  induction p with
  | nil =>
    intro _ pre fuel tokens _
    simp [prefixTokens]
  | cons c p ih =>
    intro hp pre fuel tokens hr
    have hc : runes[pre.length]? = some c := by
      rw [hr]
      exact getElem?_append_cons pre c _
    have hp1 : StructuralPrefix U p := fun d hd => hp d (List.mem_cons_of_mem _ hd)
    have e1 : fuel + (c :: p).length = (fuel + p.length) + 1 := by simp; omega
    have e2 : pre.length + (c :: p).length = pre.length + 1 + p.length := by simp; omega
    have hr1 : runes = (pre ++ [c]) ++ (p ++ rest) := by rw [hr]; simp
    have hl : (pre ++ [c]).length = pre.length + 1 := by simp
    rw [e1, e2, mainLoop, if_pos (getElem?_lt hc)]
    by_cases hs : unicode.IsSpace U c = true
    · have h2 := ih hp1 (pre ++ [c]) fuel tokens hr1
      rw [hl] at h2
      rw [iteration_space tokens hc hs]
      dsimp only
      rw [h2, prefixTokens, if_pos hs]
    · have hmem : c ∈ ['{', '}', '[', ']', ':', ','] := by
        rcases hp c (List.mem_cons_self _ _) with h | h
        · exact absurd h hs
        · exact h
      have h2 := ih hp1 (pre ++ [c]) fuel (tokens ++ [structuralToken pre.length c]) hr1
      rw [hl] at h2
      rw [iteration_structuralToken tokens hc hmem]
      dsimp only
      rw [h2, prefixTokens, if_neg hs, List.append_assoc]
      rfl

/-- On an input of white space and structural characters `tokenizer` returns
`prefixTokens`. -/
theorem tokenizer_structural_run (U : UnicodeTables) (p : List Char) (hne : p ≠ [])
    (hp : StructuralPrefix U p) : tokenizer U p = .done (prefixTokens U 0 p, none) := by
  have h := mainLoop_structural_run U p [] p hp [] 0 [] (by simp)
  simp only [Nat.zero_add, List.length_nil, List.nil_append] at h
  unfold tokenizer
  rw [if_neg (by
    intro h0
    exact hne (List.length_eq_zero.mp h0)), h]
  exact mainLoop_exit U p 0 _ _ (Nat.le_refl _)

theorem prefixTokens_structural (U : UnicodeTables) :
    ∀ (p : List Char) (off : Nat), (∀ c ∈ p, c ∈ ['{', '}', '[', ']', ':', ',']) →
      (prefixTokens U off p).length = p.length ∧
        ∀ i c, p[i]? = some c →
          (prefixTokens U off p)[i]? = some (structuralToken (off + i) c) := by
  intro p
  induction p with
  | nil =>
    intro off _
    exact ⟨rfl, fun i c h => by simp at h⟩
  | cons d p ih =>
    intro off hp
    have hs : ¬ unicode.IsSpace U d = true := by
      rw [IsSpace_structural U (hp d (List.mem_cons_self _ _))]
      decide
    obtain ⟨h1, h2⟩ := ih (off + 1) (fun c hc => hp c (List.mem_cons_of_mem _ hc))
    rw [prefixTokens, if_neg hs]
    refine ⟨by simp [h1], ?_⟩
    intro i c hi
    cases i with
    | zero =>
      simp only [List.getElem?_cons_zero] at hi ⊢
      rw [Option.some.inj hi]
      rfl
    | succ i =>
      simp only [List.getElem?_cons_succ] at hi ⊢
      rw [h2 i c hi]
      congr 2
      omega

theorem prefixTokens_space (U : UnicodeTables) :
    ∀ (p : List Char) (off : Nat), (∀ c ∈ p, unicode.IsSpace U c = true) →
      prefixTokens U off p = [] := by
  intro p
  induction p with
  | nil => intro off _; rfl
  | cons d p ih =>
    intro off hp
    rw [prefixTokens, if_pos (hp d (List.mem_cons_self _ _))]
    exact ih (off + 1) (fun c hc => hp c (List.mem_cons_of_mem _ hc))

/-- C11: on a non-empty input made only of the six structural characters,
`tokenizer` succeeds with one token per character: token `i` has the character
`input[i]` as value, the name matching it, start `i`, end `i + 1`, width 1. -/
theorem C11_structural_tokens (U : UnicodeTables) (input : List Char) (hne : input ≠ [])
    (hs : ∀ c ∈ input, c ∈ ['{', '}', '[', ']', ':', ',']) :
    ∃ tokens, tokenizer U input = .done (tokens, none) ∧ tokens.length = input.length ∧
      ∀ i c, input[i]? = some c →
        tokens[i]? = some (⟨String.singleton c, structuralName c, i, i + 1, 1⟩ : Token) := by
  obtain ⟨h1, h2⟩ := prefixTokens_structural U input 0 hs
  refine ⟨prefixTokens U 0 input, tokenizer_structural_run U input hne (fun c hc => Or.inr (hs c hc)),
    h1, ?_⟩
  intro i c hi
  rw [h2 i c hi, Nat.zero_add]
  rfl

/-- Witness for C11: the input `{}` gives `BRACE_OPEN(0,1)`, `BRACE_CLOSE(1,2)`. -/
theorem C11_witness :
    ∃ tokens, tokenizer asciiTables ['{', '}'] = .done (tokens, none) ∧
      tokens.length = ['{', '}'].length ∧
      ∀ i c, ['{', '}'][i]? = some c →
        tokens[i]? = some (⟨String.singleton c, structuralName c, i, i + 1, 1⟩ : Token) :=
  C11_structural_tokens asciiTables ['{', '}'] (by simp) (by decide)

/-- C19: on a non-empty input of white space only, `tokenizer` succeeds with
no token. -/
theorem C19_whitespace_only (U : UnicodeTables) (input : List Char) (hne : input ≠ [])
    (hs : ∀ c ∈ input, unicode.IsSpace U c = true) :
    tokenizer U input = .done ([], none) := by
  rw [tokenizer_structural_run U input hne (fun c hc => Or.inl (hs c hc)),
    prefixTokens_space U input 0 hs]

/-- Witness for C19: a space, a tab and a newline. -/
theorem C19_witness : tokenizer asciiTables [' ', '\t', '\n'] = .done ([], none) :=
  C19_whitespace_only asciiTables [' ', '\t', '\n'] (by simp) (by decide)

/-- C20: on the two-character input `-.` the result is exactly one number
token with lexeme `-.` from 0 to 2, of width 2, and no error; the lexeme holds
no digit. -/
theorem C20_minus_dot_number (U : UnicodeTables) :
    tokenizer U ['-', '.'] = .done ([⟨"-.", NUMBER, 0, 2, 2⟩], none) ∧
      ∀ c ∈ "-.".data, unicode.IsDigit U c = false :=
  ⟨rfl, by
    intro c hc
    simp only [List.mem_cons, List.mem_singleton, List.mem_nil_iff, or_false] at hc
    rcases hc with h | h <;> subst h <;> rfl⟩

/-- At a character that is no white space, no structural character and no
quote the loop body is the `default` branch. -/
theorem iteration_default {U : UnicodeTables} {runes : List Char} {idx : Nat} {c : Char}
    (tokens : List Token) (hc : runes[idx]? = some c) (hs : unicode.IsSpace U c = false)
    (hn : c ∉ ['{', '}', '[', ']', ':', ',', '"']) :
    iteration U runes idx tokens = defaultBranch U runes idx c tokens := by
  simp only [List.mem_cons, List.mem_singleton, List.mem_nil_iff, or_false, not_or] at hn
  obtain ⟨h1, h2, h3, h4, h5, h6, h7⟩ := hn
  unfold iteration
  rw [hc]
  dsimp only
  rw [if_neg (by rw [hs]; decide), if_neg (show ¬ c = TKN_BRACE_OPEN from h1),
    if_neg (show ¬ c = TKN_BRACE_CLOSE from h2), if_neg (show ¬ c = TKN_BRACKET_OPEN from h3),
    if_neg (show ¬ c = TKN_BRACKET_CLOSE from h4), if_neg (show ¬ c = TKN_COLON from h5),
    if_neg (show ¬ c = TKN_COMMA from h6), if_neg (show ¬ c = TKN_QUOTE from h7)]

/-- The `default` branch on the rest `c :: rest` of the input when no keyword
stands there. -/
theorem defaultBranch_no_keyword (U : UnicodeTables) (pre rest : List Char) (c : Char)
    (tokens : List Token)
    (ht : ¬ ['t', 'r', 'u', 'e'] <+: c :: rest)
    (hf : ¬ ['f', 'a', 'l', 's', 'e'] <+: c :: rest)
    (hnl : ¬ ['n', 'u', 'l', 'l'] <+: c :: rest) :
    defaultBranch U (pre ++ c :: rest) pre.length c tokens =
      if unicode.IsDigit U c = true ∨ c = '-' then
        numberBranch U (pre ++ c :: rest) pre.length tokens
      else .done (.ret [] (some ⟨fmt.Sprint pre.length, "Unexpected character"⟩)) := by
  unfold defaultBranch
  rw [slice_to_end _ _ (by simp), List.drop_left]
  dsimp only
  rw [HasPrefix_true, HasPrefix_false, HasPrefix_null,
    if_neg (by rw [List.isPrefixOf_iff_prefix]; exact ht),
    if_neg (by rw [List.isPrefixOf_iff_prefix]; exact hf),
    if_neg (by rw [List.isPrefixOf_iff_prefix]; exact hnl)]

/-- C17: after a prefix `p` of white space and structural characters, a
character `c` that is no white space, no structural character, no quote, no
digit and not `-`, where no keyword starts, makes `tokenizer` fail with
"Unexpected character" at position `length p`, the offset of `c`. -/
theorem C17_unexpected_character (U : UnicodeTables) (p rest : List Char) (c : Char)
    (hp : StructuralPrefix U p) (hs : unicode.IsSpace U c = false)
    (hn : c ∉ ['{', '}', '[', ']', ':', ',', '"'])
    (hd : unicode.IsDigit U c = false) (hm : c ≠ '-')
    (ht : ¬ ['t', 'r', 'u', 'e'] <+: c :: rest)
    (hf : ¬ ['f', 'a', 'l', 's', 'e'] <+: c :: rest)
    (hnl : ¬ ['n', 'u', 'l', 'l'] <+: c :: rest) :
    tokenizer U (p ++ c :: rest) =
      .done ([], some ⟨fmt.Sprint p.length, "Unexpected character"⟩) := by
  have hlen : (p ++ c :: rest).length = (rest.length + 1) + p.length := by
    simp only [List.length_append, List.length_cons]
    omega
  have h1 := mainLoop_structural_run U (p ++ c :: rest) (c :: rest) p hp [] (rest.length + 1) [] rfl
  rw [List.length_nil, Nat.zero_add] at h1
  have hc : (p ++ c :: rest)[p.length]? = some c := getElem?_append_cons p _ _
  unfold tokenizer
  rw [if_neg (by rw [hlen]; omega), hlen, h1, mainLoop, if_pos (getElem?_lt hc),
    iteration_default _ hc hs hn, defaultBranch_no_keyword U p rest c _ ht hf hnl,
    if_neg (by rw [hd]; simp [hm])]

/-- Witness for C17: the input `[ x1` fails at offset 2, and `tru` (no
keyword) fails at offset 0. -/
theorem C17_witness :
    tokenizer asciiTables ['[', ' ', 'x', '1'] =
        .done ([], some ⟨"2", "Unexpected character"⟩) ∧
      tokenizer asciiTables ['t', 'r', 'u'] =
        .done ([], some ⟨"0", "Unexpected character"⟩) :=
  ⟨C17_unexpected_character asciiTables ['[', ' '] ['1'] 'x'
      (by unfold StructuralPrefix; decide) rfl (by decide) rfl (by decide)
      (by decide) (by decide) (by decide),
    C17_unexpected_character asciiTables [] ['r', 'u'] 't'
      (by unfold StructuralPrefix; decide) rfl (by decide) rfl (by decide)
      (by decide) (by decide) (by decide)⟩

/-! ### Numeric literals (C14, C16) -/

theorem EncodeRune_head_eq (c : Char) :
    ∃ b rest, utf8.EncodeRune c = b :: rest ∧ (b = 0x2D ↔ c = '-') ∧ (b = 0x30 ↔ c = '0') := by
  by_cases h : c.toNat ≤ 0x7F
  · refine ⟨c.toNat, [], EncodeRune_ascii h, ⟨fun hb => toNat_inj ?_, fun hc => ?_⟩,
      ⟨fun hb => toNat_inj ?_, fun hc => ?_⟩⟩
    · rw [hb]; rfl
    · rw [hc]; rfl
    · rw [hb]; rfl
    · rw [hc]; rfl
  · obtain ⟨b, rest, hb, hge⟩ := EncodeRune_nonascii (by omega : 0x7F < c.toNat)
    refine ⟨b, rest, hb, ⟨fun e => by omega, fun hc => ?_⟩, ⟨fun e => by omega, fun hc => ?_⟩⟩
    · rw [hc] at h; exact absurd (by decide) h
    · rw [hc] at h; exact absurd (by decide) h

/-- What `validateNumber` answers on a literal that is not a lone `-`: it
rejects exactly the literals that begin with `0` or with `-0`. -/
theorem validateNumber_cons (c : Char) (rest : List Char) (h : c = '-' → rest ≠ []) :
    validateNumber ⟨c :: rest⟩ =
      some (decide (¬ (c = '0' ∨ (c = '-' ∧ rest.head? = some '0')))) := by
  obtain ⟨b, tail, hb, hminus, hzero⟩ := EncodeRune_head_eq c
  have hbytes : bytes ⟨c :: rest⟩ = b :: (tail ++ rest.flatMap utf8.EncodeRune) := by
    rw [bytes_mk, List.flatMap_cons, hb]
    rfl
  unfold validateNumber
  rw [hbytes]
  simp only [List.getElem?_cons_zero]
  by_cases hm : c = '-'
  · subst hm
    have htail : tail = [] := by
      have : utf8.EncodeRune '-' = [0x2D] := rfl
      rw [this] at hb
      injection hb with _ ht
      exact ht.symm
    subst htail
    rw [if_pos (hminus.mpr rfl), if_neg (by simp [utf8.RuneCountInString])]
    cases rest with
    | nil => exact absurd rfl (h rfl)
    | cons d rest =>
      obtain ⟨b1, tail1, hb1, -, hzero1⟩ := EncodeRune_head_eq d
      rw [List.flatMap_cons, hb1]
      simp only [List.nil_append, List.cons_append, List.getElem?_cons_succ,
        List.getElem?_cons_zero, List.head?_cons]
      by_cases hd : d = '0'
      · subst hd
        rw [if_pos (hzero1.mpr rfl)]
        simp
      · rw [if_neg (fun e => hd (hzero1.mp e)), if_neg (fun e => by
          have := hzero.mp e
          exact absurd this (by decide))]
        have : ¬ (some d = some '0') := fun e => hd (Option.some.inj e)
        simp [this]
  · rw [if_neg (fun e => hm (hminus.mp e))]
    by_cases hz : c = '0'
    · subst hz
      rw [if_pos (hzero.mpr rfl)]
      simp
    · rw [if_neg (fun e => hz (hzero.mp e))]
      simp [hm, hz]

theorem AsciiDigit.isDigit (U : UnicodeTables) {c : Char} (h : AsciiDigit c) :
    unicode.IsDigit U c = true := by
  obtain ⟨h1, h2⟩ := h
  unfold unicode.IsDigit
  rw [if_pos (by omega)]
  exact decide_eq_true ⟨h1, h2⟩

/-- A character that starts a number, an ASCII digit or `-`, is no white
space, no structural character, no quote and starts no keyword. -/
theorem number_start_facts (U : UnicodeTables) {c : Char} (hc : AsciiDigit c ∨ c = '-')
    (rest : List Char) :
    unicode.IsSpace U c = false ∧ c ∉ ['{', '}', '[', ']', ':', ',', '"'] ∧
      ¬ ['t', 'r', 'u', 'e'] <+: c :: rest ∧ ¬ ['f', 'a', 'l', 's', 'e'] <+: c :: rest ∧
      ¬ ['n', 'u', 'l', 'l'] <+: c :: rest ∧ (unicode.IsDigit U c = true ∨ c = '-') := by
  have hr : 0x2D ≤ c.toNat ∧ c.toNat ≤ 0x39 := by
    rcases hc with ⟨h1, h2⟩ | h
    · exact ⟨by omega, h2⟩
    · subst h
      exact ⟨by decide, by decide⟩
  have hne : ∀ d : Char, (d.toNat < 0x2D ∨ 0x39 < d.toNat) → c ≠ d := by
    intro d hd e
    rw [e] at hr
    omega
  have hpre : ∀ (d : Char) (l : List Char), (d.toNat < 0x2D ∨ 0x39 < d.toNat) →
      ¬ (d :: l) <+: c :: rest := by
    intro d l hd hp
    rcases hp with ⟨t, ht⟩
    injection ht with h1 _
    exact hne d hd h1.symm
  refine ⟨?_, ?_, hpre _ _ (by decide), hpre _ _ (by decide), hpre _ _ (by decide), ?_⟩
  · unfold unicode.IsSpace
    rw [if_pos (by omega)]
    simp only [Bool.or_eq_false_iff, decide_eq_false_iff_not]
    omega
  · simp only [List.mem_cons, List.mem_singleton, List.mem_nil_iff, or_false, not_or]
    exact ⟨hne _ (by decide), hne _ (by decide), hne _ (by decide), hne _ (by decide),
      hne _ (by decide), hne _ (by decide), hne _ (by decide)⟩
  · rcases hc with h | h
    · exact Or.inl (h.isDigit U)
    · exact Or.inr h

/-- At an ASCII digit or `-` the loop body is the number branch. -/
theorem iteration_number (U : UnicodeTables) (pre rest : List Char) {c : Char}
    (tokens : List Token) (hc : AsciiDigit c ∨ c = '-') :
    iteration U (pre ++ c :: rest) pre.length tokens =
      numberBranch U (pre ++ c :: rest) pre.length tokens := by
  obtain ⟨hs, hn, ht, hf, hnl, hd⟩ := number_start_facts U hc rest
  rw [iteration_default _ (getElem?_append_cons pre c rest) hs hn,
    defaultBranch_no_keyword U pre rest c _ ht hf hnl, if_pos hd]

/-- The number branch after the number loop has ended at label `numberDone`:
first the leading-form validation, then the exponent check, then the token. -/
theorem numberBranch_of_scan (U : UnicodeTables) (runes : List Char) (start r : Nat)
    (e : Bool) (d : Nat) (tokens : List Token) (c : Char) (rest : List Char)
    (hsl : slice runes start r = some (c :: rest)) (hm : c = '-' → rest ≠ [])
    (hscan : scanNumber U runes (runes.length - (start + 1)) (start + 1) false false 0 =
      .done (.numberDone r e d)) :
    numberBranch U runes start tokens =
      if c = '0' ∨ (c = '-' ∧ rest.head? = some '0') then
        .done (.ret [] (some ⟨fmt.Sprint start, "Invalid number"⟩))
      else if e = true ∧ d = 0 then
        .done (.ret [] (some ⟨fmt.Sprint r, "Exponent requires digits"⟩))
      else .done (.next r (tokens ++ [⟨String.mk (c :: rest), NUMBER, start, r, r - start⟩])) := by
  unfold numberBranch
  rw [hscan]
  dsimp only
  rw [hsl]
  dsimp only
  rw [validateNumber_cons c rest hm]
  by_cases hz : c = '0' ∨ (c = '-' ∧ rest.head? = some '0')
  · rw [if_pos hz]
    simp [hz]
  · rw [if_neg hz]
    simp [hz]

/-- On an input that starts with an ASCII digit or `-`, has a further
character after a leading `-`, and on which the number loop ends at label
`numberDone` at the end of the input, `tokenizer` fails with "Invalid number" at
position 0 exactly when the input starts with `0` or with `-0`. -/
theorem single_literal_leading_form (U : UnicodeTables) (c : Char) (rest : List Char)
    (isExp : Bool) (expDigits : Nat) (hc : AsciiDigit c ∨ c = '-')
    (hm : c = '-' → rest ≠ [])
    (hscan : scanNumber U (c :: rest) rest.length 1 false false 0 =
      .done (.numberDone (rest.length + 1) isExp expDigits)) :
    tokenizer U (c :: rest) = .done ([], some ⟨"0", "Invalid number"⟩) ↔
      (c = '0' ∨ (c = '-' ∧ rest.head? = some '0')) := by
  have hsl : slice (c :: rest) 0 (rest.length + 1) = some (c :: rest) :=
    slice_to_end (c :: rest) 0 (Nat.zero_le _)
  have hnb := numberBranch_of_scan U (c :: rest) 0 (rest.length + 1) isExp expDigits []
    c rest hsl hm hscan
  have hit := iteration_number U [] rest [] hc
  simp only [List.nil_append, List.length_nil] at hit
  unfold tokenizer
  rw [if_neg (by simp), List.length_cons, mainLoop, if_pos (by simp), hit, hnb]
  by_cases hz : c = '0' ∨ (c = '-' ∧ rest.head? = some '0')
  · rw [if_pos hz]
    exact ⟨fun _ => hz, fun _ => rfl⟩
  · rw [if_neg hz]
    refine ⟨fun h => ?_, fun h => absurd h hz⟩
    exfalso
    by_cases he : isExp = true ∧ expDigits = 0
    · rw [if_pos he] at h
      dsimp only at h
      injection h with h
      injection h with _ h
      injection h with h
      injection h with _ h
      exact absurd h (by decide)
    · rw [if_neg he] at h
      dsimp only at h
      rw [mainLoop_exit U _ _ _ _ (by simp)] at h
      injection h with h
      injection h with _ h
      cases h

/-- C14 fails as stated: on the input `0e` the number loop ends with an
exponent marker and no exponent digit, and `tokenizer` fails with "Invalid
number" at position 0, not with "Exponent requires digits" at position 2. -/
theorem C14_counterexample :
    (∀ U : UnicodeTables,
        scanNumber U ['0', 'e'] 1 1 false false 0 = .done (.numberDone 2 true 0)) ∧
      (∀ U : UnicodeTables,
        tokenizer U ['0', 'e'] = .done ([], some ⟨"0", "Invalid number"⟩)) ∧
      ∀ U : UnicodeTables,
        tokenizer U ['0', 'e'] ≠ .done ([], some ⟨"2", "Exponent requires digits"⟩) :=
  ⟨fun _ => rfl, fun _ => rfl, fun U h => by
    have h1 : tokenizer U ['0', 'e'] = .done ([], some ⟨"0", "Invalid number"⟩) := rfl
    rw [h1] at h
    revert h
    decide⟩

/-- C14 as amended: the leading-form validation runs before the exponent
check.  After a prefix `p` of white space and structural characters, a numeric
literal that begins with `0` or `-0` and ends with an exponent marker and no
exponent digit makes `tokenizer` fail with "Invalid number" at position
`length p`, the start of the literal. -/
theorem C14_validation_first (U : UnicodeTables) (p s : List Char) (r : Nat)
    (hp : StructuralPrefix U p) (hz : ['0'] <+: s ∨ ['-', '0'] <+: s)
    (hscan : scanNumber U (p ++ s) ((p ++ s).length - (p.length + 1)) (p.length + 1)
      false false 0 = .done (.numberDone r true 0)) :
    tokenizer U (p ++ s) = .done ([], some ⟨fmt.Sprint p.length, "Invalid number"⟩) := by
  obtain ⟨c, s1, hs, hc⟩ : ∃ c s1, s = c :: s1 ∧ (AsciiDigit c ∨ c = '-') := by
    rcases hz with ⟨t, ht⟩ | ⟨t, ht⟩
    · exact ⟨'0', t, ht.symm, Or.inl ⟨by decide, by decide⟩⟩
    · exact ⟨'-', '0' :: t, ht.symm, Or.inr rfl⟩
  subst hs
  have hlen : (p ++ c :: s1).length = (s1.length + 1) + p.length := by
    simp only [List.length_append, List.length_cons]
    omega
  have hd := scanNumber_done U _ _ _ _ _ _ _ _ _ (by rw [hlen]; omega) hscan
  obtain ⟨k, hk⟩ : ∃ k, r = p.length + (k + 1) := ⟨r - p.length - 1, by omega⟩
  have hsl : slice (p ++ c :: s1) p.length r = some (c :: s1.take k) := by
    rw [slice_of_le (by omega) hd.2, List.drop_left]
    have : r - p.length = k + 1 := by omega
    rw [this]
    rfl
  have hcond : (c = '-' → s1.take k ≠ []) ∧
      (c = '0' ∨ (c = '-' ∧ (s1.take k).head? = some '0')) := by
    rcases hz with ⟨t, ht⟩ | ⟨t, ht⟩
    · injection ht with h1 h2
      subst h1
      exact ⟨fun e => absurd e (by decide), Or.inl rfl⟩
    · injection ht with h1 h2
      subst h1
      subst h2
      have hk1 : k ≠ 0 := by
        intro hk0
        subst hk0
        have hr1 : r = p.length + 1 := by omega
        rw [hr1] at hscan
        have h0 : (p ++ '-' :: '0' :: t)[p.length + 1]? = some '0' := by
          have := getElem?_append_cons (p ++ ['-']) '0' t
          simpa using this
        have h00 := (scanNumber_stops U _ _ _ _ _ _ _ _ hscan '0' h0).1
        have h01 : unicode.IsDigit U '0' = true := rfl
        rw [h01] at h00
        exact absurd h00 (by decide)
      obtain ⟨j, rfl⟩ : ∃ j, k = j + 1 := ⟨k - 1, by omega⟩
      exact ⟨fun _ => by simp, Or.inr ⟨rfl, by simp⟩⟩
  have hnb := numberBranch_of_scan U (p ++ c :: s1) p.length r true 0
    ([] ++ prefixTokens U 0 p) c (s1.take k) hsl hcond.1 hscan
  rw [if_pos hcond.2] at hnb
  have h1 := mainLoop_structural_run U (p ++ c :: s1) (c :: s1) p hp [] (s1.length + 1) [] rfl
  rw [List.length_nil, Nat.zero_add] at h1
  unfold tokenizer
  rw [if_neg (by rw [hlen]; omega), hlen, h1, mainLoop,
    if_pos (getElem?_lt (getElem?_append_cons p c s1)), iteration_number U p s1 _ hc, hnb]

/-- Witness for the amended C14: the inputs `0e` and `[-0e+`. -/
theorem C14_witness :
    tokenizer asciiTables ['0', 'e'] = .done ([], some ⟨"0", "Invalid number"⟩) ∧
      tokenizer asciiTables ['[', '-', '0', 'e', '+'] =
        .done ([], some ⟨"1", "Invalid number"⟩) :=
  ⟨C14_validation_first asciiTables [] ['0', 'e'] 2 (by unfold StructuralPrefix; decide)
      (Or.inl ⟨['e'], rfl⟩) rfl,
    C14_validation_first asciiTables ['['] ['-', '0', 'e', '+'] 5
      (by unfold StructuralPrefix; decide) (Or.inr ⟨['e', '+'], rfl⟩) rfl⟩

theorem scanNumber_exit (U : UnicodeTables) (runes : List Char) (fuel idx : Nat)
    (isFloat isExp : Bool) (expDigits : Nat) (h : runes.length ≤ idx) :
    scanNumber U runes fuel idx isFloat isExp expDigits =
      .done (.numberDone idx isExp expDigits) := by
  cases fuel with
  | zero => rw [scanNumber, if_neg (by omega)]
  | succ f => rw [scanNumber, if_neg (by omega)]

/-- The number loop runs over a run of ASCII digits, one iteration per digit;
the digits count as exponent digits when the exponent marker was seen. -/
theorem scanNumber_digits (U : UnicodeTables) (runes rest : List Char) :
    ∀ (ds : List Char), (∀ c ∈ ds, AsciiDigit c) → ∀ (pre : List Char) (fuel : Nat)
      (isFloat isExp : Bool) (expDigits : Nat), runes = pre ++ (ds ++ rest) →
      scanNumber U runes (fuel + ds.length) pre.length isFloat isExp expDigits =
        scanNumber U runes fuel (pre.length + ds.length) isFloat isExp
          (if isExp = true then expDigits + ds.length else expDigits) := by
  intro ds
  induction ds with
  | nil =>
    intro _ pre fuel isFloat isExp expDigits _
    simp
  | cons c ds ih =>
    intro hds pre fuel isFloat isExp expDigits hr
    have hc : runes[pre.length]? = some c := by
      rw [hr]
      exact getElem?_append_cons pre c _
    have hdig := (hds c (List.mem_cons_self _ _)).isDigit U
    have h2 := ih (fun d hd => hds d (List.mem_cons_of_mem _ hd)) (pre ++ [c]) fuel isFloat
      isExp (if isExp = true then expDigits + 1 else expDigits) (by rw [hr]; simp)
    have hl : (pre ++ [c]).length = pre.length + 1 := by simp
    rw [hl] at h2
    have e1 : fuel + (c :: ds).length = (fuel + ds.length) + 1 := by simp; omega
    have e2 : pre.length + (c :: ds).length = pre.length + 1 + ds.length := by simp; omega
    rw [e1, e2, scanNumber, if_pos (getElem?_lt hc), hc]
    dsimp only
    rw [if_pos hdig, h2]
    congr 1
    cases isExp
    · simp
    · simp only [if_true, List.length_cons]
      omega

/-- C16: a non-empty run of ASCII digits not starting with `0`, then `e` or
`E`, then nothing or one sign, makes `tokenizer` fail with "Exponent requires
digits" at position `length input`, the cursor after the literal. -/
theorem C16_exponent_requires_digits (U : UnicodeTables) (c m : Char) (ds s : List Char)
    (hc : AsciiDigit c) (hc0 : c ≠ '0') (hds : ∀ x ∈ ds, AsciiDigit x)
    (hm : m = 'e' ∨ m = 'E') (hs : s = [] ∨ s = ['+'] ∨ s = ['-']) :
    tokenizer U (c :: (ds ++ m :: s)) =
      .done ([], some ⟨fmt.Sprint (c :: (ds ++ m :: s)).length,
        "Exponent requires digits"⟩) := by
  have hlen : (c :: (ds ++ m :: s)).length = ds.length + s.length + 1 + 1 := by
    simp only [List.length_append, List.length_cons]
    omega
  have hcm : c ≠ '-' := by
    intro e
    rw [e] at hc
    exact absurd hc.1 (by decide)
  have hmi : (c :: (ds ++ m :: s))[1 + ds.length]? = some m := by
    have := getElem?_append_cons (c :: ds) m s
    simpa [Nat.add_comm] using this
  have hmd : unicode.IsDigit U m = false := by
    rcases hm with h | h <;> subst h <;> rfl
  have hmdot : m ≠ '.' := by
    rcases hm with h | h <;> subst h <;> decide
  have hscan : scanNumber U (c :: (ds ++ m :: s)) ((c :: (ds ++ m :: s)).length - (0 + 1))
      (0 + 1) false false 0 =
        .done (.numberDone (c :: (ds ++ m :: s)).length true 0) := by
    have e1 : (c :: (ds ++ m :: s)).length - (0 + 1) = (s.length + 1) + ds.length := by
      rw [hlen]
      omega
    have h1 := scanNumber_digits U (c :: (ds ++ m :: s)) (m :: s) ds hds [c] (s.length + 1)
      false false 0 rfl
    simp only [List.length_singleton, Bool.false_eq_true, if_false] at h1
    rw [e1, Nat.zero_add, h1, scanNumber, if_pos (getElem?_lt hmi), hmi]
    dsimp only
    rw [if_neg (by rw [hmd]; decide), if_neg hmdot, if_pos hm, if_neg (by decide)]
    rcases hs with h | h | h
    · subst h
      rw [if_neg (by simp only [List.length_cons, List.length_append, List.length_nil]; omega),
        scanNumber_exit U _ _ _ _ _ _ (by simp only [List.length_cons, List.length_append, List.length_nil]; omega)]
      congr 2
      simp only [List.length_cons, List.length_append, List.length_nil]
      omega
    · subst h
      have hsg : (c :: (ds ++ [m, '+']))[1 + ds.length + 1]? = some '+' := by
        have := getElem?_append_cons (c :: (ds ++ [m])) '+' []
        simpa [Nat.add_comm, Nat.add_left_comm] using this
      rw [if_pos (getElem?_lt hsg), hsg]
      dsimp only
      rw [if_pos (Or.inl rfl), scanNumber_exit U _ _ _ _ _ _
        (by simp only [List.length_cons, List.length_append, List.length_nil]; omega)]
      congr 2
      simp only [List.length_cons, List.length_append, List.length_nil]
      omega
    · subst h
      have hsg : (c :: (ds ++ [m, '-']))[1 + ds.length + 1]? = some '-' := by
        have := getElem?_append_cons (c :: (ds ++ [m])) '-' []
        simpa [Nat.add_comm, Nat.add_left_comm] using this
      rw [if_pos (getElem?_lt hsg), hsg]
      dsimp only
      rw [if_pos (Or.inr rfl), scanNumber_exit U _ _ _ _ _ _
        (by simp only [List.length_cons, List.length_append, List.length_nil]; omega)]
      congr 2
      simp only [List.length_cons, List.length_append, List.length_nil]
      omega
  have hsl : slice (c :: (ds ++ m :: s)) 0 (c :: (ds ++ m :: s)).length =
      some (c :: (ds ++ m :: s)) := slice_to_end _ 0 (Nat.zero_le _)
  have hnb := numberBranch_of_scan U (c :: (ds ++ m :: s)) 0 _ true 0 [] c (ds ++ m :: s)
    hsl (fun e => absurd e hcm) hscan
  rw [if_neg (by
    intro h
    rcases h with h | ⟨h, -⟩
    · exact hc0 h
    · exact hcm h), if_pos ⟨rfl, rfl⟩] at hnb
  have hit := iteration_number U [] (ds ++ m :: s) [] (Or.inl hc)
  simp only [List.nil_append, List.length_nil] at hit
  unfold tokenizer
  rw [if_neg (by rw [hlen]; omega)]
  conv_lhs => rw [hlen]
  rw [mainLoop, if_pos (by rw [hlen]; omega), hit, hnb]

/-- Witness for C16: the input `1e` fails with "Exponent requires digits" at
position 2, and `12E-` fails with it at position 4. -/
theorem C16_witness :
    tokenizer asciiTables ['1', 'e'] = .done ([], some ⟨"2", "Exponent requires digits"⟩) ∧
      tokenizer asciiTables ['1', '2', 'E', '-'] =
        .done ([], some ⟨"4", "Exponent requires digits"⟩) :=
  ⟨C16_exponent_requires_digits asciiTables '1' 'e' [] [] ⟨by decide, by decide⟩ (by decide)
      (by simp) (Or.inl rfl) (Or.inl rfl),
    C16_exponent_requires_digits asciiTables '1' 'E' ['2'] ['-'] ⟨by decide, by decide⟩
      (by decide) (by
        intro x hx
        rw [List.mem_singleton] at hx
        subst hx
        exact ⟨by decide, by decide⟩) (Or.inr rfl) (Or.inr (Or.inr rfl))⟩

/-! ### The scan does not look back: shifting the input (C12, C18) -/

theorem getElem?_shift (pre s : List Char) (i : Nat) :
    (pre ++ s)[i + pre.length]? = s[i]? := by
  rw [List.getElem?_append_right (Nat.le_add_left _ _), Nat.add_sub_cancel]

theorem lt_shift (pre s : List Char) (i : Nat) :
    i + pre.length < (pre ++ s).length ↔ i < s.length := by
  rw [List.length_append]
  omega

theorem slice_shift (pre s : List Char) (lo hi : Nat) :
    slice (pre ++ s) (lo + pre.length) (hi + pre.length) = slice s lo hi := by
  unfold slice
  have e1 : (lo + pre.length ≤ hi + pre.length ∧ hi + pre.length ≤ (pre ++ s).length) ↔
      (lo ≤ hi ∧ hi ≤ s.length) := by
    rw [List.length_append]
    omega
  by_cases h : lo ≤ hi ∧ hi ≤ s.length
  · have ed : List.drop (lo + pre.length) (pre ++ s) = List.drop lo s := by
      rw [Nat.add_comm, ← List.drop_drop, List.drop_left]
    have ek : hi + pre.length - (lo + pre.length) = hi - lo := by omega
    rw [if_pos h, if_pos (e1.mpr h), ed, ek]
  · rw [if_neg h, if_neg (fun x => h (e1.mp x))]

theorem ShiftedCursor.of_eq {n : Nat} {r r1 : Nat} (h : r1 = r + n) :
    ShiftedCursor n (.done r) (.done r1) := by
  subst h
  exact ShiftedCursor.done r

theorem scanString_shift (pre s : List Char) :
    ∀ fuel i, ShiftedCursor pre.length (scanString s fuel i)
      (scanString (pre ++ s) fuel (i + pre.length)) := by
  intro fuel
  induction fuel with
  | zero =>
    intro i
    unfold scanString
    by_cases h : i < s.length
    · rw [if_pos h, if_pos ((lt_shift pre s i).mpr h)]
      exact ShiftedCursor.outOfFuel
    · rw [if_neg h, if_neg (fun x => h ((lt_shift pre s i).mp x))]
      exact ShiftedCursor.done i
  | succ fuel ih =>
    intro i
    unfold scanString
    by_cases h : i < s.length
    · rw [if_pos h, if_pos ((lt_shift pre s i).mpr h), getElem?_shift]
      cases hc : s[i]? with
      | none => exact ShiftedCursor.panic
      | some c =>
        dsimp only
        by_cases h1 : c = '\\'
        · rw [if_pos h1, if_pos h1]
          have := ih (i + 2)
          rw [Nat.add_right_comm] at this
          exact this
        · rw [if_neg h1, if_neg h1]
          by_cases h2 : c = '"'
          · rw [if_pos h2, if_pos h2]
            exact ShiftedCursor.done i
          · rw [if_neg h2, if_neg h2]
            have := ih (i + 1)
            rw [Nat.add_right_comm] at this
            exact this
    · rw [if_neg h, if_neg (fun x => h ((lt_shift pre s i).mp x))]
      exact ShiftedCursor.done i

theorem scanNumber_shift (U : UnicodeTables) (pre s : List Char) :
    ∀ fuel i isFloat isExp expDigits,
      ShiftedScan pre.length (scanNumber U s fuel i isFloat isExp expDigits)
        (scanNumber U (pre ++ s) fuel (i + pre.length) isFloat isExp expDigits) := by
  intro fuel
  induction fuel with
  | zero =>
    intro i isFloat isExp expDigits
    unfold scanNumber
    by_cases h : i < s.length
    · rw [if_pos h, if_pos ((lt_shift pre s i).mpr h)]
      exact ShiftedScan.outOfFuel
    · rw [if_neg h, if_neg (fun x => h ((lt_shift pre s i).mp x))]
      exact ShiftedScan.numberDone i _ _
  | succ fuel ih =>
    intro i isFloat isExp expDigits
    have ih1 : ∀ fl ex d, ShiftedScan pre.length (scanNumber U s fuel (i + 1) fl ex d)
        (scanNumber U (pre ++ s) fuel (i + pre.length + 1) fl ex d) := by
      intro fl ex d
      have := ih (i + 1) fl ex d
      rw [Nat.add_right_comm] at this
      exact this
    have ih2 : ∀ fl ex d, ShiftedScan pre.length (scanNumber U s fuel (i + 2) fl ex d)
        (scanNumber U (pre ++ s) fuel (i + pre.length + 2) fl ex d) := by
      intro fl ex d
      have := ih (i + 2) fl ex d
      rw [Nat.add_right_comm] at this
      exact this
    unfold scanNumber
    by_cases h : i < s.length
    · rw [if_pos h, if_pos ((lt_shift pre s i).mpr h), getElem?_shift]
      cases hc : s[i]? with
      | none => exact ShiftedScan.panic
      | some c =>
        dsimp only
        by_cases h1 : unicode.IsDigit U c = true
        · rw [if_pos h1, if_pos h1]
          exact ih1 _ _ _
        · rw [if_neg h1, if_neg h1]
          by_cases h2 : c = '.'
          · rw [if_pos h2, if_pos h2]
            by_cases h3 : (isFloat || isExp) = true
            · rw [if_pos h3, if_pos h3]
              exact ShiftedScan.fail i _
            · rw [if_neg h3, if_neg h3]
              exact ih1 _ _ _
          · rw [if_neg h2, if_neg h2]
            by_cases h3 : c = 'e' ∨ c = 'E'
            · rw [if_pos h3, if_pos h3]
              by_cases h4 : isExp = true
              · rw [if_pos h4, if_pos h4]
                exact ShiftedScan.fail i _
              · rw [if_neg h4, if_neg h4]
                have e1 : i + pre.length + 1 = (i + 1) + pre.length := by omega
                by_cases h5 : i + 1 < s.length
                · rw [if_pos h5, if_pos (by rw [e1]; exact (lt_shift pre s (i + 1)).mpr h5),
                    e1, getElem?_shift]
                  cases hs : s[i + 1]? with
                  | none => exact ShiftedScan.panic
                  | some sg =>
                    dsimp only
                    by_cases h6 : sg = '+' ∨ sg = '-'
                    · rw [if_pos h6, if_pos h6]
                      exact ih2 _ _ _
                    · rw [if_neg h6, if_neg h6]
                      rw [← e1]
                      exact ih1 _ _ _
                · rw [if_neg h5,
                    if_neg (by rw [e1]; exact fun x => h5 ((lt_shift pre s (i + 1)).mp x))]
                  exact ih1 _ _ _
            · rw [if_neg h3, if_neg h3]
              exact ShiftedScan.numberDone i _ _
    · rw [if_neg h, if_neg (fun x => h ((lt_shift pre s i).mp x))]
      exact ShiftedScan.numberDone i _ _

theorem ShiftedStep.next_of_eq {n : Nat} {T : List Token} {idx idx1 : Nat}
    {tokens tokens1 : List Token} (h1 : idx1 = idx + n)
    (h2 : tokens1 = T ++ tokens.map (shiftToken n)) :
    ShiftedStep n T (.done (.next idx tokens)) (.done (.next idx1 tokens1)) := by
  subst h1 h2
  exact ShiftedStep.next idx tokens

theorem ShiftedStep.ret_of_eq {n : Nat} {T : List Token} {p p1 : Nat} {msg : String}
    (h1 : p1 = p + n) :
    ShiftedStep n T (.done (.ret [] (some ⟨fmt.Sprint p, msg⟩)))
      (.done (.ret [] (some ⟨fmt.Sprint p1, msg⟩))) := by
  subst h1
  exact ShiftedStep.ret p msg

theorem append_shiftToken (n : Nat) (T tokens : List Token) (t t1 : Token)
    (h : t1 = shiftToken n t) :
    T ++ tokens.map (shiftToken n) ++ [t1] = T ++ (tokens ++ [t]).map (shiftToken n) := by
  subst h
  simp

theorem stringBranch_shift (pre s : List Char) (T : List Token) (i : Nat)
    (tokens : List Token) :
    ShiftedStep pre.length T (stringBranch s i tokens)
      (stringBranch (pre ++ s) (i + pre.length) (T ++ tokens.map (shiftToken pre.length))) := by
  unfold stringBranch
  have ef : (pre ++ s).length - (i + pre.length + 1) = s.length - (i + 1) := by
    rw [List.length_append]
    omega
  have ei : i + pre.length + 1 = (i + 1) + pre.length := by omega
  have h := scanString_shift pre s (s.length - (i + 1)) (i + 1)
  rw [ef, ei]
  generalize scanString s (s.length - (i + 1)) (i + 1) = a at h
  generalize scanString (pre ++ s) (s.length - (i + 1)) (i + 1 + pre.length) = b at h
  cases h with
  | panic => exact ShiftedStep.panic
  | outOfFuel => exact ShiftedStep.outOfFuel
  | done r =>
    dsimp only
    have eg : r + pre.length ≥ (pre ++ s).length ↔ r ≥ s.length := by
      rw [List.length_append]
      omega
    by_cases hg : r ≥ s.length
    · rw [if_pos hg, if_pos (eg.mpr hg)]
      exact ShiftedStep.ret i _
    · rw [if_neg hg, if_neg (fun x => hg (eg.mp x)), slice_shift]
      cases slice s (i + 1) r with
      | none => exact ShiftedStep.panic
      | some sl =>
        dsimp only
        refine ShiftedStep.next_of_eq (by omega) ?_
        refine append_shiftToken _ _ _ _ _ ?_
        simp only [shiftToken, Token.mk.injEq, true_and]
        omega

theorem numberBranch_shift (U : UnicodeTables) (pre s : List Char) (T : List Token)
    (i : Nat) (tokens : List Token) :
    ShiftedStep pre.length T (numberBranch U s i tokens)
      (numberBranch U (pre ++ s) (i + pre.length)
        (T ++ tokens.map (shiftToken pre.length))) := by
  unfold numberBranch
  have ef : (pre ++ s).length - (i + pre.length + 1) = s.length - (i + 1) := by
    rw [List.length_append]
    omega
  have ei : i + pre.length + 1 = (i + 1) + pre.length := by omega
  have h := scanNumber_shift U pre s (s.length - (i + 1)) (i + 1) false false 0
  rw [ef, ei]
  generalize scanNumber U s (s.length - (i + 1)) (i + 1) false false 0 = a at h
  generalize scanNumber U (pre ++ s) (s.length - (i + 1)) (i + 1 + pre.length)
    false false 0 = b at h
  cases h with
  | panic => exact ShiftedStep.panic
  | outOfFuel => exact ShiftedStep.outOfFuel
  | fail p msg => exact ShiftedStep.ret p msg
  | numberDone r e d =>
    dsimp only
    rw [slice_shift]
    cases slice s i r with
    | none => exact ShiftedStep.panic
    | some sl =>
      dsimp only
      cases validateNumber ⟨sl⟩ with
      | none => exact ShiftedStep.panic
      | some v =>
        cases v with
        | false => exact ShiftedStep.ret i _
        | true =>
          dsimp only
          by_cases he : e = true ∧ d = 0
          · rw [if_pos he, if_pos he]
            exact ShiftedStep.ret r _
          · rw [if_neg he, if_neg he]
            refine ShiftedStep.next_of_eq rfl ?_
            refine append_shiftToken _ _ _ _ _ ?_
            simp only [shiftToken, Token.mk.injEq, true_and]
            omega

theorem defaultBranch_shift (U : UnicodeTables) (pre s : List Char) (T : List Token)
    (i : Nat) (char : Char) (tokens : List Token) :
    ShiftedStep pre.length T (defaultBranch U s i char tokens)
      (defaultBranch U (pre ++ s) (i + pre.length) char
        (T ++ tokens.map (shiftToken pre.length))) := by
  unfold defaultBranch
  have el : (pre ++ s).length = s.length + pre.length := by
    rw [List.length_append]
    omega
  rw [el, slice_shift]
  cases slice s i s.length with
  | none => exact ShiftedStep.panic
  | some sl =>
    dsimp only
    by_cases h1 : strings.HasPrefix ⟨sl⟩ "true" = true
    · rw [if_pos h1, if_pos h1]
      refine ShiftedStep.next_of_eq (by omega) ?_
      refine append_shiftToken _ _ _ _ _ ?_
      simp only [shiftToken, Token.mk.injEq, true_and, and_true]
      omega
    · rw [if_neg h1, if_neg h1]
      by_cases h2 : strings.HasPrefix ⟨sl⟩ "false" = true
      · rw [if_pos h2, if_pos h2]
        refine ShiftedStep.next_of_eq (by omega) ?_
        refine append_shiftToken _ _ _ _ _ ?_
        simp only [shiftToken, Token.mk.injEq, true_and, and_true]
        omega
      · rw [if_neg h2, if_neg h2]
        by_cases h3 : strings.HasPrefix ⟨sl⟩ "null" = true
        · rw [if_pos h3, if_pos h3]
          refine ShiftedStep.next_of_eq (by omega) ?_
          refine append_shiftToken _ _ _ _ _ ?_
          simp only [shiftToken, Token.mk.injEq, true_and, and_true]
          omega
        · rw [if_neg h3, if_neg h3]
          by_cases h4 : unicode.IsDigit U char = true ∨ char = '-'
          · rw [if_pos h4, if_pos h4]
            exact numberBranch_shift U pre s T i tokens
          · rw [if_neg h4, if_neg h4]
            exact ShiftedStep.ret i _

/-- One pass through the loop body behind `n` more characters does the same
as without them, `n` positions further. -/
theorem iteration_shift (U : UnicodeTables) (pre s : List Char) (T : List Token)
    (i : Nat) (tokens : List Token) :
    ShiftedStep pre.length T (iteration U s i tokens)
      (iteration U (pre ++ s) (i + pre.length)
        (T ++ tokens.map (shiftToken pre.length))) := by
  unfold iteration
  rw [getElem?_shift]
  cases s[i]? with
  | none => exact ShiftedStep.panic
  | some c =>
    dsimp only
    have hst : ∀ (v name : String),
        ShiftedStep pre.length T (.done (.next (i + 1) (tokens ++ [⟨v, name, i, i + 1, 1⟩])))
          (.done (.next (i + pre.length + 1)
            (T ++ tokens.map (shiftToken pre.length) ++
              [⟨v, name, i + pre.length, i + pre.length + 1, 1⟩]))) := by
      intro v name
      refine ShiftedStep.next_of_eq (by omega) ?_
      refine append_shiftToken _ _ _ _ _ ?_
      simp only [shiftToken, Token.mk.injEq, true_and, and_true]
      omega
    by_cases h0 : unicode.IsSpace U c = true
    · rw [if_pos h0, if_pos h0]
      exact ShiftedStep.next_of_eq (by omega) rfl
    · rw [if_neg h0, if_neg h0]
      by_cases h1 : c = TKN_BRACE_OPEN
      · rw [if_pos h1, if_pos h1]; exact hst _ _
      · rw [if_neg h1, if_neg h1]
        by_cases h2 : c = TKN_BRACE_CLOSE
        · rw [if_pos h2, if_pos h2]; exact hst _ _
        · rw [if_neg h2, if_neg h2]
          by_cases h3 : c = TKN_BRACKET_OPEN
          · rw [if_pos h3, if_pos h3]; exact hst _ _
          · rw [if_neg h3, if_neg h3]
            by_cases h4 : c = TKN_BRACKET_CLOSE
            · rw [if_pos h4, if_pos h4]; exact hst _ _
            · rw [if_neg h4, if_neg h4]
              by_cases h5 : c = TKN_COLON
              · rw [if_pos h5, if_pos h5]; exact hst _ _
              · rw [if_neg h5, if_neg h5]
                by_cases h6 : c = TKN_COMMA
                · rw [if_pos h6, if_pos h6]; exact hst _ _
                · rw [if_neg h6, if_neg h6]
                  by_cases h7 : c = TKN_QUOTE
                  · rw [if_pos h7, if_pos h7]
                    exact stringBranch_shift pre s T i tokens
                  · rw [if_neg h7, if_neg h7]
                    exact defaultBranch_shift U pre s T i c tokens

/-- The main loop behind `n` more characters does the same as without them,
`n` positions further. -/
theorem mainLoop_shift (U : UnicodeTables) (pre s : List Char) (T : List Token) :
    ∀ fuel i tokens, Shifted pre.length T (mainLoop U s fuel i tokens)
      (mainLoop U (pre ++ s) fuel (i + pre.length)
        (T ++ tokens.map (shiftToken pre.length))) := by
  intro fuel
  induction fuel with
  | zero =>
    intro i tokens
    unfold mainLoop
    by_cases h : i < s.length
    · rw [if_pos h, if_pos ((lt_shift pre s i).mpr h)]
      exact Shifted.outOfFuel
    · rw [if_neg h, if_neg (fun x => h ((lt_shift pre s i).mp x))]
      exact Shifted.success tokens
  | succ fuel ih =>
    intro i tokens
    unfold mainLoop
    by_cases h : i < s.length
    · rw [if_pos h, if_pos ((lt_shift pre s i).mpr h)]
      have hit := iteration_shift U pre s T i tokens
      generalize iteration U s i tokens = a at hit
      generalize iteration U (pre ++ s) (i + pre.length)
        (T ++ tokens.map (shiftToken pre.length)) = b at hit
      cases hit with
      | panic => exact Shifted.panic
      | outOfFuel => exact Shifted.outOfFuel
      | ret p msg => exact Shifted.failure p msg
      | next idx tokens1 => exact ih idx tokens1
    · rw [if_neg h, if_neg (fun x => h ((lt_shift pre s i).mp x))]
      exact Shifted.success tokens

/-- With enough fuel the result of the main loop does not depend on the
fuel. -/
theorem mainLoop_fuel (U : UnicodeTables) (runes : List Char) :
    ∀ fuel idx tokens, runes.length ≤ idx + fuel → ∀ fuel1, fuel ≤ fuel1 →
      mainLoop U runes fuel1 idx tokens = mainLoop U runes fuel idx tokens := by
  intro fuel
  induction fuel with
  | zero =>
    intro idx tokens h fuel1 _
    rw [mainLoop_exit U runes fuel1 idx tokens (by omega),
      mainLoop_exit U runes 0 idx tokens (by omega)]
  | succ fuel ih =>
    intro idx tokens h fuel1 hf
    obtain ⟨f, rfl⟩ : ∃ f, fuel1 = f + 1 := ⟨fuel1 - 1, by omega⟩
    rw [mainLoop, mainLoop]
    by_cases hlt : idx < runes.length
    · rw [if_pos hlt, if_pos hlt]
      cases hit : iteration U runes idx tokens with
      | panic => rfl
      | outOfFuel => rfl
      | done st =>
        cases st with
        | ret toks err => rfl
        | next idx1 tokens1 =>
          dsimp only
          have := (iteration_next hit).lt
          exact ih idx1 tokens1 (by omega) f (by omega)
    · rw [if_neg hlt, if_neg hlt]

/-- The run of `tokenizer` on a non-empty `s`, compared with the main loop on
`pre ++ s` entered at offset `length pre` with the tokens `T`. -/
theorem tokenizer_shift (U : UnicodeTables) (pre s : List Char) (T : List Token)
    (hs : s ≠ []) (fuel : Nat) (hf : s.length ≤ fuel) :
    Shifted pre.length T (tokenizer U s) (mainLoop U (pre ++ s) fuel pre.length T) := by
  have h := mainLoop_shift U pre s T fuel 0 []
  rw [Nat.zero_add, List.map_nil, List.append_nil,
    mainLoop_fuel U s s.length 0 [] (by omega) fuel hf] at h
  unfold tokenizer
  rw [if_neg (fun h0 => hs (List.length_eq_zero.mp h0))]
  exact h

/-- What `Shifted` says, case by case. -/
theorem Shifted.unpack {n : Nat} {T : List Token}
    {a b : Run (List Token × Option CustomError)} (h : Shifted n T a b) :
    (∀ toks, a = .done (toks, none) → b = .done (T ++ toks.map (shiftToken n), none)) ∧
      (∀ toks e, a = .done (toks, some e) →
        ∃ p, e.position = fmt.Sprint p ∧
          b = .done ([], some ⟨fmt.Sprint (p + n), e.error⟩)) ∧
      (a = .panic → b = .panic) ∧
      ((∃ toks, b = .done (toks, none)) ↔ ∃ toks, a = .done (toks, none)) := by
  cases h with
  | success tokens =>
    refine ⟨fun toks h => ?_, fun toks e h => ?_, fun h => ?_, ⟨fun _ => ⟨_, rfl⟩, fun _ => ⟨_, rfl⟩⟩⟩
    · injection h with h
      injection h with h1 _
      rw [h1]
    · injection h with h
      injection h with _ h2
      cases h2
    · cases h
  | failure p msg =>
    refine ⟨fun toks h => ?_, fun toks e h => ?_, fun h => ?_, ⟨?_, ?_⟩⟩
    · injection h with h
      injection h with _ h2
      cases h2
    · injection h with h
      injection h with _ h2
      injection h2 with h2
      subst h2
      exact ⟨p, rfl, rfl⟩
    · cases h
    · rintro ⟨toks, h⟩
      injection h with h
      injection h with _ h2
      cases h2
    · rintro ⟨toks, h⟩
      injection h with h
      injection h with _ h2
      cases h2
  | panic =>
    refine ⟨fun toks h => ?_, fun toks e h => ?_, fun _ => rfl, ⟨?_, ?_⟩⟩
    · cases h
    · cases h
    · rintro ⟨toks, h⟩
      cases h
    · rintro ⟨toks, h⟩
      cases h
  | outOfFuel =>
    refine ⟨fun toks h => ?_, fun toks e h => ?_, fun h => ?_, ⟨?_, ?_⟩⟩
    · cases h
    · cases h
    · cases h
    · rintro ⟨toks, h⟩
      cases h
    · rintro ⟨toks, h⟩
      cases h

/-- C18: a leading white-space character only shifts positions.  For a
non-empty `s`, `tokenizer (w :: s)` succeeds exactly when `tokenizer s` does;
on success its tokens are those of `s` with the same value, name and width and
with start and end one greater; on failure it returns the same message at a
position one greater (and it panics when `tokenizer s` does). -/
theorem C18_leading_whitespace (U : UnicodeTables) (w : Char) (s : List Char)
    (hw : unicode.IsSpace U w = true) (hs : s ≠ []) :
    (∀ toks, tokenizer U s = .done (toks, none) →
        tokenizer U (w :: s) = .done (toks.map (shiftToken 1), none)) ∧
      (∀ toks e, tokenizer U s = .done (toks, some e) →
        ∃ p, e.position = fmt.Sprint p ∧
          tokenizer U (w :: s) = .done ([], some ⟨fmt.Sprint (p + 1), e.error⟩)) ∧
      (tokenizer U s = .panic → tokenizer U (w :: s) = .panic) ∧
      ((∃ toks, tokenizer U (w :: s) = .done (toks, none)) ↔
        ∃ toks, tokenizer U s = .done (toks, none)) := by
  have h := tokenizer_shift U [w] s [] hs s.length (Nat.le_refl _)
  have e : tokenizer U (w :: s) = mainLoop U ([w] ++ s) s.length [w].length [] := by
    unfold tokenizer
    rw [if_neg (by simp), List.length_cons, mainLoop, if_pos (by simp),
      iteration_space [] (List.getElem?_cons_zero) hw]
    rfl
  rw [← e] at h
  have hu := h.unpack
  simp only [List.nil_append, List.length_singleton] at hu
  exact hu

/-- Witness for C18: a space in front of `[1`. -/
theorem C18_witness :
    tokenizer asciiTables [' ', '[', '1'] =
      .done ([⟨"[", NAME_BRACKET_OPEN, 0, 1, 1⟩, ⟨"1", NUMBER, 1, 2, 1⟩].map (shiftToken 1),
        none) :=
  (C18_leading_whitespace asciiTables ' ' ['[', '1'] rfl (by simp)).1 _ (by decide)

theorem keyword_step (U : UnicodeTables) (k name : String) (w : Nat)
    (hk : (k, name, w) ∈ keywords) (rest : List Char) (tokens : List Token) :
    k.data.length = w ∧ 0 < w ∧
      iteration U (k.data ++ rest) 0 tokens =
        .done (.next w (tokens ++ [⟨k, name, 0, w, w⟩])) := by
  simp only [keywords, List.mem_cons, List.mem_singleton, List.mem_nil_iff, or_false,
    Prod.mk.injEq] at hk
  rcases hk with ⟨h1, h2, h3⟩ | ⟨h1, h2, h3⟩ | ⟨h1, h2, h3⟩
  · subst h1 h2 h3
    refine ⟨rfl, by decide, ?_⟩
    have hs : unicode.IsSpace U 't' = false := rfl
    show iteration U ([] ++ 't' :: ('r' :: 'u' :: 'e' :: rest)) ([] : List Char).length tokens = _
    rw [iteration_default tokens (getElem?_append_cons [] _ _) hs (by decide)]
    unfold defaultBranch
    rw [slice_to_end _ _ (by simp), List.drop_left]
    dsimp only
    rw [HasPrefix_true, if_pos (by simp)]
    rfl
  · subst h1 h2 h3
    refine ⟨rfl, by decide, ?_⟩
    have hs : unicode.IsSpace U 'f' = false := rfl
    show iteration U ([] ++ 'f' :: ('a' :: 'l' :: 's' :: 'e' :: rest))
      ([] : List Char).length tokens = _
    rw [iteration_default tokens (getElem?_append_cons [] _ _) hs (by decide)]
    unfold defaultBranch
    rw [slice_to_end _ _ (by simp), List.drop_left]
    dsimp only
    rw [HasPrefix_true, HasPrefix_false, if_neg (by simp), if_pos (by simp)]
    rfl
  · subst h1 h2 h3
    refine ⟨rfl, by decide, ?_⟩
    have hs : unicode.IsSpace U 'n' = false := rfl
    show iteration U ([] ++ 'n' :: ('u' :: 'l' :: 'l' :: rest)) ([] : List Char).length tokens = _
    rw [iteration_default tokens (getElem?_append_cons [] _ _) hs (by decide)]
    unfold defaultBranch
    rw [slice_to_end _ _ (by simp), List.drop_left]
    dsimp only
    rw [HasPrefix_true, HasPrefix_false, HasPrefix_null, if_neg (by simp),
      if_neg (by simp), if_pos (by simp)]
    rfl

/-- C12: keyword literals are recognised by prefix match only.  For a keyword
`k` of width `w`, alone it gives the single keyword token; before a non-empty
`rest`, `tokenizer (k ++ rest)` succeeds exactly when `tokenizer rest` does;
on success its tokens are the keyword token followed by the tokens of `rest`
with start and end increased by `w`; on failure it returns the same message at
a position `w` greater (and it panics when `tokenizer rest` does). -/
theorem C12_keyword_then_rest (U : UnicodeTables) (k name : String) (w : Nat)
    (hk : (k, name, w) ∈ keywords) (rest : List Char) :
    tokenizer U k.data = .done ([⟨k, name, 0, w, w⟩], none) ∧
      (rest ≠ [] →
        (∀ toks, tokenizer U rest = .done (toks, none) →
          tokenizer U (k.data ++ rest) =
            .done (⟨k, name, 0, w, w⟩ :: toks.map (shiftToken w), none)) ∧
        (∀ toks e, tokenizer U rest = .done (toks, some e) →
          ∃ p, e.position = fmt.Sprint p ∧
            tokenizer U (k.data ++ rest) = .done ([], some ⟨fmt.Sprint (p + w), e.error⟩)) ∧
        (tokenizer U rest = .panic → tokenizer U (k.data ++ rest) = .panic) ∧
        ((∃ toks, tokenizer U (k.data ++ rest) = .done (toks, none)) ↔
          ∃ toks, tokenizer U rest = .done (toks, none))) := by
  refine ⟨?_, fun hrest => ?_⟩
  · obtain ⟨hl, hpos, hit⟩ := keyword_step U k name w hk [] []
    rw [List.append_nil] at hit
    obtain ⟨f, hf⟩ : ∃ f, k.data.length = f + 1 := ⟨w - 1, by omega⟩
    unfold tokenizer
    rw [if_neg (by omega)]
    conv_lhs => rw [hf]
    rw [mainLoop, if_pos (by omega), hit]
    dsimp only
    rw [mainLoop_exit U _ _ _ _ (by omega)]
    rfl
  · obtain ⟨hl, hpos, hit⟩ := keyword_step U k name w hk rest []
    have h := tokenizer_shift U k.data rest [⟨k, name, 0, w, w⟩] hrest (rest.length + w - 1)
      (by omega)
    have e : tokenizer U (k.data ++ rest) =
        mainLoop U (k.data ++ rest) (rest.length + w - 1) k.data.length [⟨k, name, 0, w, w⟩] := by
      have hlen : (k.data ++ rest).length = (rest.length + w - 1) + 1 := by
        rw [List.length_append, hl]
        omega
      unfold tokenizer
      rw [if_neg (by omega)]
      conv_lhs => rw [hlen]
      rw [mainLoop, if_pos (by omega), hit, hl]
      rfl
    rw [← e] at h
    have hu := h.unpack
    rw [hl] at hu
    exact hu

/-- Witness for C12: `truenull` gives the `true` token and the `null` token
shifted by 4. -/
theorem C12_witness :
    tokenizer asciiTables ("true".data ++ ['n', 'u', 'l', 'l']) =
      .done (⟨"true", TRUE, 0, 4, 4⟩ :: [⟨"null", NULL, 0, 4, 4⟩].map (shiftToken 4), none) :=
  ((C12_keyword_then_rest asciiTables "true" TRUE 4 (by decide) ['n', 'u', 'l', 'l']).2
    (by simp)).1 _ (by decide)

/-! ### `fmt.Sprint` is injective -/

theorem digitValue_digitChar (k : Nat) (h : k < 10) : digitValue (Nat.digitChar k) = k := by
  interval_cases k <;> rfl

theorem toDigitsCore_value :
    ∀ (fuel n : Nat) (ds : List Char), n < fuel →
      ∃ hd, Nat.toDigitsCore 10 fuel n ds = hd ++ ds ∧ decimalValue hd = n := by
  intro fuel
  induction fuel with
  | zero => intro n ds h; exact absurd h (Nat.not_lt_zero _)
  | succ fuel ih =>
    intro n ds h
    unfold Nat.toDigitsCore
    dsimp only
    have hv := digitValue_digitChar (n % 10) (Nat.mod_lt _ (by decide))
    by_cases h0 : n / 10 = 0
    · rw [if_pos h0]
      refine ⟨[Nat.digitChar (n % 10)], rfl, ?_⟩
      simp only [decimalValue, List.foldl_cons, List.foldl_nil, hv]
      omega
    · rw [if_neg h0]
      obtain ⟨hd, h1, h2⟩ := ih (n / 10) (Nat.digitChar (n % 10) :: ds) (by omega)
      refine ⟨hd ++ [Nat.digitChar (n % 10)], by rw [h1]; simp, ?_⟩
      unfold decimalValue at h2 ⊢
      rw [List.foldl_append, h2]
      simp only [List.foldl_cons, List.foldl_nil, hv]
      omega

/-- The decimal string of a number determines the number. -/
theorem Sprint_injective {a b : Nat} (h : fmt.Sprint a = fmt.Sprint b) : a = b := by
  unfold fmt.Sprint Nat.repr at h
  have hd : Nat.toDigits 10 a = Nat.toDigits 10 b := by
    have := congrArg String.data h
    exact this
  unfold Nat.toDigits at hd
  obtain ⟨ha, h1, h2⟩ := toDigitsCore_value (a + 1) a [] (Nat.lt_succ_self _)
  obtain ⟨hb, h3, h4⟩ := toDigitsCore_value (b + 1) b [] (Nat.lt_succ_self _)
  rw [h1, h3, List.append_nil, List.append_nil] at hd
  rw [← h2, ← h4, hd]

/-! ### The error "Invalid number format" (C15) -/

/-- With enough fuel the result of the number loop does not depend on the
fuel. -/
theorem scanNumber_fuel (U : UnicodeTables) (runes : List Char) :
    ∀ fuel idx isFloat isExp expDigits, runes.length ≤ idx + fuel → ∀ fuel1, fuel ≤ fuel1 →
      scanNumber U runes fuel1 idx isFloat isExp expDigits =
        scanNumber U runes fuel idx isFloat isExp expDigits := by
  intro fuel
  induction fuel with
  | zero =>
    intro idx isFloat isExp expDigits h fuel1 _
    rw [scanNumber_exit U runes fuel1 idx _ _ _ (by omega),
      scanNumber_exit U runes 0 idx _ _ _ (by omega)]
  | succ fuel ih =>
    intro idx isFloat isExp expDigits h fuel1 hf
    obtain ⟨f, rfl⟩ : ∃ f, fuel1 = f + 1 := ⟨fuel1 - 1, by omega⟩
    have ih1 : ∀ fl ex d, scanNumber U runes f (idx + 1) fl ex d =
        scanNumber U runes fuel (idx + 1) fl ex d :=
      fun fl ex d => ih (idx + 1) fl ex d (by omega) f (by omega)
    have ih2 : ∀ fl ex d, scanNumber U runes f (idx + 2) fl ex d =
        scanNumber U runes fuel (idx + 2) fl ex d :=
      fun fl ex d => ih (idx + 2) fl ex d (by omega) f (by omega)
    rw [scanNumber, scanNumber]
    simp only [ih1, ih2]

/-- At the start of a numeric literal the loop body is the number branch. -/
theorem iteration_startsNumber {U : UnicodeTables} {runes : List Char} {start : Nat}
    (h : StartsNumber U runes start) (tokens : List Token) :
    iteration U runes start tokens = numberBranch U runes start tokens := by
  obtain ⟨c, hc, hs, hd⟩ := h
  have hr : (0x2D ≤ c.toNat ∧ c.toNat ≤ 0x39) ∨ 0xFF < c.toNat := by
    rcases hd with hd | hd
    · unfold unicode.IsDigit at hd
      by_cases hl : c.toNat ≤ 0xFF
      · rw [if_pos hl] at hd
        have := of_decide_eq_true hd
        left
        omega
      · right
        omega
    · subst hd
      left
      exact ⟨by decide, by decide⟩
  have hne : ∀ d : Char, ((d.toNat < 0x2D ∨ 0x39 < d.toNat) ∧ d.toNat ≤ 0xFF) → c ≠ d := by
    intro d hd e
    rw [e] at hr
    omega
  have hn : c ∉ ['{', '}', '[', ']', ':', ',', '"'] := by
    simp only [List.mem_cons, List.mem_singleton, List.mem_nil_iff, or_false, not_or]
    exact ⟨hne _ (by decide), hne _ (by decide), hne _ (by decide), hne _ (by decide),
      hne _ (by decide), hne _ (by decide), hne _ (by decide)⟩
  have hlt := getElem?_lt hc
  obtain ⟨rest, hrest⟩ : ∃ rest, runes.drop start = c :: rest := by
    rw [List.drop_eq_getElem_cons hlt]
    have := List.getElem?_eq_some_iff.mp hc
    rw [this.2]
    exact ⟨_, rfl⟩
  have hpre : ∀ (d : Char) (l : List Char),
      ((d.toNat < 0x2D ∨ 0x39 < d.toNat) ∧ d.toNat ≤ 0xFF) →
      ¬ (List.isPrefixOf (d :: l) (c :: rest) = true) := by
    intro d l hd hp
    rw [List.isPrefixOf_iff_prefix] at hp
    rcases hp with ⟨t, ht⟩
    injection ht with h1 _
    exact hne d hd h1.symm
  rw [iteration_default tokens hc hs hn]
  unfold defaultBranch
  rw [slice_to_end runes start (Nat.le_of_lt hlt), hrest]
  dsimp only
  rw [HasPrefix_true, HasPrefix_false, HasPrefix_null, if_neg (hpre _ _ (by decide)),
    if_neg (hpre _ _ (by decide)), if_neg (hpre _ _ (by decide)), if_pos hd]

/-- A cursor the main loop reaches is where the run of `tokenizer` goes on. -/
theorem Reaches.mainLoop_eq {U : UnicodeTables} {runes : List Char} {idx : Nat}
    {tokens : List Token} (h : Reaches U runes idx tokens) :
    ∀ fuel, runes.length ≤ idx + fuel →
      mainLoop U runes runes.length 0 [] = mainLoop U runes fuel idx tokens := by
  induction h with
  | start =>
    intro fuel hf
    exact (mainLoop_fuel U runes runes.length 0 [] (by omega) fuel (by omega)).symm
  | @step idx idx1 tokens tokens1 _ hlt hit ih =>
    intro fuel hf
    have hs := (iteration_next hit).lt
    obtain ⟨k, hk⟩ : ∃ k, fuel + (idx1 - idx) = k + 1 := ⟨fuel + (idx1 - idx) - 1, by omega⟩
    rw [ih (fuel + (idx1 - idx)) (by omega), hk, mainLoop, if_pos hlt, hit]
    exact mainLoop_fuel U runes fuel idx1 tokens1 hf k (by omega)

/-- A state the number loop reaches is where its run goes on. -/
theorem NumberLoopAt.scanNumber_eq {U : UnicodeTables} {runes : List Char} {start idx : Nat}
    {isFloat isExp : Bool} (h : NumberLoopAt U runes start idx isFloat isExp) :
    ∃ d, ∀ fuel, runes.length ≤ idx + fuel →
      scanNumber U runes (runes.length - (start + 1)) (start + 1) false false 0 =
        scanNumber U runes fuel idx isFloat isExp d := by
  have hdot : ∀ V : UnicodeTables, unicode.IsDigit V '.' = false := fun _ => rfl
  induction h with
  | enter =>
    refine ⟨0, fun fuel hf => ?_⟩
    by_cases hle : runes.length - (start + 1) ≤ fuel
    · exact (scanNumber_fuel U runes _ _ _ _ _ (by omega) fuel hle).symm
    · exact scanNumber_fuel U runes fuel _ _ _ _ hf _ (by omega)
  | @digit idx isFloat isExp c _ hc hd ih =>
    obtain ⟨d, hd1⟩ := ih
    refine ⟨if isExp = true then d + 1 else d, fun fuel hf => ?_⟩
    rw [hd1 (fuel + 1) (by omega), scanNumber, if_pos (getElem?_lt hc), hc]
    dsimp only
    rw [if_pos hd]
  | @dot idx _ hc ih =>
    obtain ⟨d, hd1⟩ := ih
    refine ⟨d, fun fuel hf => ?_⟩
    rw [hd1 (fuel + 1) (by omega), scanNumber, if_pos (getElem?_lt hc), hc]
    dsimp only
    rw [if_neg (by rw [hdot]; decide), if_pos rfl, if_neg (by decide)]
  | @exponent idx isFloat c _ hc he hs ih =>
    obtain ⟨d, hd1⟩ := ih
    refine ⟨0, fun fuel hf => ?_⟩
    have hcd : unicode.IsDigit U c = false := by
      rcases he with e | e <;> subst e <;> rfl
    have hcdot : c ≠ '.' := by
      rcases he with e | e <;> subst e <;> decide
    rw [hd1 (fuel + 1) (by omega), scanNumber, if_pos (getElem?_lt hc), hc]
    dsimp only
    rw [if_neg (by rw [hcd]; decide), if_neg hcdot, if_pos he, if_neg (by decide)]
    by_cases hlt : idx + 1 < runes.length
    · rw [if_pos hlt, List.getElem?_eq_getElem hlt]
      dsimp only
      rw [if_neg (hs _ (List.getElem?_eq_getElem hlt))]
    · rw [if_neg hlt]
  | @exponentSign idx isFloat c s _ hc he hs hsg ih =>
    obtain ⟨d, hd1⟩ := ih
    refine ⟨0, fun fuel hf => ?_⟩
    have hcd : unicode.IsDigit U c = false := by
      rcases he with e | e <;> subst e <;> rfl
    have hcdot : c ≠ '.' := by
      rcases he with e | e <;> subst e <;> decide
    rw [hd1 (fuel + 1 + 1) (by omega), scanNumber, if_pos (getElem?_lt hc), hc]
    dsimp only
    rw [if_neg (by rw [hcd]; decide), if_neg hcdot, if_pos he, if_neg (by decide),
      if_pos (getElem?_lt hs), hs]
    dsimp only
    rw [if_pos hsg]
    exact scanNumber_fuel U runes fuel _ _ _ _ hf _ (by omega)

/-- When the number loop returns "Invalid number format", it has met a `.`
after an earlier `.` or exponent marker, at the position it reports. -/
theorem scanNumber_fail_format (U : UnicodeTables) (runes : List Char) (start : Nat) :
    ∀ fuel idx isFloat isExp expDigits e,
      NumberLoopAt U runes start idx isFloat isExp →
      scanNumber U runes fuel idx isFloat isExp expDigits = .done (.fail e) →
      e.error = "Invalid number format" →
      ∃ p fl ex, e = ⟨fmt.Sprint p, "Invalid number format"⟩ ∧
        NumberLoopAt U runes start p fl ex ∧ runes[p]? = some '.' ∧
        (fl = true ∨ ex = true) := by
  intro fuel
  induction fuel with
  | zero =>
    intro idx isFloat isExp expDigits e _ h _
    unfold scanNumber at h
    split at h <;> cases h
  | succ fuel ih =>
    intro idx isFloat isExp expDigits e hl h he
    unfold scanNumber at h
    by_cases hlt : idx < runes.length
    · rw [if_pos hlt] at h
      cases hc : runes[idx]? with
      | none =>
        rw [hc] at h
        cases h
      | some c =>
        rw [hc] at h
        dsimp only at h
        by_cases h1 : unicode.IsDigit U c = true
        · rw [if_pos h1] at h
          exact ih _ _ _ _ e (hl.digit hc h1) h he
        · rw [if_neg h1] at h
          by_cases h2 : c = '.'
          · subst h2
            rw [if_pos rfl] at h
            by_cases h3 : (isFloat || isExp) = true
            · rw [if_pos h3] at h
              injection h with h
              injection h with h
              subst h
              refine ⟨idx, isFloat, isExp, rfl, hl, hc, ?_⟩
              simpa using h3
            · rw [if_neg h3] at h
              have hf : isFloat = false ∧ isExp = false := by
                simpa using h3
              obtain ⟨hf1, hf2⟩ := hf
              subst hf1 hf2
              exact ih _ _ _ _ e (hl.dot hc) h he
          · rw [if_neg h2] at h
            by_cases h3 : c = 'e' ∨ c = 'E'
            · rw [if_pos h3] at h
              by_cases h4 : isExp = true
              · rw [if_pos h4] at h
                injection h with h
                injection h with h
                subst h
                exact absurd he (show ¬ ("Multiple exponents not allowed" : String) =
                  "Invalid number format" by decide)
              · rw [if_neg h4] at h
                have hx : isExp = false := by simpa using h4
                subst hx
                by_cases h5 : idx + 1 < runes.length
                · rw [if_pos h5] at h
                  cases hs : runes[idx + 1]? with
                  | none =>
                    rw [hs] at h
                    cases h
                  | some sg =>
                    rw [hs] at h
                    dsimp only at h
                    by_cases h6 : sg = '+' ∨ sg = '-'
                    · rw [if_pos h6] at h
                      exact ih _ _ _ _ e (hl.exponentSign hc h3 hs h6) h he
                    · rw [if_neg h6] at h
                      refine ih _ _ _ _ e (hl.exponent hc h3 ?_) h he
                      intro s1 hs1
                      rw [hs] at hs1
                      rw [← Option.some.inj hs1]
                      exact h6
                · rw [if_neg h5] at h
                  refine ih _ _ _ _ e (hl.exponent hc h3 ?_) h he
                  intro s1 hs1
                  exact absurd (getElem?_lt hs1) h5
            · rw [if_neg h3] at h
              cases h
    · rw [if_neg hlt] at h
      cases h

/-- A pass through the loop body that returns "Invalid number format" is a
pass through the number branch whose number loop returned it. -/
theorem iteration_ret_format {U : UnicodeTables} {runes : List Char} {idx : Nat}
    {tokens toks : List Token} {e : CustomError}
    (h : iteration U runes idx tokens = .done (.ret toks (some e)))
    (he : e.error = "Invalid number format") :
    toks = [] ∧ StartsNumber U runes idx ∧
      scanNumber U runes (runes.length - (idx + 1)) (idx + 1) false false 0 =
        .done (.fail e) := by
  have hne : ∀ (p m : String), m ≠ "Invalid number format" → e ≠ ⟨p, m⟩ := by
    intro p m hm hc
    rw [hc] at he
    exact hm he
  unfold iteration at h
  cases hc : runes[idx]? with
  | none =>
    rw [hc] at h
    cases h
  | some c =>
    rw [hc] at h
    dsimp only at h
    by_cases h0 : unicode.IsSpace U c = true
    · rw [if_pos h0] at h
      cases h
    · rw [if_neg h0] at h
      repeat' (split at h)
      all_goals first
        | cases h
        | skip
      · exfalso
        unfold stringBranch at h
        split at h
        · cases h
        · cases h
        · split at h
          · injection h with h
            injection h with _ h
            injection h with h
            exact hne _ _ (by decide) h.symm
          · split at h <;> cases h
      · unfold defaultBranch at h
        split at h
        · cases h
        · dsimp only at h
          split at h
          · cases h
          · split at h
            · cases h
            · split at h
              · cases h
              · split at h
                · rename_i hd
                  have hsn : StartsNumber U runes idx :=
                    ⟨c, hc, by simpa using h0, hd⟩
                  unfold numberBranch at h
                  split at h
                  · cases h
                  · cases h
                  · rename_i err hs
                    injection h with h
                    injection h with h1 h2
                    injection h2 with h2
                    subst h1 h2
                    exact ⟨rfl, hsn, hs⟩
                  · exfalso
                    split at h
                    · cases h
                    · dsimp only at h
                      split at h
                      · cases h
                      · injection h with h
                        injection h with _ h
                        injection h with h
                        exact hne _ _ (by decide) h.symm
                      · split at h
                        · injection h with h
                          injection h with _ h
                          injection h with h
                          exact hne _ _ (by decide) h.symm
                        · cases h
                · exfalso
                  injection h with h
                  injection h with _ h
                  injection h with h
                  exact hne _ _ (by decide) h.symm

/-- An error returned by the main loop is returned by a pass through the loop
body at a cursor the loop reaches. -/
theorem mainLoop_error_source (U : UnicodeTables) (runes : List Char) :
    ∀ fuel idx tokens toks e, Reaches U runes idx tokens →
      mainLoop U runes fuel idx tokens = .done (toks, some e) →
      ∃ idx1 tokens1, Reaches U runes idx1 tokens1 ∧ idx1 < runes.length ∧
        iteration U runes idx1 tokens1 = .done (.ret toks (some e)) := by
  intro fuel
  induction fuel with
  | zero =>
    intro idx tokens toks e _ h
    unfold mainLoop at h
    split at h <;> cases h
  | succ fuel ih =>
    intro idx tokens toks e hr h
    unfold mainLoop at h
    by_cases hlt : idx < runes.length
    · rw [if_pos hlt] at h
      cases hit : iteration U runes idx tokens with
      | panic => rw [hit] at h; cases h
      | outOfFuel => rw [hit] at h; cases h
      | done st =>
        rw [hit] at h
        cases st with
        | ret toks1 err =>
          dsimp only at h
          injection h with h
          injection h with h1 h2
          subst h1 h2
          exact ⟨idx, tokens, hr, hlt, hit⟩
        | next idx1 tokens1 =>
          dsimp only at h
          exact ih idx1 tokens1 toks e (hr.step hlt hit) h
    · rw [if_neg hlt] at h
      cases h

/-- The flags of the number loop record what the literal holds so far: an
earlier `.` when `isFloat` is set, an earlier exponent marker when `isExp` is
set. -/
theorem NumberLoopAt.earlier {U : UnicodeTables} {runes : List Char} {start idx : Nat}
    {isFloat isExp : Bool} (h : NumberLoopAt U runes start idx isFloat isExp) :
    start < idx ∧
      (isFloat = true → ∃ q, start < q ∧ q < idx ∧ runes[q]? = some '.') ∧
      (isExp = true → ∃ q, start < q ∧ q < idx ∧
        (runes[q]? = some 'e' ∨ runes[q]? = some 'E')) := by
  induction h with
  | enter =>
    exact ⟨Nat.lt_succ_self _, fun h => absurd h (by decide), fun h => absurd h (by decide)⟩
  | @digit idx isFloat isExp c _ hc hd ih =>
    obtain ⟨h1, h2, h3⟩ := ih
    refine ⟨by omega, fun hf => ?_, fun hx => ?_⟩
    · obtain ⟨q, hq1, hq2, hq3⟩ := h2 hf
      exact ⟨q, hq1, by omega, hq3⟩
    · obtain ⟨q, hq1, hq2, hq3⟩ := h3 hx
      exact ⟨q, hq1, by omega, hq3⟩
  | @dot idx _ hc ih =>
    obtain ⟨h1, h2, h3⟩ := ih
    exact ⟨by omega, fun _ => ⟨idx, h1, by omega, hc⟩, fun h => absurd h (by decide)⟩
  | @exponent idx isFloat c _ hc he hs ih =>
    obtain ⟨h1, h2, h3⟩ := ih
    refine ⟨by omega, fun hf => ?_, fun _ => ⟨idx, h1, by omega, ?_⟩⟩
    · obtain ⟨q, hq1, hq2, hq3⟩ := h2 hf
      exact ⟨q, hq1, by omega, hq3⟩
    · rcases he with e | e <;> subst e
      · exact Or.inl hc
      · exact Or.inr hc
  | @exponentSign idx isFloat c s _ hc he hs hsg ih =>
    obtain ⟨h1, h2, h3⟩ := ih
    refine ⟨by omega, fun hf => ?_, fun _ => ⟨idx, h1, by omega, ?_⟩⟩
    · obtain ⟨q, hq1, hq2, hq3⟩ := h2 hf
      exact ⟨q, hq1, by omega, hq3⟩
    · rcases he with e | e <;> subst e
      · exact Or.inl hc
      · exact Or.inr hc

/-- C15 fails as stated: on the input `1e.5` the error "Invalid number
format" is returned at position 2, although the input holds a single `.` and
none before offset 2. -/
theorem C15_counterexample :
    (∀ U : UnicodeTables,
        tokenizer U ['1', 'e', '.', '5'] = .done ([], some ⟨"2", "Invalid number format"⟩)) ∧
      ['1', 'e', '.', '5'].count '.' = 1 ∧
      ¬ ∃ q, q < 2 ∧ ['1', 'e', '.', '5'][q]? = some '.' := by
  refine ⟨fun _ => rfl, by decide, ?_⟩
  rintro ⟨q, hq, h⟩
  interval_cases q
  · exact absurd h (by decide)
  · exact absurd h (by decide)

/-- C15 as amended: `tokenizer` fails with "Invalid number format" at position
`p` exactly when, while scanning one numeric literal, it meets at offset `p` a
`.` in a literal that already holds an earlier `.` or an earlier exponent
marker; then `input[p]` is `.` and the literal, which starts at some `start`,
holds a `.`, `e` or `E` at an offset `q` with `start < q < p`. -/
theorem C15_invalid_number_format (U : UnicodeTables) (runes : List Char) (p : Nat) :
    ((∃ toks, tokenizer U runes = .done (toks, some ⟨fmt.Sprint p, "Invalid number format"⟩)) ↔
        MeetsLateDot U runes p) ∧
      (MeetsLateDot U runes p →
        runes[p]? = some '.' ∧
          ∃ start q, StartsNumber U runes start ∧ start < q ∧ q < p ∧
            (runes[q]? = some '.' ∨ runes[q]? = some 'e' ∨ runes[q]? = some 'E')) := by
  refine ⟨⟨?_, ?_⟩, ?_⟩
  · rintro ⟨toks, h⟩
    unfold tokenizer at h
    by_cases h0 : runes.length = 0
    · rw [if_pos h0] at h
      injection h with h
      injection h with _ h
      injection h with h
      injection h with _ h
      exact absurd h (by decide)
    · rw [if_neg h0] at h
      obtain ⟨idx1, tokens1, hr, hlt, hit⟩ :=
        mainLoop_error_source U runes _ _ _ _ _ Reaches.start h
      obtain ⟨-, hsn, hscan⟩ := iteration_ret_format hit rfl
      obtain ⟨p1, fl, ex, he, hl, hdot, hflag⟩ :=
        scanNumber_fail_format U runes idx1 _ _ _ _ _ _ NumberLoopAt.enter hscan rfl
      injection he with he1 _
      have hp := Sprint_injective he1
      subst hp
      exact ⟨idx1, tokens1, fl, ex, hr, hsn, hl, hdot, hflag⟩
  · rintro ⟨start, tokens, fl, ex, hr, hsn, hl, hdot, hflag⟩
    have hplt := getElem?_lt hdot
    have hstart : start < p := hl.earlier.1
    obtain ⟨d, hd⟩ := hl.scanNumber_eq
    have hscan : scanNumber U runes (runes.length - (start + 1)) (start + 1) false false 0 =
        .done (.fail ⟨fmt.Sprint p, "Invalid number format"⟩) := by
      have hdd : unicode.IsDigit U '.' = false := rfl
      rw [hd (runes.length - p - 1 + 1) (by omega), scanNumber, if_pos hplt, hdot]
      dsimp only
      rw [if_neg (by rw [hdd]; decide), if_pos rfl, if_pos (by
        rcases hflag with h | h <;> subst h <;> simp)]
    have hnb : numberBranch U runes start tokens =
        .done (.ret [] (some ⟨fmt.Sprint p, "Invalid number format"⟩)) := by
      unfold numberBranch
      rw [hscan]
    refine ⟨[], ?_⟩
    unfold tokenizer
    rw [if_neg (by omega), hr.mainLoop_eq (runes.length - start - 1 + 1) (by omega), mainLoop,
      if_pos (by omega), iteration_startsNumber hsn tokens, hnb]
  · rintro ⟨start, tokens, fl, ex, hr, hsn, hl, hdot, hflag⟩
    obtain ⟨h1, h2, h3⟩ := hl.earlier
    refine ⟨hdot, start, ?_⟩
    rcases hflag with h | h
    · obtain ⟨q, hq1, hq2, hq3⟩ := h2 h
      exact ⟨q, hsn, hq1, hq2, Or.inl hq3⟩
    · obtain ⟨q, hq1, hq2, hq3⟩ := h3 h
      exact ⟨q, hsn, hq1, hq2, Or.inr hq3⟩

/-! ### Leading-form validation of a single literal (C13) -/

/-- C13 fails as stated: the inputs `0e.5` and `-0e.5` are each one numeric
literal with a single `.` and a single exponent marker, and they begin with
`0` and `-0`; yet `tokenizer` fails on them with "Invalid number format" at
the `.`, not with "Invalid number" at position 0. -/
theorem C13_counterexample :
    (['0', 'e', '.', '5'].count '.' = 1 ∧
        ['0', 'e', '.', '5'].count 'e' + ['0', 'e', '.', '5'].count 'E' = 1 ∧
        (∀ U : UnicodeTables,
          tokenizer U ['0', 'e', '.', '5'] =
            .done ([], some ⟨"2", "Invalid number format"⟩)) ∧
        ∀ U : UnicodeTables,
          tokenizer U ['0', 'e', '.', '5'] ≠ .done ([], some ⟨"0", "Invalid number"⟩)) ∧
      (['-', '0', 'e', '.', '5'].count '.' = 1 ∧
        ['-', '0', 'e', '.', '5'].count 'e' + ['-', '0', 'e', '.', '5'].count 'E' = 1 ∧
        (∀ U : UnicodeTables,
          tokenizer U ['-', '0', 'e', '.', '5'] =
            .done ([], some ⟨"3", "Invalid number format"⟩)) ∧
        ∀ U : UnicodeTables,
          tokenizer U ['-', '0', 'e', '.', '5'] ≠ .done ([], some ⟨"0", "Invalid number"⟩)) := by
  refine ⟨⟨by decide, by decide, fun _ => rfl, fun U h => ?_⟩,
    ⟨by decide, by decide, fun _ => rfl, fun U h => ?_⟩⟩
  · have h1 : tokenizer U ['0', 'e', '.', '5'] =
        .done ([], some ⟨"2", "Invalid number format"⟩) := rfl
    rw [h1] at h
    revert h
    decide
  · have h1 : tokenizer U ['-', '0', 'e', '.', '5'] =
        .done ([], some ⟨"3", "Invalid number format"⟩) := rfl
    rw [h1] at h
    revert h
    decide

/-- C13 as amended: on an input that is exactly one numeric literal (it
starts with an ASCII digit or `-`, has a further character after a leading
`-`, and the number loop runs to the end of the input: after the first
character it meets only digits, at most one `.`, which comes before any
exponent marker, and at most one exponent marker with an optional sign),
`tokenizer` fails with "Invalid number" at position 0 exactly when the literal
starts with `0` or with `-0`. -/
theorem C13_leading_form (U : UnicodeTables) (c : Char) (rest : List Char)
    (isFloat isExp : Bool) (hc : AsciiDigit c ∨ c = '-') (hm : c = '-' → rest ≠ [])
    (hloop : NumberLoopAt U (c :: rest) 0 (rest.length + 1) isFloat isExp) :
    tokenizer U (c :: rest) = .done ([], some ⟨"0", "Invalid number"⟩) ↔
      (c = '0' ∨ (c = '-' ∧ rest.head? = some '0')) := by
  obtain ⟨d, hd⟩ := hloop.scanNumber_eq
  have hscan : scanNumber U (c :: rest) rest.length 1 false false 0 =
      .done (.numberDone (rest.length + 1) isExp d) := by
    have h := hd 0 (by simp)
    have e1 : (c :: rest).length - (0 + 1) = rest.length := by simp
    rw [e1, Nat.zero_add] at h
    rw [h]
    exact scanNumber_exit U (c :: rest) 0 (rest.length + 1) isFloat isExp d (by simp)
  exact single_literal_leading_form U c rest isExp d hc hm hscan

/-- Witness for the amended C13: the input `01` fails with "Invalid number"
at position 0, so does the single digit `0`, and so does `-0.5e1`. -/
theorem C13_witness :
    tokenizer asciiTables ['0', '1'] = .done ([], some ⟨"0", "Invalid number"⟩) ∧
      tokenizer asciiTables ['0'] = .done ([], some ⟨"0", "Invalid number"⟩) ∧
      tokenizer asciiTables ['-', '0', '.', '5', 'e', '1'] =
        .done ([], some ⟨"0", "Invalid number"⟩) :=
  ⟨(C13_leading_form asciiTables '0' ['1'] false false (Or.inl ⟨by decide, by decide⟩)
      (by decide) (NumberLoopAt.digit NumberLoopAt.enter rfl rfl)).mpr (Or.inl rfl),
    (C13_leading_form asciiTables '0' [] false false (Or.inl ⟨by decide, by decide⟩)
      (by decide) NumberLoopAt.enter).mpr (Or.inl rfl),
    (C13_leading_form asciiTables '-' ['0', '.', '5', 'e', '1'] true true (Or.inr rfl)
      (by decide)
      (NumberLoopAt.digit
        (NumberLoopAt.exponent
          (NumberLoopAt.digit
            (NumberLoopAt.dot (NumberLoopAt.digit NumberLoopAt.enter rfl rfl) rfl) rfl rfl)
          rfl (Or.inl rfl) (by
            intro s hs
            have : s = '1' := (Option.some.inj hs).symm
            subst this
            decide))
        rfl rfl)).mpr (Or.inr ⟨rfl, rfl⟩)⟩

end Lexer
